import Mathlib

/-!
# Verification of the sync-dir scan/plan/execute pipeline

Shallow embedding of the `sync-dir` repository (packages `pkg/fileinfo`,
`pkg/syncer`, `pkg/ignore`, `cmd`) in Lean 4, together with proofs about the
planner (`createSyncPlan`, `NeedsUpdate`), the scanner (`scanDirectory`),
the executor (`executePlan` / `copyFile`) and the CLI entry point
(`rootCmd.RunE`).

Modelling conventions:
* machine integers (`int64` sizes, `time.Time` in nanoseconds) are `Nat`
  (all values occurring in the pipeline are non-negative);
* Go's `time.Time.Truncate(time.Second)` becomes truncation of the
  nanosecond count to a whole second;
* fallible Go calls (`calculateSHA256`, `NeedsUpdate`) become `Except`
  values, distinguishing `os.IsNotExist` errors from other I/O errors;
* Go maps `map[string]*fileinfo.FileInfo` become association lists
  `List (String × FileInfo)`; a `Nodup` hypothesis on the keys models the
  uniqueness of map keys, and quantifying over the list covers every
  possible Go map iteration order;
* the filesystem is an association list of slash-separated relative paths
  to node metadata with a well-formedness predicate (unique keys, clean
  non-empty paths, every ancestor present as a directory), which is the
  state acted on by a sequential model of the executor.
-/

deriving instance DecidableEq for Except

namespace SyncDir

/-! ## Paths

Relative paths are slash-separated strings as produced by `filepath.Rel`
(hence already `filepath.Clean`-normal: no empty components, no leading or
trailing separator).  We split on `'/'` at the character-list level so that
splitting and joining are easy to reason about. -/

/-- Split a character list at every `'/'`.  Always returns a non-empty list
of components (the empty string splits to `[[]]`), mirroring
`strings.Split`. -/
def splitSlash : List Char → List (List Char)
  | [] => [[]]
  | c :: cs =>
    if c = '/' then [] :: splitSlash cs
    else
      match splitSlash cs with
      | [] => [[c]]
      | comp :: rest => (c :: comp) :: rest

/-- Join character-list components with `'/'`. -/
def joinSlash : List (List Char) → List Char
  | [] => []
  | [c] => c
  | c :: cs => c ++ '/' :: joinSlash cs

/-- Components of a relative path. -/
def pathComponents (p : String) : List (List Char) := splitSlash p.data

/-- Rebuild a path from components. -/
def pathOfComponents (l : List (List Char)) : String := ⟨joinSlash l⟩

/-- `filepath.Base` of a relative path: its last component (paths handled
here are non-empty and clean, where `Base` is exactly the last
slash-separated component). -/
def pathBase (p : String) : String :=
  ⟨(pathComponents p).getLastD []⟩

/-- A clean non-empty relative path: non-empty components only (this rules
out `""`, leading/trailing `'/'` and empty components, matching the output
of `filepath.Rel` for a proper descendant of the root). -/
def ValidPath (p : String) : Prop := ∀ c ∈ pathComponents p, c ≠ []

instance (p : String) : Decidable (ValidPath p) := by
  unfold ValidPath; infer_instance

/-- `q` is a strict (proper) path-prefix of `p`: its component list is a
proper prefix of the component list of `p`. -/
def IsStrictAncestor (q p : String) : Prop :=
  pathComponents q <+: pathComponents p ∧ pathComponents q ≠ pathComponents p

instance (q p : String) : Decidable (IsStrictAncestor q p) := by
  unfold IsStrictAncestor; exact instDecidableAnd

/-- The proper ancestors of a path, shortest first: the joined proper
non-empty prefixes of its component list.  These are the directories that
`os.MkdirAll(filepath.Dir(target))` creates (the root itself always
exists and is not listed). -/
def properAncestors (p : String) : List String :=
  let cs := pathComponents p
  (List.range (cs.length - 1)).map (fun i => pathOfComponents (cs.take (i + 1)))

/-- Number of separators in the path: `strings.Count(filepath.Clean(relPath),
string(os.PathSeparator))`.  The relative paths handled by the planner come
from `filepath.Rel` and are already clean, so `filepath.Clean` is the
identity on them and the count is taken directly. -/
def pathDepth (p : String) : Nat := p.data.count '/'

/-- Go's `<` on strings (byte-wise lexicographic), as the lexicographic
order on the character lists: UTF-8 byte order and code-point order
coincide, so this is the same relation. -/
def goStringLt (a b : String) : Prop := a.data < b.data

instance (a b : String) : Decidable (goStringLt a b) := by
  unfold goStringLt; infer_instance

/-! ## `pkg/fileinfo`: `FileInfo` and `NeedsUpdate` -/

/-- Error of a checksum computation (`calculateSHA256`), distinguishing
`os.IsNotExist` failures from other I/O failures. -/
inductive ChecksumErr where
  | notExist : ChecksumErr
  | ioError : ChecksumErr
deriving DecidableEq, Repr

/-- The `calculateChecksum func(path string) (string, error)` argument of
`NeedsUpdate`. -/
abbrev ChecksumFn := String → Except ChecksumErr String

/-- Error returned by `NeedsUpdate` (a wrapped checksum failure for the
source or the target side). -/
inductive NeedsUpdateErr where
  | sourceChecksum : ChecksumErr → NeedsUpdateErr
  | targetChecksum : ChecksumErr → NeedsUpdateErr
deriving DecidableEq, Repr

/-- `time.Time.Truncate(time.Second)` on a nanosecond timestamp. -/
def truncSec (t : Nat) : Nat := t - t % 1000000000

/-- `fileinfo.FileInfo`: metadata about one file or directory.
`Size` and `ModTime` are `Nat` (bytes, nanoseconds); `Mode` carries the
permission bits; the `Checksum` field of the Go struct is never populated
by the pipeline and is omitted. -/
structure FileInfo where
  RelPath : String
  AbsPath : String
  Size : Nat
  Mode : Nat
  ModTime : Nat
  IsDir : Bool
deriving DecidableEq, Repr

/-- `(*FileInfo).NeedsUpdate`: decides whether the target file must be
updated from the source file.  Mirrors `pkg/fileinfo/fileinfo.go`:
type mismatch is always an update; directories never update; differing
sizes are conclusive; equal sizes with second-truncated times differing
require checksums (source first; a vanished target counts as needing
update); otherwise no update. -/
def FileInfo.NeedsUpdate (fi targetFi : FileInfo) (calculateChecksum : ChecksumFn) :
    Except NeedsUpdateErr Bool :=
  if fi.IsDir ≠ targetFi.IsDir then .ok true
  else if fi.IsDir then .ok false
  else
    let timeDiffers := truncSec fi.ModTime ≠ truncSec targetFi.ModTime
    let sizeDiffers := fi.Size ≠ targetFi.Size
    if sizeDiffers then .ok true
    else if timeDiffers then
      match calculateChecksum fi.AbsPath with
      | .error e => .error (.sourceChecksum e)
      | .ok sourceChecksum =>
        match calculateChecksum targetFi.AbsPath with
        | .error e =>
          if e = .notExist then .ok true
          else .error (.targetChecksum e)
        | .ok targetChecksum => .ok (sourceChecksum ≠ targetChecksum)
    else .ok false

/-- The sequence of paths passed to `calculateChecksum` during a
`NeedsUpdate` call: the same branching as `FileInfo.NeedsUpdate`, recording
each invocation of the checksum function. -/
def FileInfo.NeedsUpdateCalls (fi targetFi : FileInfo) (calculateChecksum : ChecksumFn) :
    List String :=
  if fi.IsDir ≠ targetFi.IsDir then []
  else if fi.IsDir then []
  else
    let timeDiffers := truncSec fi.ModTime ≠ truncSec targetFi.ModTime
    let sizeDiffers := fi.Size ≠ targetFi.Size
    if sizeDiffers then []
    else if timeDiffers then
      match calculateChecksum fi.AbsPath with
      | .error _ => [fi.AbsPath]
      | .ok _ => [fi.AbsPath, targetFi.AbsPath]
    else []

/-! ## `pkg/syncer/plan.go`: actions and the sync plan -/

/-- `SyncActionType`: the kind of a planned operation (`None` exists in the
Go enumeration for internal tracking and is never emitted). -/
inductive SyncActionType where
  | Add : SyncActionType
  | Update : SyncActionType
  | Delete : SyncActionType
  | NoneType : SyncActionType
deriving DecidableEq, Repr

/-- `SyncAction`: a single operation of the plan (`Typ` is the Go field
`Type`, a reserved word in Lean). -/
structure SyncAction where
  Typ : SyncActionType
  SourceInfo : Option FileInfo
  TargetInfo : Option FileInfo
  RelPath : String
deriving DecidableEq, Repr

/-- `SyncPlan`: ordered actions plus summary counts. -/
structure SyncPlan where
  Actions : List SyncAction
  Adds : Nat
  Updates : Nat
  Deletes : Nat
deriving DecidableEq, Repr

/-- The comparison closure passed to `sort.SliceStable` in
`createSyncPlan`: deletes first; among deletes deepest path first, ties
alphabetical; updates before adds; among same-kind non-deletes,
alphabetical by relative path. -/
def actionLess (actionI actionJ : SyncAction) : Bool :=
  if actionI.Typ = .Delete ∧ actionJ.Typ ≠ .Delete then true
  else if actionI.Typ ≠ .Delete ∧ actionJ.Typ = .Delete then false
  else if actionI.Typ = .Delete ∧ actionJ.Typ = .Delete then
    let depthI := pathDepth actionI.RelPath
    let depthJ := pathDepth actionJ.RelPath
    if depthI ≠ depthJ then depthJ < depthI
    else goStringLt actionI.RelPath actionJ.RelPath
  else if actionI.Typ = .Update ∧ actionJ.Typ = .Add then true
  else if actionI.Typ = .Add ∧ actionJ.Typ = .Update then false
  else goStringLt actionI.RelPath actionJ.RelPath

/-- Stable insertion with respect to a strict comparator: the new element
goes after every existing element strictly smaller than it and before the
first that is not. -/
def stableInsert (less : α → α → Bool) (a : α) : List α → List α
  | [] => [a]
  | b :: l => if less b a then b :: stableInsert less a l else a :: b :: l

/-- Stable sort with respect to a strict comparator; for a strict weak
order it computes the same list as Go's `sort.SliceStable`. -/
def stableSort (less : α → α → Bool) : List α → List α
  | [] => []
  | a :: l => stableInsert less a (stableSort less l)

/-- One iteration of the first loop of `createSyncPlan` (over the source
entries): classify `(relPath, sourceFi)` against the target map, appending
actions, bumping counters and recording comparison warnings. -/
def processSourceEntry (targetFiles : List (String × FileInfo))
    (calculateChecksum : ChecksumFn)
    (acc : SyncPlan × List String) (entry : String × FileInfo) :
    SyncPlan × List String :=
  let (plan, warnings) := acc
  let relPath := entry.1
  let sourceFi := entry.2
  match targetFiles.lookup relPath with
  | none =>
    ({ plan with
        Actions := plan.Actions ++
          [{ Typ := .Add, SourceInfo := some sourceFi, TargetInfo := none,
             RelPath := relPath }],
        Adds := plan.Adds + 1 }, warnings)
  | some targetFi =>
    if sourceFi.IsDir ≠ targetFi.IsDir then
      ({ plan with
          Actions := plan.Actions ++
            [{ Typ := .Delete, SourceInfo := none, TargetInfo := some targetFi,
               RelPath := relPath },
             { Typ := .Add, SourceInfo := some sourceFi, TargetInfo := some targetFi,
               RelPath := relPath }],
          Adds := plan.Adds + 1,
          Deletes := plan.Deletes + 1 }, warnings)
    else if sourceFi.IsDir then (plan, warnings)
    else
      match sourceFi.NeedsUpdate targetFi calculateChecksum with
      | .error _ =>
        -- comparison error: logged as a warning, treated as update needed
        ({ plan with
            Actions := plan.Actions ++
              [{ Typ := .Update, SourceInfo := some sourceFi,
                 TargetInfo := some targetFi, RelPath := relPath }],
            Updates := plan.Updates + 1 },
         warnings ++ [relPath])
      | .ok needsUpdate =>
        if needsUpdate then
          ({ plan with
              Actions := plan.Actions ++
                [{ Typ := .Update, SourceInfo := some sourceFi,
                   TargetInfo := some targetFi, RelPath := relPath }],
              Updates := plan.Updates + 1 }, warnings)
        else (plan, warnings)

/-- One iteration of the second loop of `createSyncPlan` (over the target
entries): targets absent from the source map become deletions
(`processedTargetFiles` contains exactly the source keys). -/
def processTargetEntry (sourceFiles : List (String × FileInfo))
    (acc : SyncPlan × List String) (entry : String × FileInfo) :
    SyncPlan × List String :=
  let (plan, warnings) := acc
  match sourceFiles.lookup entry.1 with
  | some _ => (plan, warnings)
  | none =>
    ({ plan with
        Actions := plan.Actions ++
          [{ Typ := .Delete, SourceInfo := none, TargetInfo := some entry.2,
             RelPath := entry.1 }],
        Deletes := plan.Deletes + 1 }, warnings)

/-- `createSyncPlan`: compare the source and target maps and produce the
ordered plan; also returns the comparison warnings written to stderr.
The Go function's `error` return value is always `nil`, so the model is
total. -/
def createSyncPlan (sourceFiles targetFiles : List (String × FileInfo))
    (calculateChecksum : ChecksumFn) : SyncPlan × List String :=
  let init : SyncPlan × List String := ({ Actions := [], Adds := 0, Updates := 0, Deletes := 0 }, [])
  let afterSource := sourceFiles.foldl (processSourceEntry targetFiles calculateChecksum) init
  let afterTarget := targetFiles.foldl (processTargetEntry sourceFiles) afterSource
  ({ afterTarget.1 with Actions := stableSort actionLess afterTarget.1.Actions },
   afterTarget.2)


/-! ## Properties of the stable sort -/

/-- The actions contributed by one source entry during the first loop of
`createSyncPlan`. -/
def sourceActions (targetFiles : List (String × FileInfo)) (cf : ChecksumFn)
    (e : String × FileInfo) : List SyncAction :=
  match targetFiles.lookup e.1 with
  | none => [⟨.Add, some e.2, none, e.1⟩]
  | some t =>
    if e.2.IsDir ≠ t.IsDir then
      [⟨.Delete, none, some t, e.1⟩, ⟨.Add, some e.2, some t, e.1⟩]
    else if e.2.IsDir then []
    else match e.2.NeedsUpdate t cf with
      | .error _ => [⟨.Update, some e.2, some t, e.1⟩]
      | .ok b => if b then [⟨.Update, some e.2, some t, e.1⟩] else []

/-- The warnings contributed by one source entry during the first loop of
`createSyncPlan`. -/
def sourceWarnings (targetFiles : List (String × FileInfo)) (cf : ChecksumFn)
    (e : String × FileInfo) : List String :=
  match targetFiles.lookup e.1 with
  | none => []
  | some t =>
    if e.2.IsDir ≠ t.IsDir then []
    else if e.2.IsDir then []
    else match e.2.NeedsUpdate t cf with
      | .error _ => [e.1]
      | .ok _ => []

/-- The actions contributed by one target entry during the second loop of
`createSyncPlan`. -/
def targetActions (sourceFiles : List (String × FileInfo))
    (e : String × FileInfo) : List SyncAction :=
  match sourceFiles.lookup e.1 with
  | some _ => []
  | none => [⟨.Delete, none, some e.2, e.1⟩]

/-- The unsorted action list built by the two loops of `createSyncPlan`. -/
def unsortedActions (sourceFiles targetFiles : List (String × FileInfo))
    (cf : ChecksumFn) : List SyncAction :=
  sourceFiles.flatMap (sourceActions targetFiles cf) ++
    targetFiles.flatMap (targetActions sourceFiles)

/-- Append a batch of actions and warnings to a planner accumulator,
bumping each counter by the number of appended actions of its kind. -/
def appendActs (acc : SyncPlan × List String) (acts : List SyncAction)
    (warns : List String) : SyncPlan × List String :=
  ({ Actions := acc.1.Actions ++ acts,
     Adds := acc.1.Adds + acts.countP (fun a => a.Typ = .Add),
     Updates := acc.1.Updates + acts.countP (fun a => a.Typ = .Update),
     Deletes := acc.1.Deletes + acts.countP (fun a => a.Typ = .Delete) },
   acc.2 ++ warns)

/-- The planner's resolution of a `NeedsUpdate` result: a comparison error
is conservatively treated as "update needed". -/
def needsUpdateResolved (fi targetFi : FileInfo) (cf : ChecksumFn) : Bool :=
  match fi.NeedsUpdate targetFi cf with
  | .error _ => true
  | .ok b => b

def orderingContractClaim (actions : List SyncAction) : Prop :=
  actions.Pairwise (fun x y =>
    (y.Typ = .Delete → x.Typ = .Delete) ∧
    (x.Typ = .Delete → y.Typ = .Delete → pathDepth y.RelPath ≤ pathDepth x.RelPath) ∧
    (x.Typ ≠ .Delete → y.Typ ≠ .Delete → ¬ goStringLt y.RelPath x.RelPath))

instance (actions : List SyncAction) : Decidable (orderingContractClaim actions) := by
  unfold orderingContractClaim
  exact actions.instDecidablePairwise

/-- The actions a given relative path contributes to the (unsorted) plan,
as a function of the two map lookups: present only in source gives one
Add; present only in target gives one Delete; a kind mismatch gives one
Delete plus one Add; two directories give nothing; two files give one
Update exactly when the planner resolves `NeedsUpdate` to true. -/
def keyActions (src tgt : List (String × FileInfo)) (cf : ChecksumFn)
    (p : String) : List SyncAction :=
  match src.lookup p, tgt.lookup p with
  | none, none => []
  | some s, none => [⟨.Add, some s, none, p⟩]
  | none, some t => [⟨.Delete, none, some t, p⟩]
  | some s, some t =>
    if s.IsDir ≠ t.IsDir then
      [⟨.Delete, none, some t, p⟩, ⟨.Add, some s, some t, p⟩]
    else if s.IsDir then []
    else if needsUpdateResolved s t cf then [⟨.Update, some s, some t, p⟩] else []

/-! ## The filesystem model

The executor acts on a real directory tree; we model the tree as an
association list of slash-separated relative paths to node metadata, with
a well-formedness predicate stating exactly what holds of a real tree:
keys are unique clean paths and every proper ancestor of a key is present
as a directory. -/

/-- Metadata of one filesystem node.  `content` stands for the byte
content of a file (what `copyFile` streams and `calculateSHA256` hashes);
directories carry no meaningful size/content. -/
structure Node where
  isDir : Bool
  size : Nat
  mode : Nat
  modTime : Nat
  content : String
deriving DecidableEq, Repr

/-- A directory tree: relative path → node metadata. -/
abbrev FS := List (String × Node)

/-- Lookup in a tree (the model of resolving a relative path). -/
def fsLookup (fs : FS) (p : String) : Option Node :=
  match fs with
  | [] => none
  | e :: rest => if e.1 = p then some e.2 else fsLookup rest p

/-- Well-formed tree: unique keys, clean non-empty relative paths, every
proper ancestor of a key present and a directory (in particular a file
never has entries below it). -/
def WfFS (fs : FS) : Prop :=
  (fs.map Prod.fst).Nodup ∧
  ∀ e ∈ fs, ValidPath e.1 ∧
    ∀ q ∈ properAncestors e.1, ∃ n, fsLookup fs q = some n ∧ n.isDir = true

instance (fs : FS) : Decidable (WfFS fs) := by
  unfold WfFS; infer_instance

/-! ## `pkg/syncer/scanner.go`: `scanDirectory` over a tree -/

/-- Whether the (optional) ignore matcher matches a relative path; the
target scan passes a nil matcher (`syncer.go:59`). -/
def matcherHits (matcher : Option (String → Bool)) (p : String) : Bool :=
  match matcher with
  | none => false
  | some m => m p

/-- Whether the walk of `scanDirectory` stores a node: the node itself is
skipped when its base name is `.sync-ignore` (scanner.go:73, this check
runs for every scan since `dirPath == rootPath` at both call sites) or
when the matcher matches it (scanner.go:77); a node below a
matcher-matched directory is never visited at all (`filepath.SkipDir`,
scanner.go:81).  A `.sync-ignore`-named directory is skipped but not
pruned, so this predicate looks only at matcher hits of the proper
ancestors. -/
def scanIncluded (matcher : Option (String → Bool)) (p : String) : Bool :=
  pathBase p ≠ ".sync-ignore" ∧ matcherHits matcher p = false ∧
    ∀ q ∈ properAncestors p, matcherHits matcher q = false

/-- The `FileInfo` recorded for a visited node
(`fileinfo.New(relPath, absPath, info)`). -/
def toFileInfo (root p : String) (n : Node) : FileInfo :=
  { RelPath := p, AbsPath := root ++ "/" ++ p, Size := n.size,
    Mode := n.mode, ModTime := n.modTime, IsDir := n.isDir }

/-- `scanDirectory(root, root, matcher)` over a well-formed tree: every
node whose path the walk reaches and keeps, mapped to its `FileInfo`.  The
walk itself is concurrent, with the map writes serialized behind a mutex;
its result on a well-formed tree is this filter (the output order of an
association list stands for an arbitrary Go map iteration order). -/
def scanDirectory (root : String) (matcher : Option (String → Bool)) (fs : FS) :
    List (String × FileInfo) :=
  fs.filterMap (fun e =>
    if scanIncluded matcher e.1 then some (e.1, toFileInfo root e.1 e.2) else none)

/-- `scanDirectory` when the root may be missing: `filepath.WalkDir` hands
the root stat failure to the callback, which logs a warning and returns
nil (scanner.go:45-52), so the function returns an empty map and a nil
error.  The second component is the returned `error` value, always nil in
these branches. -/
def scanDirectoryRun (root : String) (matcher : Option (String → Bool))
    (fsOpt : Option FS) : List (String × FileInfo) × Option String :=
  match fsOpt with
  | none => ([], none)
  | some fs => (scanDirectory root matcher fs, none)

/-! ## Content digests over trees (`pkg/syncer/checksum.go`)

`calculateSHA256` opens the file at an absolute path and hashes its
bytes through the worker pool.  Over the model, an absolute path is
`"SRC/" ++ p` or `"TGT/" ++ p` (the two roots), reading whichever tree is
live; `h` is the hash function (SHA-256 itself is opaque here).  A missing
file gives an `os.IsNotExist` error; opening a directory and hashing it
fails with a non-not-exist I/O error (`io.Copy` on a directory). -/
def fsChecksum (srcFS tgtFS : FS) (h : String → String) : ChecksumFn :=
  fun abs =>
    match (srcFS.map (fun e => ("SRC/" ++ e.1, e.2)) ++
        tgtFS.map (fun e => ("TGT/" ++ e.1, e.2))).lookup abs with
    | none => .error .notExist
    | some n => if n.isDir then .error .ioError else .ok (h n.content)

/-! ## `pkg/syncer/executor.go`: applying a plan to the target tree -/

/-- An error applying one action (collected, never fatal). -/
inductive ApplyErr where
  | mkdirFailed : String → ApplyErr
  | copyOpenFailed : String → ApplyErr
  | copyReadFailed : String → ApplyErr
  | copyWriteFailed : String → ApplyErr
  | deleteFailed : String → ApplyErr
  | missingInfo : String → ApplyErr
deriving DecidableEq, Repr

/-- Insert or overwrite one path in the tree. -/
def fsInsert (fs : FS) (p : String) (n : Node) : FS :=
  match fs with
  | [] => [(p, n)]
  | e :: rest => if e.1 = p then (p, n) :: rest else e :: fsInsert rest p n

/-- `os.Remove`-style removal of the single entry at `p`. -/
def fsRemove (fs : FS) (p : String) : FS :=
  fs.filter (fun e => decide (e.1 ≠ p))

/-- `os.RemoveAll`-style removal of `p` and everything below it. -/
def fsRemoveTree (fs : FS) (p : String) : FS :=
  fs.filter (fun e => decide (¬ (e.1 = p ∨ IsStrictAncestor p e.1)))

/-- `os.MkdirAll` over the listed ancestors (shortest first): create each
missing one as a directory with permission `0755`; fail when an existing
entry on the way is not a directory, keeping the directories already
created. -/
def mkdirAll (fs : FS) : List String → FS × Bool
  | [] => (fs, true)
  | q :: rest =>
    match fsLookup fs q with
    | none => mkdirAll (fsInsert fs q ⟨true, 0, 493, 0, ""⟩) rest
    | some n => if n.isDir then mkdirAll fs rest else (fs, false)

/-- `copyFile(src, dst, perm, modTime, ...)`: open the source, open/create
the destination with truncation (fails if the destination parent is
missing or the destination is a directory), stream the bytes, then set the
modification time.  `srcRead` resolves the source absolute path (the
source tree does not change during the run).  Opening a directory as the
source succeeds but reading it fails, after the destination was already
truncated. -/
def copyFile (srcRead : String → Option Node) (fs : FS)
    (srcAbs relPath : String) (perm modTime : Nat) : FS × Option ApplyErr :=
  match srcRead srcAbs with
  | none => (fs, some (.copyOpenFailed relPath))
  | some sn =>
    if ∀ q ∈ properAncestors relPath, ∃ n, fsLookup fs q = some n ∧ n.isDir = true then
      match fsLookup fs relPath with
      | some dn =>
        if dn.isDir then (fs, some (.copyWriteFailed relPath))
        else if sn.isDir then
          (fsInsert fs relPath ⟨false, 0, dn.mode, dn.modTime, ""⟩,
            some (.copyReadFailed relPath))
        else (fsInsert fs relPath ⟨false, sn.size, dn.mode, modTime, sn.content⟩, none)
      | none =>
        if sn.isDir then
          (fsInsert fs relPath ⟨false, 0, perm, 0, ""⟩, some (.copyReadFailed relPath))
        else (fsInsert fs relPath ⟨false, sn.size, perm, modTime, sn.content⟩, none)
    else (fs, some (.copyWriteFailed relPath))

/-- Apply one `SyncAction` to the target tree (the body of the worker
goroutine, executor.go:111-183). -/
def applyAction (srcRead : String → Option Node) (fs : FS) (act : SyncAction) :
    FS × Option ApplyErr :=
  match act.Typ with
  | .Add =>
    match mkdirAll fs (properAncestors act.RelPath) with
    | (fs1, false) => (fs1, some (.mkdirFailed act.RelPath))
    | (fs1, true) =>
      match act.SourceInfo with
      | none => (fs1, some (.missingInfo act.RelPath))
      | some si =>
        if si.IsDir then
          match fsLookup fs1 act.RelPath with
          | some _ => (fs1, none)
          | none => (fsInsert fs1 act.RelPath ⟨true, 0, si.Mode, 0, ""⟩, none)
        else copyFile srcRead fs1 si.AbsPath act.RelPath si.Mode si.ModTime
  | .Update =>
    match act.SourceInfo with
    | none => (fs, some (.missingInfo act.RelPath))
    | some si =>
      if si.IsDir then (fs, none)
      else copyFile srcRead fs si.AbsPath act.RelPath si.Mode si.ModTime
  | .Delete =>
    match fsLookup fs act.RelPath with
    | none => (fs, none)
    | some n =>
      if (act.TargetInfo.map (fun ti => ti.IsDir)).getD false then
        (fsRemoveTree fs act.RelPath, none)
      else
        if n.isDir ∧ ∃ e ∈ fs, IsStrictAncestor act.RelPath e.1 then
          (fs, some (.deleteFailed act.RelPath))
        else (fsRemove fs act.RelPath, none)
  | .NoneType => (fs, none)

/-- Apply every action of the plan, collecting every per-action error.  The
Go executor dispatches the actions to up to ten workers; since no action
waits on another and the shared state (error channel, progress) is
serialized, the sequential fold in plan order models the apply phase. -/
def applyActions (srcRead : String → Option Node) (fs : FS)
    (acts : List SyncAction) : FS × List ApplyErr :=
  acts.foldl (fun acc act =>
    match applyAction srcRead acc.1 act with
    | (fs2, errOpt) => (fs2, acc.2 ++ errOpt.toList)) (fs, [])

/-- Go `strings.ToLower` on the response (ASCII range; the accepted
responses are ASCII). -/
def goToLower (s : String) : String := ⟨s.data.map Char.toLower⟩

/-- Go `strings.TrimSpace` on the response (leading and trailing
whitespace). -/
def goTrimSpace (s : String) : String :=
  ⟨((s.data.dropWhile Char.isWhitespace).reverse.dropWhile Char.isWhitespace).reverse⟩

/-- `executePlan(plan, sourceRoot, targetRoot, dryRun)` as a transformer of
the target tree: empty plan, dry run and a declined confirmation all stop
gracefully with a nil error and no side effect; otherwise every action is
applied and the run fails if and only if any action error was collected
(executor.go:20-203).  The confirmation `response` is what
`reader.ReadString` delivered. -/
def executePlan (srcRead : String → Option Node) (plan : SyncPlan) (fs : FS)
    (dryRun : Bool) (response : String) : FS × Except (List ApplyErr) Unit :=
  if plan.Actions.length = 0 then (fs, .ok ())
  else if dryRun then (fs, .ok ())
  else
    let r := goTrimSpace (goToLower response)
    if r ≠ "" ∧ r ≠ "y" ∧ r ≠ "yes" then (fs, .ok ())
    else
      match applyActions srcRead fs plan.Actions with
      | (fs2, errs) => (fs2, if 0 < errs.length then .error errs else .ok ())

/-! ## `cmd/root.go`: argument validation before the pipeline -/

/-- The outcome of an `os.Stat` call in the model. -/
inductive StatResult where
  | notExist : StatResult
  | statError : StatResult
  | found : Bool → StatResult
deriving DecidableEq, Repr

/-- A fatal setup error of `rootCmd.RunE` (each aborts the run with a
nonzero exit through cobra). -/
inductive CliError where
  | sourceNotExist : CliError
  | sourceStatFailed : CliError
  | sourceNotDir : CliError
  | targetStatFailed : CliError
  | targetNotDir : CliError
  | samePath : CliError
  | targetInsideSource : CliError
deriving DecidableEq, Repr

/-- The validation sequence of `rootCmd.RunE` (part_003 lines 59-89),
before any `Syncer` is constructed. -/
def validateRoots (sourceStat targetStat : StatResult)
    (samePath targetInside : Bool) : Except CliError Unit :=
  match sourceStat with
  | .notExist => .error .sourceNotExist
  | .statError => .error .sourceStatFailed
  | .found sDir =>
    if ¬ sDir then .error .sourceNotDir
    else
      match targetStat with
      | .statError => .error .targetStatFailed
      | .found tDir =>
        if ¬ tDir then .error .targetNotDir
        else if samePath then .error .samePath
        else if targetInside then .error .targetInsideSource
        else .ok ()
      | .notExist =>
        if samePath then .error .samePath
        else if targetInside then .error .targetInsideSource
        else .ok ()

/-- `rootCmd.RunE`: validate, then (and only then) run the sync pipeline.
The pipeline (scanning onwards) is a parameter so that the theorem can
state that nothing of it runs when validation fails. -/
def rootCmdRunE {α : Type} (sourceStat targetStat : StatResult)
    (samePath targetInside : Bool) (pipeline : Unit → α) : Except CliError α :=
  match validateRoots sourceStat targetStat samePath targetInside with
  | .error e => .error e
  | .ok () => .ok (pipeline ())


/-- The set of paths removed by a list of delete actions: the action paths
themselves and, below each delete whose target was a directory, the whole
subtree. -/
def deleteHits (dels : List SyncAction) (q : String) : Prop :=
  ∃ a ∈ dels, q = a.RelPath ∨
    ((a.TargetInfo.map (fun ti => ti.IsDir)).getD false = true ∧
      IsStrictAncestor a.RelPath q)

instance (dels : List SyncAction) (q : String) : Decidable (deleteHits dels q) := by
  unfold deleteHits; infer_instance

/-- Reads of source files during the apply phase (absolute paths under the
source root). -/
def srcReadOf (srcFS : FS) : String → Option Node :=
  fun abs => (srcFS.map (fun e => ("SRC/" ++ e.1, e.2))).lookup abs

/-- One line-split of the `.sync-ignore` file content (`bufio.Scanner`
over newline-separated lines). -/
def splitNewline : List Char → List (List Char)
  | [] => [[]]
  | c :: cs =>
    if c = '\n' then [] :: splitNewline cs
    else
      match splitNewline cs with
      | [] => [[c]]
      | line :: rest => (c :: line) :: rest

/-- The pattern lines `NewMatcher` keeps from the ignore file
(ignore.go:44-50): each line trimmed, dropping empty lines and `#`
comments. -/
def parseIgnoreLines (content : String) : List String :=
  ((splitNewline content.data).map (fun l => goTrimSpace ⟨l⟩)).filter
    (fun line => decide (line ≠ "" ∧ line.data.head? ≠ some '#'))

/-- `ignore.NewMatcher(sourceDir, cliExcludes)` over the source tree
(ignore.go:24-68), returning the pattern list it compiles: stat
`sourceDir/.sync-ignore`; if absent, the patterns are just the CLI
excludes; a regular file contributes its kept lines after them.  If the
entry is a directory, `os.Stat` and `os.Open` succeed but the
`bufio.Scanner` read fails (reading a directory), so `NewMatcher` returns
the read error (ignore.go:51-53) and `Syncer.Run` aborts before any scan
(syncer.go:38-42).  The pattern compilation itself
(`ignore.CompileIgnoreLines` / `MatchesPath`, a third-party library) is
kept abstract: the pipeline below takes the compiled membership test as a
function, and a pattern list with no entries matches nothing. -/
def newMatcher (srcFS : FS) (cliExcludes : List String) :
    Except String (List String) :=
  match fsLookup srcFS ".sync-ignore" with
  | none => .ok cliExcludes
  | some n =>
    if n.isDir then .error "failed to read .sync-ignore"
    else .ok (cliExcludes ++ parseIgnoreLines n.content)

/-- One planning pass of `Syncer.Run` after the ignore rules are loaded
(`Run` aborts beforehand when `newMatcher` fails, syncer.go:38-42): scan
both roots — the compiled matcher only on the source side,
syncer.go:44-60 — and build the plan.  `mat` is the membership test of
the matcher compiled from the patterns `newMatcher` returned. -/
def syncOnce (srcFS tgtFS : FS) (mat : String → Bool) (hf : String → String) :
    SyncPlan × List String :=
  createSyncPlan (scanDirectory "SRC" (some mat) srcFS)
    (scanDirectory "TGT" none tgtFS) (fsChecksum srcFS tgtFS hf)

/-- One apply pass over the planned actions. -/
def applyOnce (srcFS tgtFS : FS) (mat : String → Bool) (hf : String → String) :
    FS × List ApplyErr :=
  applyActions (srcReadOf srcFS) tgtFS (syncOnce srcFS tgtFS mat hf).1.Actions

theorem splitSlash_ne_nil (cs : List Char) : splitSlash cs ≠ [] := by
  cases cs with
  | nil => simp [splitSlash]
  | cons c cs =>
    simp only [splitSlash]
    by_cases h : c = '/'
    · simp [h]
    · simp only [if_neg h]
      cases hs : splitSlash cs <;> simp

theorem joinSlash_splitSlash (cs : List Char) : joinSlash (splitSlash cs) = cs := by
  induction cs with
  | nil => simp [splitSlash, joinSlash]
  | cons c cs ih =>
    simp only [splitSlash]
    by_cases h : c = '/'
    · subst h
      simp only [if_pos rfl]
      cases hs : splitSlash cs with
      | nil => exact absurd hs (splitSlash_ne_nil cs)
      | cons a l =>
        rw [hs] at ih
        simp [joinSlash, ih]
    · simp only [if_neg h]
      cases hs : splitSlash cs with
      | nil => exact absurd hs (splitSlash_ne_nil cs)
      | cons a l =>
        rw [hs] at ih
        cases l with
        | nil => simpa [joinSlash] using ih
        | cons b bs => simpa [joinSlash] using ih

theorem splitSlash_no_slash (cs : List Char) :
    ∀ comp ∈ splitSlash cs, '/' ∉ comp := by
  induction cs with
  | nil =>
    intro comp hc
    simp [splitSlash] at hc
    simp [hc]
  | cons c cs ih =>
    intro comp hc
    simp only [splitSlash] at hc
    by_cases h : c = '/'
    · rw [if_pos h] at hc
      rcases List.mem_cons.mp hc with rfl | hmem
      · simp
      · exact ih comp hmem
    · rw [if_neg h] at hc
      cases hs : splitSlash cs with
      | nil => exact absurd hs (splitSlash_ne_nil cs)
      | cons a l =>
        rw [hs] at hc
        rcases List.mem_cons.mp hc with rfl | hmem
        · intro hin
          rcases List.mem_cons.mp hin with hca | hca
          · exact h hca.symm
          · exact ih a (hs ▸ List.mem_cons_self _ _) hca
        · exact ih comp (hs ▸ List.mem_cons_of_mem a hmem)

theorem splitSlash_of_no_slash {c : List Char} (h : '/' ∉ c) :
    splitSlash c = [c] := by
  induction c with
  | nil => simp [splitSlash]
  | cons ch c ih =>
    have hch : ch ≠ '/' := fun he => h (he ▸ List.mem_cons_self _ _)
    have hc : '/' ∉ c := fun hin => h (List.mem_cons_of_mem ch hin)
    simp only [splitSlash, if_neg hch, ih hc]

theorem splitSlash_append_slash {c : List Char} (h : '/' ∉ c) (w : List Char) :
    splitSlash (c ++ '/' :: w) = c :: splitSlash w := by
  induction c with
  | nil => simp [splitSlash]
  | cons ch c ih =>
    have hch : ch ≠ '/' := fun he => h (he ▸ List.mem_cons_self _ _)
    have hc : '/' ∉ c := fun hin => h (List.mem_cons_of_mem ch hin)
    simp only [List.cons_append, splitSlash, if_neg hch, List.append_eq]
    rw [ih hc]

theorem splitSlash_joinSlash {l : List (List Char)}
    (hl : ∀ comp ∈ l, '/' ∉ comp) (hne : l ≠ []) :
    splitSlash (joinSlash l) = l := by
  induction l with
  | nil => exact absurd rfl hne
  | cons c rest ih =>
    cases rest with
    | nil =>
      simp only [joinSlash]
      exact splitSlash_of_no_slash (hl c (List.mem_cons_self _ _))
    | cons d rest2 =>
      have : joinSlash (c :: d :: rest2) = c ++ '/' :: joinSlash (d :: rest2) := rfl
      rw [this, splitSlash_append_slash (hl c (List.mem_cons_self _ _)),
        ih (fun comp hc => hl comp (List.mem_cons_of_mem c hc)) (by simp)]

theorem pathOfComponents_pathComponents (p : String) :
    pathOfComponents (pathComponents p) = p := by
  simp [pathOfComponents, pathComponents, joinSlash_splitSlash]

theorem stableInsert_perm (less : α → α → Bool) (a : α) (l : List α) :
    (stableInsert less a l).Perm (a :: l) := by
  induction l with
  | nil => simp [stableInsert]
  | cons b t ih =>
    simp only [stableInsert]
    by_cases h : less b a = true
    · simp only [if_pos h]
      exact ((ih.cons b).trans (List.Perm.swap a b t)).symm.symm
    · simp [h]

theorem stableSort_perm (less : α → α → Bool) (l : List α) :
    (stableSort less l).Perm l := by
  induction l with
  | nil => simp [stableSort]
  | cons a t ih =>
    exact (stableInsert_perm less a (stableSort less t)).trans (ih.cons a)

theorem stableInsert_pairwise (less : α → α → Bool) (a : α) (l : List α)
    (hl : l.Pairwise (fun x y => less y x = false))
    (hasym : ∀ x ∈ l, less x a = true → less a x = false)
    (htrans : ∀ x ∈ l, ∀ y ∈ l, less x a = false → less y x = false → less y a = false) :
    (stableInsert less a l).Pairwise (fun x y => less y x = false) := by
  induction l with
  | nil => simp [stableInsert]
  | cons b t ih =>
    rw [List.pairwise_cons] at hl
    obtain ⟨hbt, htpw⟩ := hl
    simp only [stableInsert]
    by_cases h : less b a = true
    · simp only [if_pos h]
      rw [List.pairwise_cons]
      constructor
      · intro x hx
        have hx' := (stableInsert_perm less a t).mem_iff.mp hx
        rcases List.mem_cons.mp hx' with rfl | hxt
        · exact hasym b (List.mem_cons_self _ _) h
        · exact hbt x hxt
      · exact ih htpw
          (fun x hx hax => hasym x (List.mem_cons_of_mem b hx) hax)
          (fun x hx y hy h1 h2 =>
            htrans x (List.mem_cons_of_mem b hx) y (List.mem_cons_of_mem b hy) h1 h2)
    · simp only [if_neg h]
      have hba : less b a = false := by
        cases hb : less b a with
        | false => rfl
        | true => exact absurd hb h
      rw [List.pairwise_cons]
      constructor
      · intro x hx
        rcases List.mem_cons.mp hx with rfl | hxt
        · exact hba
        · exact htrans b (List.mem_cons_self _ _) x (List.mem_cons_of_mem b hxt) hba (hbt x hxt)
      · exact List.Pairwise.cons hbt htpw

theorem stableSort_pairwise (less : α → α → Bool) (l : List α)
    (hasym : ∀ x ∈ l, ∀ y ∈ l, less x y = true → less y x = false)
    (htrans : ∀ x ∈ l, ∀ y ∈ l, ∀ z ∈ l,
      less y x = false → less z y = false → less z x = false) :
    (stableSort less l).Pairwise (fun x y => less y x = false) := by
  induction l with
  | nil => simp [stableSort]
  | cons a t ih =>
    have hmem : ∀ x ∈ stableSort less t, x ∈ t := fun x hx =>
      (stableSort_perm less t).mem_iff.mp hx
    exact stableInsert_pairwise less a (stableSort less t)
      (ih (fun x hx y hy => hasym x (List.mem_cons_of_mem a hx) y (List.mem_cons_of_mem a hy))
          (fun x hx y hy z hz =>
            htrans x (List.mem_cons_of_mem a hx) y (List.mem_cons_of_mem a hy)
              z (List.mem_cons_of_mem a hz)))
      (fun x hx hax =>
        hasym x (List.mem_cons_of_mem a (hmem x hx)) a (List.mem_cons_self _ _) hax)
      (fun x hx y hy h1 h2 =>
        htrans a (List.mem_cons_self _ _) x (List.mem_cons_of_mem a (hmem x hx))
          y (List.mem_cons_of_mem a (hmem y hy)) h1 h2)

/-! ## Characterization of `createSyncPlan` -/

theorem processSourceEntry_eq (targetFiles : List (String × FileInfo))
    (cf : ChecksumFn) (acc : SyncPlan × List String) (e : String × FileInfo) :
    processSourceEntry targetFiles cf acc e =
      appendActs acc (sourceActions targetFiles cf e) (sourceWarnings targetFiles cf e) := by
  obtain ⟨⟨actions, adds, updates, deletes⟩, warnings⟩ := acc
  simp only [processSourceEntry, sourceActions, sourceWarnings, appendActs]
  cases targetFiles.lookup e.1 with
  | none => simp [List.countP_cons]
  | some t =>
    by_cases hdir : e.2.IsDir ≠ t.IsDir
    · simp [hdir, List.countP_cons]
    · simp only [if_neg hdir]
      by_cases hd : e.2.IsDir
      · simp [hd]
      · simp only [if_neg hd]
        cases e.2.NeedsUpdate t cf with
        | error err => simp [List.countP_cons]
        | ok b => cases b <;> simp [List.countP_cons]

theorem processTargetEntry_eq (sourceFiles : List (String × FileInfo))
    (acc : SyncPlan × List String) (e : String × FileInfo) :
    processTargetEntry sourceFiles acc e =
      appendActs acc (targetActions sourceFiles e) [] := by
  obtain ⟨⟨actions, adds, updates, deletes⟩, warnings⟩ := acc
  simp only [processTargetEntry, targetActions, appendActs]
  cases sourceFiles.lookup e.1 with
  | some _ => simp
  | none => simp [List.countP_cons]

theorem foldl_appendActs {β : Type} (f : β → List SyncAction) (g : β → List String)
    (l : List β) (acc : SyncPlan × List String)
    (step : (SyncPlan × List String) → β → SyncPlan × List String)
    (hstep : ∀ acc e, step acc e = appendActs acc (f e) (g e)) :
    l.foldl step acc = appendActs acc (l.flatMap f) (l.flatMap g) := by
  induction l generalizing acc with
  | nil =>
    obtain ⟨⟨actions, adds, updates, deletes⟩, warnings⟩ := acc
    simp [appendActs]
  | cons e t ih =>
    rw [List.foldl_cons, hstep, ih]
    obtain ⟨⟨actions, adds, updates, deletes⟩, warnings⟩ := acc
    simp [appendActs, List.countP_append, Nat.add_assoc]


theorem mem_sourceActions {tgt : List (String × FileInfo)} {cf : ChecksumFn}
    {e : String × FileInfo} {a : SyncAction} :
    a ∈ sourceActions tgt cf e ↔
      (tgt.lookup e.1 = none ∧ a = ⟨.Add, some e.2, none, e.1⟩) ∨
      (∃ t, tgt.lookup e.1 = some t ∧ e.2.IsDir ≠ t.IsDir ∧
        (a = ⟨.Delete, none, some t, e.1⟩ ∨ a = ⟨.Add, some e.2, some t, e.1⟩)) ∨
      (∃ t, tgt.lookup e.1 = some t ∧ e.2.IsDir = t.IsDir ∧ e.2.IsDir = false ∧
        needsUpdateResolved e.2 t cf = true ∧ a = ⟨.Update, some e.2, some t, e.1⟩) := by
  unfold sourceActions
  cases hlook : tgt.lookup e.1 with
  | none => simp
  | some t =>
    simp only [hlook, Option.some.injEq]
    by_cases hdir : e.2.IsDir ≠ t.IsDir
    · simp [hdir]
    · push_neg at hdir
      simp only [if_neg (by simp [hdir] : ¬ e.2.IsDir ≠ t.IsDir)]
      by_cases hd : e.2.IsDir
      · simp only [if_pos hd]
        constructor
        · intro h; exact absurd h (List.not_mem_nil a)
        · rintro (⟨_, _⟩ | ⟨t2, ht2, hne, _⟩ | ⟨t2, ht2, _, hfile, _, _⟩)
          · simp_all
          · cases ht2; exact absurd hdir hne
          · cases ht2; rw [hd] at hfile; exact absurd hfile (by simp)
      · simp only [if_neg hd, needsUpdateResolved]
        have hd' : e.2.IsDir = false := by simpa using hd
        cases hnu : e.2.NeedsUpdate t cf with
        | error err =>
          simp only [List.mem_singleton]
          constructor
          · intro h
            exact Or.inr (Or.inr ⟨t, rfl, hdir, hd', by rw [hnu], h⟩)
          · rintro (⟨hc, _⟩ | ⟨t2, ht2, hne, _⟩ | ⟨t2, ht2, _, _, _, ha⟩)
            · cases hc
            · cases ht2; exact absurd hdir hne
            · cases ht2; exact ha
        | ok b =>
          cases b with
          | true =>
            simp only [eq_self_iff_true, if_true, List.mem_singleton]
            constructor
            · intro h
              exact Or.inr (Or.inr ⟨t, rfl, hdir, hd', by rw [hnu], h⟩)
            · rintro (⟨hc, _⟩ | ⟨t2, ht2, hne, _⟩ | ⟨t2, ht2, _, _, _, ha⟩)
              · cases hc
              · cases ht2; exact absurd hdir hne
              · cases ht2; exact ha
          | false =>
            simp only [Bool.false_eq_true, if_false]
            constructor
            · intro h; exact absurd h (List.not_mem_nil a)
            · rintro (⟨hc, _⟩ | ⟨t2, ht2, hne, _⟩ | ⟨t2, ht2, _, _, hres, _⟩)
              · cases hc
              · cases ht2; exact absurd hdir hne
              · cases ht2; rw [hnu] at hres; exact absurd hres (by simp)

theorem mem_targetActions {src : List (String × FileInfo)}
    {e : String × FileInfo} {a : SyncAction} :
    a ∈ targetActions src e ↔
      src.lookup e.1 = none ∧ a = ⟨.Delete, none, some e.2, e.1⟩ := by
  unfold targetActions
  cases hlook : src.lookup e.1 with
  | none => simp
  | some t => simp

theorem createSyncPlan_eq (src tgt : List (String × FileInfo)) (cf : ChecksumFn) :
    createSyncPlan src tgt cf =
      ({ Actions := stableSort actionLess (unsortedActions src tgt cf),
         Adds := (unsortedActions src tgt cf).countP (fun a => a.Typ = .Add),
         Updates := (unsortedActions src tgt cf).countP (fun a => a.Typ = .Update),
         Deletes := (unsortedActions src tgt cf).countP (fun a => a.Typ = .Delete) },
       src.flatMap (sourceWarnings tgt cf)) := by
  have h1 := foldl_appendActs (sourceActions tgt cf) (sourceWarnings tgt cf) src
    ({ Actions := [], Adds := 0, Updates := 0, Deletes := 0 }, [])
    (processSourceEntry tgt cf) (processSourceEntry_eq tgt cf)
  have h2 := foldl_appendActs (targetActions src) (fun _ => ([] : List String)) tgt
    (appendActs ({ Actions := [], Adds := 0, Updates := 0, Deletes := 0 }, [])
      (src.flatMap (sourceActions tgt cf)) (src.flatMap (sourceWarnings tgt cf)))
    (processTargetEntry src) (processTargetEntry_eq src)
  simp only [createSyncPlan, h1, h2]
  have hnil : tgt.flatMap (fun _ => ([] : List String)) = [] := by
    simp
  simp [appendActs, hnil, unsortedActions, List.countP_append]


/-! ## The ordering contract of the produced plan -/

theorem goStringLt_asymm {a b : String} (h : goStringLt a b) : ¬ goStringLt b a :=
  lt_asymm h

theorem goStringLt_negtrans {a b c : String}
    (h1 : ¬ goStringLt b a) (h2 : ¬ goStringLt c b) : ¬ goStringLt c a := by
  unfold goStringLt at *
  exact not_lt.mpr (le_trans (not_lt.mp h1) (not_lt.mp h2))

theorem actionLess_asymm {a b : SyncAction} (h : actionLess a b = true) :
    actionLess b a = false := by
  unfold actionLess at h ⊢
  cases hta : a.Typ <;> cases htb : b.Typ <;> simp [hta, htb] at h ⊢ <;>
    try exact fun hlt => absurd h (goStringLt_asymm hlt)
  by_cases hde : pathDepth a.RelPath = pathDepth b.RelPath
  · simp [hde] at h ⊢
    exact fun hlt => absurd h (goStringLt_asymm hlt)
  · simp [hde, Ne.symm hde] at h ⊢
    omega

theorem actionLess_negtrans {a b c : SyncAction}
    (ha : a.Typ ≠ .NoneType) (hb : b.Typ ≠ .NoneType) (hc : c.Typ ≠ .NoneType)
    (h1 : actionLess b a = false) (h2 : actionLess c b = false) :
    actionLess c a = false := by
  unfold actionLess at h1 h2 ⊢
  cases hta : a.Typ <;> cases htb : b.Typ <;> cases htc : c.Typ <;>
    simp [hta, htb, htc] at h1 h2 ⊢ <;>
    first
      | exact absurd hta ha
      | exact absurd htb hb
      | exact absurd htc hc
      | exact goStringLt_negtrans h1 h2
      | (split_ifs at h1 h2 ⊢ <;>
          first
            | exact goStringLt_negtrans h1 h2
            | omega)


theorem unsortedActions_typ_ne_none {src tgt : List (String × FileInfo)}
    {cf : ChecksumFn} : ∀ a ∈ unsortedActions src tgt cf, a.Typ ≠ .NoneType := by
  intro a ha
  rcases List.mem_append.mp ha with h | h
  · rcases List.mem_flatMap.mp h with ⟨e, _, hmem⟩
    rcases mem_sourceActions.mp hmem with ⟨_, rfl⟩ | ⟨t, _, _, rfl | rfl⟩ |
      ⟨t, _, _, _, _, rfl⟩ <;> simp
  · rcases List.mem_flatMap.mp h with ⟨e, _, hmem⟩
    rcases mem_targetActions.mp hmem with ⟨_, rfl⟩
    simp

theorem plan_actions_pairwise (src tgt : List (String × FileInfo)) (cf : ChecksumFn) :
    ((createSyncPlan src tgt cf).1.Actions).Pairwise
      (fun x y => actionLess y x = false) := by
  rw [createSyncPlan_eq]
  exact stableSort_pairwise actionLess _
    (fun x _ y _ hxy => actionLess_asymm hxy)
    (fun x hx y hy z hz h1 h2 =>
      actionLess_negtrans (unsortedActions_typ_ne_none x hx)
        (unsortedActions_typ_ne_none y hy) (unsortedActions_typ_ne_none z hz) h1 h2)

theorem mem_plan_actions {src tgt : List (String × FileInfo)} {cf : ChecksumFn}
    {a : SyncAction} :
    a ∈ (createSyncPlan src tgt cf).1.Actions ↔ a ∈ unsortedActions src tgt cf := by
  rw [createSyncPlan_eq]
  exact (stableSort_perm _ _).mem_iff

theorem actionLess_false_elim {x y : SyncAction}
    (h : actionLess y x = false) :
    (y.Typ = .Delete → x.Typ ≠ .NoneType → x.Typ = .Delete) ∧
    (x.Typ = .Delete → y.Typ = .Delete → pathDepth y.RelPath ≤ pathDepth x.RelPath) ∧
    (¬ (x.Typ = .Add ∧ y.Typ = .Update)) ∧
    (x.Typ = y.Typ → x.Typ ≠ .Delete → ¬ goStringLt y.RelPath x.RelPath) := by
  unfold actionLess at h
  cases htx : x.Typ <;> cases hty : y.Typ <;> simp [htx, hty] at h ⊢ <;>
    try assumption
  · -- both Delete: extract the depth bound
    by_cases hde : pathDepth y.RelPath = pathDepth x.RelPath
    · omega
    · simp [hde] at h
      omega

theorem actionLess_false_delete_tie {x y : SyncAction}
    (h : actionLess y x = false) (hx : x.Typ = .Delete) (hy : y.Typ = .Delete)
    (hde : pathDepth y.RelPath = pathDepth x.RelPath) :
    ¬ goStringLt y.RelPath x.RelPath := by
  unfold actionLess at h
  simp [hx, hy, hde] at h
  exact h

/-- C1 (amended): in every produced plan, deletes form a contiguous prefix
with non-increasing path depth and equal-depth deletes in ascending
lexicographic path order; among the non-delete actions all Updates precede
all Adds, and within each of the two groups relative paths are in
ascending lexicographic order. -/
theorem c1_plan_ordering (src tgt : List (String × FileInfo)) (cf : ChecksumFn) :
    ((createSyncPlan src tgt cf).1.Actions).Pairwise (fun x y =>
      (y.Typ = .Delete → x.Typ = .Delete) ∧
      (x.Typ = .Delete → y.Typ = .Delete → pathDepth y.RelPath ≤ pathDepth x.RelPath) ∧
      (x.Typ = .Delete → y.Typ = .Delete →
        pathDepth y.RelPath = pathDepth x.RelPath →
        ¬ goStringLt y.RelPath x.RelPath) ∧
      (¬ (x.Typ = .Add ∧ y.Typ = .Update)) ∧
      (x.Typ = y.Typ → x.Typ ≠ .Delete → ¬ goStringLt y.RelPath x.RelPath)) := by
  have hpw := plan_actions_pairwise src tgt cf
  have hne : ∀ a ∈ (createSyncPlan src tgt cf).1.Actions, a.Typ ≠ .NoneType :=
    fun a ha => unsortedActions_typ_ne_none a (mem_plan_actions.mp ha)
  refine List.Pairwise.imp_of_mem ?_ hpw
  intro x y hx hy hle
  obtain ⟨h1, h2, h3, h4⟩ := actionLess_false_elim hle
  exact ⟨fun hyd => h1 hyd (hne x hx), h2,
    fun hxd hyd hde => actionLess_false_delete_tie hle hxd hyd hde, h3, h4⟩

/-- C1 counterexample: with source entries `a` (new) and `b` (file needing
update) and target entry `b`, the produced plan is `[Update b, Add a]`,
whose Add/Update section is not in ascending lexicographic path order. -/
theorem c1_counterexample :
    ¬ orderingContractClaim
      ((createSyncPlan
        [("a", ⟨"a", "SRC/a", 1, 420, 0, false⟩),
         ("b", ⟨"b", "SRC/b", 2, 420, 0, false⟩)]
        [("b", ⟨"b", "TGT/b", 3, 420, 0, false⟩)]
        (fun _ => Except.ok "")).1.Actions) := by
  decide


/-! ## Per-key characterization of the plan -/

theorem sourceActions_relPath {tgt : List (String × FileInfo)} {cf : ChecksumFn}
    {e : String × FileInfo} : ∀ a ∈ sourceActions tgt cf e, a.RelPath = e.1 := by
  intro a ha
  rcases mem_sourceActions.mp ha with ⟨_, rfl⟩ | ⟨t, _, _, rfl | rfl⟩ |
    ⟨t, _, _, _, _, rfl⟩ <;> rfl

theorem targetActions_relPath {src : List (String × FileInfo)}
    {e : String × FileInfo} : ∀ a ∈ targetActions src e, a.RelPath = e.1 := by
  intro a ha
  rcases mem_targetActions.mp ha with ⟨_, rfl⟩
  rfl

theorem filter_flatMap_key (l : List (String × FileInfo))
    (f : (String × FileInfo) → List SyncAction)
    (hf : ∀ e, ∀ a ∈ f e, a.RelPath = e.1) (p : String)
    (hnod : (l.map Prod.fst).Nodup) :
    (l.flatMap f).filter (fun a => a.RelPath = p) =
      (match l.lookup p with | some v => f (p, v) | none => []) := by
  induction l with
  | nil => simp
  | cons e rest ih =>
    obtain ⟨k, v⟩ := e
    rw [List.map_cons, List.nodup_cons] at hnod
    obtain ⟨hknot, hrest⟩ := hnod
    rw [List.flatMap_cons, List.filter_append, ih hrest]
    by_cases hk : p = k
    · subst hk
      have hall : (f (p, v)).filter (fun a => a.RelPath = p) = f (p, v) := by
        apply List.filter_eq_self.mpr
        intro a ha
        simp [hf (p, v) a ha]
      rw [hall]
      have : List.lookup p ((p, v) :: rest) = some v := by simp [List.lookup_cons]
      rw [this]
      have hrestnone : rest.lookup p = none := by
        rw [List.lookup_eq_none_iff]
        intro q hq
        simp only [bne_iff_ne, ne_eq]
        intro hqe
        apply hknot
        rw [hqe]
        exact List.mem_map.mpr ⟨q, hq, rfl⟩
      rw [hrestnone]
      simp
    · have hfilter : (f (k, v)).filter (fun a => a.RelPath = p) = [] := by
        apply List.filter_eq_nil_iff.mpr
        intro a ha
        simp [hf (k, v) a ha, Ne.symm, hk]
      have : List.lookup p ((k, v) :: rest) = rest.lookup p := by
        simp [List.lookup_cons, beq_false_of_ne hk]
      rw [hfilter, this]
      simp

theorem unsorted_filter_key {src tgt : List (String × FileInfo)} {cf : ChecksumFn}
    (hsrc : (src.map Prod.fst).Nodup) (htgt : (tgt.map Prod.fst).Nodup) (p : String) :
    (unsortedActions src tgt cf).filter (fun a => a.RelPath = p) =
      keyActions src tgt cf p := by
  unfold unsortedActions
  rw [List.filter_append,
      filter_flatMap_key src (sourceActions tgt cf) (fun e => sourceActions_relPath) p hsrc,
      filter_flatMap_key tgt (targetActions src) (fun e => targetActions_relPath) p htgt]
  unfold keyActions sourceActions targetActions
  cases hs : src.lookup p <;> cases ht : tgt.lookup p
  · simp [hs, ht]
  · simp [hs, ht]
  · simp [hs, ht]
  · rename_i s t
    simp only [hs, ht, List.append_nil]
    by_cases hdir : s.IsDir ≠ t.IsDir
    · simp [hdir]
    · simp only [if_neg hdir]
      by_cases hd : s.IsDir
      · simp [hd]
      · simp only [if_neg hd]
        rcases hnu : s.NeedsUpdate t cf with e | b
        · simp [needsUpdateResolved, hnu]
        · cases b <;> simp [needsUpdateResolved, hnu]


/-! ## Lookup helpers for association lists with unique keys -/

theorem lookup_of_mem_nodup {β : Type} {l : List (String × β)} {p : String} {v : β}
    (hnod : (l.map Prod.fst).Nodup) (hmem : (p, v) ∈ l) : l.lookup p = some v := by
  induction l with
  | nil => cases hmem
  | cons e rest ih =>
    rw [List.map_cons, List.nodup_cons] at hnod
    obtain ⟨hknot, hrest⟩ := hnod
    rcases List.mem_cons.mp hmem with rfl | hmem2
    · simp [List.lookup_cons]
    · have hne : p ≠ e.1 := by
        intro hpe
        exact hknot (hpe ▸ List.mem_map.mpr ⟨(p, v), hmem2, rfl⟩)
      obtain ⟨k, w⟩ := e
      simp only [List.lookup_cons, beq_false_of_ne hne]
      exact ih hrest hmem2

theorem mem_of_lookup {β : Type} {l : List (String × β)} {p : String} {v : β}
    (h : l.lookup p = some v) : (p, v) ∈ l := by
  induction l with
  | nil => cases h
  | cons e rest ih =>
    obtain ⟨k, w⟩ := e
    rw [List.lookup_cons] at h
    by_cases hk : p = k
    · subst hk
      simp at h
      subst h
      exact List.mem_cons_self _ _
    · rw [beq_false_of_ne hk] at h
      exact List.mem_cons_of_mem _ (ih h)

/-! ## Branches of the update rule -/

theorem needsUpdate_sizes_differ {sfi tfi : FileInfo} {cf : ChecksumFn}
    (hdir : sfi.IsDir = tfi.IsDir) (hfile : sfi.IsDir = false)
    (hsize : sfi.Size ≠ tfi.Size) :
    sfi.NeedsUpdate tfi cf = .ok true ∧ sfi.NeedsUpdateCalls tfi cf = [] := by
  have hfile2 : tfi.IsDir = false := hdir ▸ hfile
  unfold FileInfo.NeedsUpdate FileInfo.NeedsUpdateCalls
  simp [hdir, hfile, hfile2, hsize]

theorem needsUpdate_no_change {sfi tfi : FileInfo} {cf : ChecksumFn}
    (hdir : sfi.IsDir = tfi.IsDir) (hfile : sfi.IsDir = false)
    (hsize : sfi.Size = tfi.Size)
    (htime : truncSec sfi.ModTime = truncSec tfi.ModTime) :
    sfi.NeedsUpdate tfi cf = .ok false ∧ sfi.NeedsUpdateCalls tfi cf = [] := by
  have hfile2 : tfi.IsDir = false := hdir ▸ hfile
  unfold FileInfo.NeedsUpdate FileInfo.NeedsUpdateCalls
  simp [hdir, hfile, hfile2, hsize, htime]

theorem needsUpdate_digest_both_ok {sfi tfi : FileInfo} {cf : ChecksumFn} {ds dt : String}
    (hdir : sfi.IsDir = tfi.IsDir) (hfile : sfi.IsDir = false)
    (hsize : sfi.Size = tfi.Size)
    (htime : truncSec sfi.ModTime ≠ truncSec tfi.ModTime)
    (hds : cf sfi.AbsPath = .ok ds) (hdt : cf tfi.AbsPath = .ok dt) :
    sfi.NeedsUpdate tfi cf = .ok (decide (ds ≠ dt)) ∧
      sfi.NeedsUpdateCalls tfi cf = [sfi.AbsPath, tfi.AbsPath] := by
  have hfile2 : tfi.IsDir = false := hdir ▸ hfile
  unfold FileInfo.NeedsUpdate FileInfo.NeedsUpdateCalls
  simp [hdir, hfile, hfile2, hsize, htime, hds, hdt]

theorem needsUpdateCalls_iff {sfi tfi : FileInfo} {cf : ChecksumFn}
    (hdir : sfi.IsDir = tfi.IsDir) (hfile : sfi.IsDir = false) :
    sfi.NeedsUpdateCalls tfi cf ≠ [] ↔
      sfi.Size = tfi.Size ∧ truncSec sfi.ModTime ≠ truncSec tfi.ModTime := by
  have hfile2 : tfi.IsDir = false := hdir ▸ hfile
  unfold FileInfo.NeedsUpdateCalls
  by_cases hsize : sfi.Size = tfi.Size
  · by_cases htime : truncSec sfi.ModTime = truncSec tfi.ModTime
    · simp [hdir, hfile, hfile2, hsize, htime]
    · cases hcs : cf sfi.AbsPath <;> simp [hdir, hfile, hfile2, hsize, htime, hcs]
  · simp [hdir, hfile, hfile2, hsize]

/-! ## Update emission and warnings at a key -/

theorem update_at_key_iff {src tgt : List (String × FileInfo)} {cf : ChecksumFn}
    {p : String} {sfi tfi : FileInfo}
    (hsrc : (src.map Prod.fst).Nodup) (htgt : (tgt.map Prod.fst).Nodup)
    (hs : src.lookup p = some sfi) (ht : tgt.lookup p = some tfi)
    (hdir : sfi.IsDir = tfi.IsDir) (hfile : sfi.IsDir = false) :
    ((∃ a ∈ (createSyncPlan src tgt cf).1.Actions, a.RelPath = p ∧ a.Typ = .Update) ↔
      needsUpdateResolved sfi tfi cf = true) := by
  have hkey := @unsorted_filter_key src tgt cf hsrc htgt p
  have hmem : ∀ a : SyncAction,
      (a ∈ (createSyncPlan src tgt cf).1.Actions ∧ a.RelPath = p) ↔
        a ∈ keyActions src tgt cf p := by
    intro a
    rw [← hkey, List.mem_filter]
    constructor
    · rintro ⟨hin, hrel⟩
      exact ⟨mem_plan_actions.mp hin, by simp [hrel]⟩
    · rintro ⟨hin, hrel⟩
      exact ⟨mem_plan_actions.mpr hin, by simpa using hrel⟩
  unfold keyActions at hmem
  rw [hs, ht] at hmem
  have hdirneg : ¬ sfi.IsDir ≠ tfi.IsDir := by simp [hdir]
  constructor
  · rintro ⟨a, hin, hrel, htyp⟩
    have := (hmem a).mp ⟨hin, hrel⟩
    simp only [if_neg hdirneg, if_neg (by simp [hfile] : ¬ sfi.IsDir = true)] at this
    by_cases hnu : needsUpdateResolved sfi tfi cf = true
    · exact hnu
    · rw [if_neg hnu] at this
      cases this
  · intro hnu
    refine ⟨⟨.Update, some sfi, some tfi, p⟩, ?_, rfl, rfl⟩
    have := (hmem ⟨.Update, some sfi, some tfi, p⟩).mpr
    simp only [if_neg hdirneg, if_neg (by simp [hfile] : ¬ sfi.IsDir = true), if_pos hnu] at this
    exact (this (by simp)).1

theorem mem_sourceWarnings {tgt : List (String × FileInfo)} {cf : ChecksumFn}
    {e : String × FileInfo} {q : String} :
    q ∈ sourceWarnings tgt cf e ↔
      q = e.1 ∧ ∃ t er, tgt.lookup e.1 = some t ∧ e.2.IsDir = t.IsDir ∧
        e.2.IsDir = false ∧ e.2.NeedsUpdate t cf = .error er := by
  unfold sourceWarnings
  cases hlook : tgt.lookup e.1 with
  | none => simp
  | some t =>
    simp only [Option.some.injEq]
    by_cases h1 : e.2.IsDir ≠ t.IsDir
    · simp only [if_pos h1]
      constructor
      · intro h; cases h
      · rintro ⟨rfl, t2, er, ht2, heq, _, _⟩
        subst ht2
        exact absurd heq h1
    · simp only [if_neg h1]
      push_neg at h1
      by_cases h2 : e.2.IsDir
      · simp only [if_pos h2]
        constructor
        · intro h; cases h
        · rintro ⟨rfl, t2, er, ht2, heq, hfe, _⟩
          rw [h2] at hfe; cases hfe
      · simp only [if_neg h2]
        rcases hnu : e.2.NeedsUpdate t cf with er | b
        · simp only [List.mem_singleton]
          constructor
          · intro h; exact ⟨h, t, er, rfl, h1, by simpa using h2, hnu⟩
          · rintro ⟨rfl, _, _, _, _, _, _⟩; rfl
        · constructor
          · intro h; cases h
          · rintro ⟨rfl, t2, er, ht2, _, _, hcontra⟩
            subst ht2
            rw [hnu] at hcontra; cases hcontra

theorem warning_at_key_iff {src tgt : List (String × FileInfo)} {cf : ChecksumFn}
    {p : String} {sfi tfi : FileInfo}
    (hsrc : (src.map Prod.fst).Nodup)
    (hs : src.lookup p = some sfi) (ht : tgt.lookup p = some tfi)
    (hdir : sfi.IsDir = tfi.IsDir) (hfile : sfi.IsDir = false) :
    (p ∈ (createSyncPlan src tgt cf).2 ↔
      ∃ e, sfi.NeedsUpdate tfi cf = .error e) := by
  rw [createSyncPlan_eq]
  simp only [List.mem_flatMap]
  constructor
  · rintro ⟨en, hen, hw⟩
    obtain ⟨hq, t2, er, hlook, _, _, herr⟩ := mem_sourceWarnings.mp hw
    have hlk := lookup_of_mem_nodup hsrc hen
    rw [← hq, hs] at hlk
    have hen2 : en.2 = sfi := by
      injection hlk.symm
    rw [← hq, ht] at hlook
    have ht2 : t2 = tfi := by injection hlook with h; exact h.symm
    rw [hen2, ht2] at herr
    exact ⟨er, herr⟩
  · rintro ⟨e, he⟩
    exact ⟨(p, sfi), mem_of_lookup hs,
      mem_sourceWarnings.mpr ⟨rfl, tfi, e, by simpa using ht, hdir, hfile, he⟩⟩


theorem needsUpdate_source_fail {sfi tfi : FileInfo} {cf : ChecksumFn} {e : ChecksumErr}
    (hdir : sfi.IsDir = tfi.IsDir) (hfile : sfi.IsDir = false)
    (hsize : sfi.Size = tfi.Size)
    (htime : truncSec sfi.ModTime ≠ truncSec tfi.ModTime)
    (he : cf sfi.AbsPath = .error e) :
    sfi.NeedsUpdate tfi cf = .error (.sourceChecksum e) := by
  have hfile2 : tfi.IsDir = false := hdir ▸ hfile
  unfold FileInfo.NeedsUpdate
  simp [hdir, hfile, hfile2, hsize, htime, he]

theorem needsUpdate_target_fail {sfi tfi : FileInfo} {cf : ChecksumFn}
    {ds : String} {e : ChecksumErr}
    (hdir : sfi.IsDir = tfi.IsDir) (hfile : sfi.IsDir = false)
    (hsize : sfi.Size = tfi.Size)
    (htime : truncSec sfi.ModTime ≠ truncSec tfi.ModTime)
    (hds : cf sfi.AbsPath = .ok ds) (he : cf tfi.AbsPath = .error e) :
    sfi.NeedsUpdate tfi cf =
      (if e = .notExist then .ok true else .error (.targetChecksum e)) := by
  have hfile2 : tfi.IsDir = false := hdir ▸ hfile
  unfold FileInfo.NeedsUpdate
  simp [hdir, hfile, hfile2, hsize, htime, hds, he]

/-- C2 (amended): for two file entries sharing a relative path in maps with
unique keys: differing sizes emit an Update with no digest invocation; the
digest function is invoked exactly when the sizes match and the
modification times truncated to whole seconds differ (on the source file,
then on the target file if the source digest succeeded); and when both
digests succeed, an Update is emitted if and only if the digests differ. -/
theorem c2_update_rule {src tgt : List (String × FileInfo)} {cf : ChecksumFn}
    {p : String} {sfi tfi : FileInfo}
    (hsrc : (src.map Prod.fst).Nodup) (htgt : (tgt.map Prod.fst).Nodup)
    (hs : src.lookup p = some sfi) (ht : tgt.lookup p = some tfi)
    (hdir : sfi.IsDir = tfi.IsDir) (hfile : sfi.IsDir = false) :
    (sfi.Size ≠ tfi.Size →
      (∃ a ∈ (createSyncPlan src tgt cf).1.Actions, a.RelPath = p ∧ a.Typ = .Update) ∧
      sfi.NeedsUpdateCalls tfi cf = []) ∧
    (sfi.NeedsUpdateCalls tfi cf ≠ [] ↔
      sfi.Size = tfi.Size ∧ truncSec sfi.ModTime ≠ truncSec tfi.ModTime) ∧
    (∀ ds dt, sfi.Size = tfi.Size → truncSec sfi.ModTime ≠ truncSec tfi.ModTime →
      cf sfi.AbsPath = .ok ds → cf tfi.AbsPath = .ok dt →
      sfi.NeedsUpdateCalls tfi cf = [sfi.AbsPath, tfi.AbsPath] ∧
      ((∃ a ∈ (createSyncPlan src tgt cf).1.Actions, a.RelPath = p ∧ a.Typ = .Update) ↔
        ds ≠ dt)) := by
  refine ⟨?_, needsUpdateCalls_iff hdir hfile, ?_⟩
  · intro hsize
    obtain ⟨hupd, hcalls⟩ := @needsUpdate_sizes_differ sfi tfi cf hdir hfile hsize
    refine ⟨?_, hcalls⟩
    rw [update_at_key_iff hsrc htgt hs ht hdir hfile]
    simp [needsUpdateResolved, hupd]
  · intro ds dt hsize htime hds hdt
    obtain ⟨hupd, hcalls⟩ := needsUpdate_digest_both_ok hdir hfile hsize htime hds hdt
    refine ⟨hcalls, ?_⟩
    rw [update_at_key_iff hsrc htgt hs ht hdir hfile]
    simp [needsUpdateResolved, hupd]

/-- C2 witness: a concrete instance of the size-differs branch: Update is
emitted and no digest is invoked. -/
theorem c2_update_rule_witness :
    (∃ a ∈ (createSyncPlan
        [("f", ⟨"f", "SRC/f", 1, 420, 0, false⟩)]
        [("f", ⟨"f", "TGT/f", 2, 420, 0, false⟩)]
        (fun _ => Except.ok "d")).1.Actions, a.RelPath = "f" ∧ a.Typ = .Update) ∧
    FileInfo.NeedsUpdateCalls ⟨"f", "SRC/f", 1, 420, 0, false⟩
      ⟨"f", "TGT/f", 2, 420, 0, false⟩ (fun _ => Except.ok "d") = [] :=
  (c2_update_rule (by decide) (by decide) (by decide) (by decide)
    (by decide) (by decide)).1 (by decide)

/-- C2 counterexample: two same-size files whose modification times differ
by a single nanosecond (well within a 1-second tolerance) but fall into
different whole seconds: the digest function is invoked on both files,
refuting "invokes the digest ... exactly when ... the modification times
differ by more than a 1-second tolerance". -/
theorem c2_counterexample :
    ¬ ((FileInfo.NeedsUpdateCalls ⟨"f", "SRC/f", 5, 420, 999999999, false⟩
          ⟨"f", "TGT/f", 5, 420, 1000000000, false⟩ (fun _ => Except.ok "d") ≠ []) ↔
        ((5 : Nat) = 5 ∧
          1000000000 < max 999999999 1000000000 - min 999999999 1000000000)) := by
  decide

/-- C3 (amended): for two same-size files whose truncated modification
times differ, a digest failure on either side still emits an Update and
planning does not abort (`createSyncPlan` is total and returns a plan);
the failure is surfaced as a warning when the source digest fails or the
target digest fails with an error other than not-exist, but a target-side
not-exist failure emits the Update silently, with no warning. -/
theorem c3_digest_failure {src tgt : List (String × FileInfo)} {cf : ChecksumFn}
    {p : String} {sfi tfi : FileInfo}
    (hsrc : (src.map Prod.fst).Nodup) (htgt : (tgt.map Prod.fst).Nodup)
    (hs : src.lookup p = some sfi) (ht : tgt.lookup p = some tfi)
    (hdir : sfi.IsDir = tfi.IsDir) (hfile : sfi.IsDir = false)
    (hsize : sfi.Size = tfi.Size)
    (htime : truncSec sfi.ModTime ≠ truncSec tfi.ModTime) :
    (∀ e, cf sfi.AbsPath = .error e →
      (∃ a ∈ (createSyncPlan src tgt cf).1.Actions, a.RelPath = p ∧ a.Typ = .Update) ∧
      p ∈ (createSyncPlan src tgt cf).2) ∧
    (∀ ds e, cf sfi.AbsPath = .ok ds → cf tfi.AbsPath = .error e →
      (∃ a ∈ (createSyncPlan src tgt cf).1.Actions, a.RelPath = p ∧ a.Typ = .Update) ∧
      (e ≠ .notExist → p ∈ (createSyncPlan src tgt cf).2) ∧
      (e = .notExist → p ∉ (createSyncPlan src tgt cf).2)) := by
  constructor
  · intro e he
    have hnu := needsUpdate_source_fail hdir hfile hsize htime he
    constructor
    · rw [update_at_key_iff hsrc htgt hs ht hdir hfile]
      simp [needsUpdateResolved, hnu]
    · rw [warning_at_key_iff hsrc hs ht hdir hfile]
      exact ⟨_, hnu⟩
  · intro ds e hds he
    have hnu := needsUpdate_target_fail hdir hfile hsize htime hds he
    by_cases hne : e = .notExist
    · rw [if_pos hne] at hnu
      refine ⟨?_, fun h => absurd hne h, fun _ => ?_⟩
      · rw [update_at_key_iff hsrc htgt hs ht hdir hfile]
        simp [needsUpdateResolved, hnu]
      · rw [warning_at_key_iff hsrc hs ht hdir hfile]
        rintro ⟨e2, he2⟩
        rw [hnu] at he2
        cases he2
    · rw [if_neg hne] at hnu
      refine ⟨?_, fun _ => ?_, fun h => absurd h hne⟩
      · rw [update_at_key_iff hsrc htgt hs ht hdir hfile]
        simp [needsUpdateResolved, hnu]
      · rw [warning_at_key_iff hsrc hs ht hdir hfile]
        exact ⟨_, hnu⟩

/-- C3 witness: a concrete source-side digest failure: the Update is
emitted and the path appears among the planner warnings. -/
theorem c3_digest_failure_witness :
    (∃ a ∈ (createSyncPlan
        [("f", ⟨"f", "SRC/f", 5, 420, 0, false⟩)]
        [("f", ⟨"f", "TGT/f", 5, 420, 2000000000, false⟩)]
        (fun _ => Except.error ChecksumErr.ioError)).1.Actions,
      a.RelPath = "f" ∧ a.Typ = .Update) ∧
    "f" ∈ (createSyncPlan
        [("f", ⟨"f", "SRC/f", 5, 420, 0, false⟩)]
        [("f", ⟨"f", "TGT/f", 5, 420, 2000000000, false⟩)]
        (fun _ => Except.error ChecksumErr.ioError)).2 :=
  (@c3_digest_failure
    [("f", ⟨"f", "SRC/f", 5, 420, 0, false⟩)]
    [("f", ⟨"f", "TGT/f", 5, 420, 2000000000, false⟩)]
    (fun _ => Except.error ChecksumErr.ioError) "f"
    ⟨"f", "SRC/f", 5, 420, 0, false⟩ ⟨"f", "TGT/f", 5, 420, 2000000000, false⟩
    (by decide) (by decide) (by decide) (by decide)
    (by decide) (by decide) (by decide) (by decide)).1 .ioError rfl

/-- C3 counterexample: the digest computation fails for the target file
(not-exist), the Update is emitted and planning completes, yet the warning
list is empty — refuting "surfaces the failure as a warning". -/
theorem c3_counterexample :
    ((fun q => if q = "SRC/f" then Except.ok "d"
      else Except.error ChecksumErr.notExist) "TGT/f" =
        Except.error ChecksumErr.notExist) ∧
    (∃ a ∈ (createSyncPlan
        [("f", ⟨"f", "SRC/f", 5, 420, 0, false⟩)]
        [("f", ⟨"f", "TGT/f", 5, 420, 2000000000, false⟩)]
        (fun q => if q = "SRC/f" then Except.ok "d"
          else Except.error ChecksumErr.notExist)).1.Actions,
      a.RelPath = "f" ∧ a.Typ = .Update) ∧
    (createSyncPlan
        [("f", ⟨"f", "SRC/f", 5, 420, 0, false⟩)]
        [("f", ⟨"f", "TGT/f", 5, 420, 2000000000, false⟩)]
        (fun q => if q = "SRC/f" then Except.ok "d"
          else Except.error ChecksumErr.notExist)).2 = [] := by
  decide

/-- C4: two files at the same relative path with equal sizes and equal
second-truncated modification times never produce an Update, whatever the
digest function computes (even when the contents differ). -/
theorem c4_no_update_on_equal_size_and_time {src tgt : List (String × FileInfo)}
    {p : String} {sfi tfi : FileInfo}
    (hsrc : (src.map Prod.fst).Nodup) (htgt : (tgt.map Prod.fst).Nodup)
    (hs : src.lookup p = some sfi) (ht : tgt.lookup p = some tfi)
    (hfs : sfi.IsDir = false) (hft : tfi.IsDir = false)
    (hsize : sfi.Size = tfi.Size)
    (htime : truncSec sfi.ModTime = truncSec tfi.ModTime) :
    ∀ cf : ChecksumFn,
      ¬ ∃ a ∈ (createSyncPlan src tgt cf).1.Actions,
          a.RelPath = p ∧ a.Typ = .Update := by
  intro cf hex
  have hdir : sfi.IsDir = tfi.IsDir := by rw [hfs, hft]
  have hres := (update_at_key_iff hsrc htgt hs ht hdir hfs).mp hex
  obtain ⟨hnu, _⟩ := @needsUpdate_no_change sfi tfi cf hdir hfs hsize htime
  rw [needsUpdateResolved, hnu] at hres
  cases hres

/-- C4 witness: a concrete pair with equal size and truncation-equal (but
unequal) modification times, with a digest function that would report
differing contents: no Update appears. -/
theorem c4_no_update_witness :
    ¬ ∃ a ∈ (createSyncPlan
        [("f", ⟨"f", "SRC/f", 5, 420, 100, false⟩)]
        [("f", ⟨"f", "TGT/f", 5, 420, 900000000, false⟩)]
        (fun q => if q = "SRC/f" then Except.ok "x" else Except.ok "y")).1.Actions,
      a.RelPath = "f" ∧ a.Typ = .Update :=
  @c4_no_update_on_equal_size_and_time
    [("f", ⟨"f", "SRC/f", 5, 420, 100, false⟩)]
    [("f", ⟨"f", "TGT/f", 5, 420, 900000000, false⟩)] "f"
    ⟨"f", "SRC/f", 5, 420, 100, false⟩ ⟨"f", "TGT/f", 5, 420, 900000000, false⟩
    (by decide) (by decide) (by decide) (by decide) (by decide) (by decide)
    (by decide) (by decide)
    (fun q => if q = "SRC/f" then Except.ok "x" else Except.ok "y")


theorem length_eq_three_counts (l : List SyncAction)
    (h : ∀ a ∈ l, a.Typ ≠ .NoneType) :
    l.length = l.countP (fun a => a.Typ = .Add) + l.countP (fun a => a.Typ = .Update) +
      l.countP (fun a => a.Typ = .Delete) := by
  induction l with
  | nil => simp
  | cons a t ih =>
    have hat := h a (List.mem_cons_self _ _)
    have ht := ih (fun b hb => h b (List.mem_cons_of_mem a hb))
    simp only [List.length_cons, List.countP_cons]
    cases hty : a.Typ <;> simp [hty] at hat ⊢ <;> omega

/-- C5: completeness of the plan: the action count equals the sum of the
summary counters; a key only in the source yields exactly one action, an
Add; a key only in the target yields exactly one action, a Delete; a key
in both with mismatched kind yields exactly one Delete and one Add at that
relative path. -/
theorem c5_completeness {src tgt : List (String × FileInfo)} {cf : ChecksumFn}
    (hsrc : (src.map Prod.fst).Nodup) (htgt : (tgt.map Prod.fst).Nodup) :
    ((createSyncPlan src tgt cf).1.Actions.length =
      (createSyncPlan src tgt cf).1.Adds + (createSyncPlan src tgt cf).1.Updates +
        (createSyncPlan src tgt cf).1.Deletes) ∧
    (∀ p s, src.lookup p = some s → tgt.lookup p = none →
      (createSyncPlan src tgt cf).1.Actions.filter (fun a => a.RelPath = p) =
        [⟨.Add, some s, none, p⟩]) ∧
    (∀ p t, src.lookup p = none → tgt.lookup p = some t →
      (createSyncPlan src tgt cf).1.Actions.filter (fun a => a.RelPath = p) =
        [⟨.Delete, none, some t, p⟩]) ∧
    (∀ p s t, src.lookup p = some s → tgt.lookup p = some t → s.IsDir ≠ t.IsDir →
      ((createSyncPlan src tgt cf).1.Actions.filter (fun a => a.RelPath = p)).Perm
        [⟨.Delete, none, some t, p⟩, ⟨.Add, some s, some t, p⟩]) := by
  have hplanperm :
      ((createSyncPlan src tgt cf).1.Actions).Perm (unsortedActions src tgt cf) := by
    rw [createSyncPlan_eq]
    exact stableSort_perm _ _
  have hfilter : ∀ p : String,
      ((createSyncPlan src tgt cf).1.Actions.filter (fun a => a.RelPath = p)).Perm
        (keyActions src tgt cf p) := by
    intro p
    rw [← unsorted_filter_key hsrc htgt p]
    exact hplanperm.filter _
  refine ⟨?_, ?_, ?_, ?_⟩
  · rw [createSyncPlan_eq]
    simp only
    rw [(stableSort_perm actionLess (unsortedActions src tgt cf)).length_eq]
    exact length_eq_three_counts _ unsortedActions_typ_ne_none
  · intro p s hs ht
    have h := hfilter p
    rw [show keyActions src tgt cf p = [⟨.Add, some s, none, p⟩] by
      unfold keyActions; rw [hs, ht]] at h
    exact List.perm_singleton.mp h
  · intro p t hs ht
    have h := hfilter p
    rw [show keyActions src tgt cf p = [⟨.Delete, none, some t, p⟩] by
      unfold keyActions; rw [hs, ht]] at h
    exact List.perm_singleton.mp h
  · intro p s t hs ht hdir
    have h := hfilter p
    rw [show keyActions src tgt cf p =
        [⟨.Delete, none, some t, p⟩, ⟨.Add, some s, some t, p⟩] by
      unfold keyActions; rw [hs, ht]; simp [hdir]] at h
    exact h

/-- C5 witness: a concrete pair of maps exercising all four parts: `a` is
source-only, `d` is target-only and `m` is a directory in the source but a
file in the target. -/
theorem c5_completeness_witness :
    ((createSyncPlan
        [("a", ⟨"a", "SRC/a", 1, 420, 0, false⟩), ("m", ⟨"m", "SRC/m", 0, 493, 0, true⟩)]
        [("d", ⟨"d", "TGT/d", 2, 420, 0, false⟩), ("m", ⟨"m", "TGT/m", 3, 420, 0, false⟩)]
        (fun _ => Except.ok "")).1.Actions.length =
      (createSyncPlan
        [("a", ⟨"a", "SRC/a", 1, 420, 0, false⟩), ("m", ⟨"m", "SRC/m", 0, 493, 0, true⟩)]
        [("d", ⟨"d", "TGT/d", 2, 420, 0, false⟩), ("m", ⟨"m", "TGT/m", 3, 420, 0, false⟩)]
        (fun _ => Except.ok "")).1.Adds +
      (createSyncPlan
        [("a", ⟨"a", "SRC/a", 1, 420, 0, false⟩), ("m", ⟨"m", "SRC/m", 0, 493, 0, true⟩)]
        [("d", ⟨"d", "TGT/d", 2, 420, 0, false⟩), ("m", ⟨"m", "TGT/m", 3, 420, 0, false⟩)]
        (fun _ => Except.ok "")).1.Updates +
      (createSyncPlan
        [("a", ⟨"a", "SRC/a", 1, 420, 0, false⟩), ("m", ⟨"m", "SRC/m", 0, 493, 0, true⟩)]
        [("d", ⟨"d", "TGT/d", 2, 420, 0, false⟩), ("m", ⟨"m", "TGT/m", 3, 420, 0, false⟩)]
        (fun _ => Except.ok "")).1.Deletes) ∧
    ((createSyncPlan
        [("a", ⟨"a", "SRC/a", 1, 420, 0, false⟩), ("m", ⟨"m", "SRC/m", 0, 493, 0, true⟩)]
        [("d", ⟨"d", "TGT/d", 2, 420, 0, false⟩), ("m", ⟨"m", "TGT/m", 3, 420, 0, false⟩)]
        (fun _ => Except.ok "")).1.Actions.filter (fun a => a.RelPath = "a") =
      [⟨.Add, some ⟨"a", "SRC/a", 1, 420, 0, false⟩, none, "a"⟩]) ∧
    ((createSyncPlan
        [("a", ⟨"a", "SRC/a", 1, 420, 0, false⟩), ("m", ⟨"m", "SRC/m", 0, 493, 0, true⟩)]
        [("d", ⟨"d", "TGT/d", 2, 420, 0, false⟩), ("m", ⟨"m", "TGT/m", 3, 420, 0, false⟩)]
        (fun _ => Except.ok "")).1.Actions.filter (fun a => a.RelPath = "d") =
      [⟨.Delete, none, some ⟨"d", "TGT/d", 2, 420, 0, false⟩, "d"⟩]) ∧
    ((createSyncPlan
        [("a", ⟨"a", "SRC/a", 1, 420, 0, false⟩), ("m", ⟨"m", "SRC/m", 0, 493, 0, true⟩)]
        [("d", ⟨"d", "TGT/d", 2, 420, 0, false⟩), ("m", ⟨"m", "TGT/m", 3, 420, 0, false⟩)]
        (fun _ => Except.ok "")).1.Actions.filter (fun a => a.RelPath = "m")).Perm
      [⟨.Delete, none, some ⟨"m", "TGT/m", 3, 420, 0, false⟩, "m"⟩,
       ⟨.Add, some ⟨"m", "SRC/m", 0, 493, 0, true⟩, some ⟨"m", "TGT/m", 3, 420, 0, false⟩, "m"⟩] := by
  obtain ⟨h1, h2, h3, h4⟩ := @c5_completeness
    [("a", ⟨"a", "SRC/a", 1, 420, 0, false⟩), ("m", ⟨"m", "SRC/m", 0, 493, 0, true⟩)]
    [("d", ⟨"d", "TGT/d", 2, 420, 0, false⟩), ("m", ⟨"m", "TGT/m", 3, 420, 0, false⟩)]
    (fun _ => Except.ok "") (by decide) (by decide)
  exact ⟨h1, h2 "a" _ (by decide) (by decide), h3 "d" _ (by decide) (by decide),
    h4 "m" _ _ (by decide) (by decide) (by decide)⟩


/-! ## Ancestors of a valid path -/

theorem pathComponents_pathOfComponents {l : List (List Char)}
    (hl : ∀ comp ∈ l, '/' ∉ comp) (hne : l ≠ []) :
    pathComponents (pathOfComponents l) = l :=
  splitSlash_joinSlash hl hne

theorem mem_properAncestors_iff {p q : String} (hp : ValidPath p) :
    q ∈ properAncestors p ↔ ValidPath q ∧ IsStrictAncestor q p := by
  unfold properAncestors
  simp only [List.mem_map, List.mem_range]
  constructor
  · rintro ⟨i, hi, rfl⟩
    have hlen : i + 1 < (pathComponents p).length := by
      have := splitSlash_ne_nil p.data
      have hne : (pathComponents p).length ≠ 0 := by
        simp only [pathComponents]
        exact fun h => this (List.eq_nil_of_length_eq_zero h)
      omega
    set t := (pathComponents p).take (i + 1) with ht
    have htsub : ∀ comp ∈ t, comp ∈ pathComponents p :=
      fun comp hc => (List.take_prefix _ _).subset hc
    have htslash : ∀ comp ∈ t, '/' ∉ comp :=
      fun comp hc => splitSlash_no_slash p.data comp (htsub comp hc)
    have htne : t ≠ [] := by
      have : t.length = i + 1 := List.length_take_of_le (by omega)
      intro h
      rw [h] at this
      simp at this
    have hround : pathComponents (pathOfComponents t) = t :=
      pathComponents_pathOfComponents htslash htne
    refine ⟨?_, ?_, ?_⟩
    · intro comp hc
      rw [hround] at hc
      exact hp comp (htsub comp hc)
    · rw [hround]
      exact List.take_prefix _ _
    · rw [hround]
      intro heq
      have h1 : t.length = i + 1 := List.length_take_of_le (by omega)
      rw [heq] at h1
      omega
  · rintro ⟨hq, hpre, hne⟩
    have hqlen : 1 ≤ (pathComponents q).length := by
      have := splitSlash_ne_nil q.data
      have : (pathComponents q).length ≠ 0 := by
        simp only [pathComponents]
        exact fun h => this (List.eq_nil_of_length_eq_zero h)
      omega
    have hlt : (pathComponents q).length < (pathComponents p).length := by
      have hle := hpre.length_le
      rcases Nat.lt_or_ge (pathComponents q).length (pathComponents p).length with h | h
      · exact h
      · exfalso
        apply hne
        have := List.prefix_iff_eq_take.mp hpre
        rw [this, List.take_of_length_le (by omega)]
    refine ⟨(pathComponents q).length - 1, by omega, ?_⟩
    have htake : (pathComponents p).take ((pathComponents q).length - 1 + 1) =
        pathComponents q := by
      have : (pathComponents q).length - 1 + 1 = (pathComponents q).length := by omega
      rw [this]
      exact (List.prefix_iff_eq_take.mp hpre).symm
    rw [htake]
    have : pathOfComponents (pathComponents q) = q := pathOfComponents_pathComponents q
    exact this

/-- C7: a missing target root is not an error and yields an empty mapping
(the walk hands the stat failure to the callback, which logs a warning and
returns nil, so `scanDirectory` returns an empty map with a nil error),
while a missing source root is fatal: `rootCmd.RunE` aborts with the
source-not-exist error before any of the pipeline runs, for every possible
pipeline, giving a nonzero exit through cobra. -/
theorem c7_missing_roots :
    (∀ (root : String) (matcher : Option (String → Bool)),
      scanDirectoryRun root matcher none = ([], none)) ∧
    (∀ (targetStat : StatResult) (samePath targetInside : Bool)
      (pipeline : Unit → List (String × FileInfo)),
      rootCmdRunE .notExist targetStat samePath targetInside pipeline =
        .error .sourceNotExist) :=
  ⟨fun _ _ => rfl, fun _ _ _ _ => rfl⟩

theorem applyActions_acc (srcRead : String → Option Node)
    (acts : List SyncAction) (fs : FS) (errs : List ApplyErr) :
    acts.foldl (fun acc act =>
        match applyAction srcRead acc.1 act with
        | (fs2, errOpt) => (fs2, acc.2 ++ errOpt.toList)) (fs, errs) =
      ((applyActions srcRead fs acts).1,
        errs ++ (applyActions srcRead fs acts).2) := by
  induction acts generalizing fs errs with
  | nil => simp [applyActions]
  | cons act rest ih =>
    simp only [applyActions, List.foldl_cons]
    rcases happ : applyAction srcRead fs act with ⟨fs2, errOpt⟩
    rw [ih, ih]
    simp

theorem applyActions_append (srcRead : String → Option Node)
    (as bs : List SyncAction) (fs : FS) :
    applyActions srcRead fs (as ++ bs) =
      ((applyActions srcRead (applyActions srcRead fs as).1 bs).1,
        (applyActions srcRead fs as).2 ++
          (applyActions srcRead (applyActions srcRead fs as).1 bs).2) := by
  have h1 : applyActions srcRead fs as =
      as.foldl (fun acc act =>
        match applyAction srcRead acc.1 act with
        | (fs2, errOpt) => (fs2, acc.2 ++ errOpt.toList)) (fs, []) := rfl
  conv_lhs => unfold applyActions
  rw [List.foldl_append, ← h1]
  rcases hx : applyActions srcRead fs as with ⟨fs1, errs1⟩
  simpa using applyActions_acc srcRead bs fs1 errs1

/-- C8: the executor attempts every action and aggregates the errors:
applying a concatenation of action lists applies the second part from the
state the first left, whatever errors the first part produced (no error
cancels, blocks or skips later actions), the collected error list is the
concatenation of the per-part error lists, and once the apply phase is
entered, the run result is a success if and only if no per-action error
was collected (otherwise the aggregate of all of them is reported). -/
theorem c8_error_aggregation (srcRead : String → Option Node) :
    (∀ (as bs : List SyncAction) (fs : FS),
      applyActions srcRead fs (as ++ bs) =
        ((applyActions srcRead (applyActions srcRead fs as).1 bs).1,
          (applyActions srcRead fs as).2 ++
            (applyActions srcRead (applyActions srcRead fs as).1 bs).2)) ∧
    (∀ (plan : SyncPlan) (fs : FS) (response : String),
      plan.Actions.length ≠ 0 →
      ¬ (goTrimSpace (goToLower response) ≠ "" ∧
          goTrimSpace (goToLower response) ≠ "y" ∧
          goTrimSpace (goToLower response) ≠ "yes") →
      ((executePlan srcRead plan fs false response).2 = .ok () ↔
        (applyActions srcRead fs plan.Actions).2 = [])) := by
  constructor
  · intro as bs fs
    exact applyActions_append srcRead as bs fs
  · intro plan fs response hne hacc
    unfold executePlan
    rw [if_neg hne, if_neg (by simp), if_neg hacc]
    rcases happ : applyActions srcRead fs plan.Actions with ⟨fs2, errs⟩
    by_cases herr : 0 < errs.length
    · simp only [happ, if_pos herr]
      constructor
      · intro h; cases h
      · intro h
        subst h
        simp at herr
    · simp only [happ, if_neg herr]
      have hnil : errs = [] := by
        cases errs with
        | nil => rfl
        | cons e t => exact absurd (by simp) herr
      simp [hnil]

/-- C8 witness: a two-action plan in which the first action fails (its
source file is missing) and the second succeeds: both are attempted, the
single error is aggregated, and the entered apply phase reports failure. -/
theorem c8_error_aggregation_witness :
    (applyActions (fun _ => none) []
        ([⟨.Add, some ⟨"a", "SRC/a", 1, 420, 0, false⟩, none, "a"⟩] ++
         [⟨.Delete, none, some ⟨"b", "TGT/b", 1, 420, 0, false⟩, "b"⟩]) =
      ((applyActions (fun _ => none)
          (applyActions (fun _ => none) []
            [⟨.Add, some ⟨"a", "SRC/a", 1, 420, 0, false⟩, none, "a"⟩]).1
          [⟨.Delete, none, some ⟨"b", "TGT/b", 1, 420, 0, false⟩, "b"⟩]).1,
        (applyActions (fun _ => none) []
          [⟨.Add, some ⟨"a", "SRC/a", 1, 420, 0, false⟩, none, "a"⟩]).2 ++
          (applyActions (fun _ => none)
            (applyActions (fun _ => none) []
              [⟨.Add, some ⟨"a", "SRC/a", 1, 420, 0, false⟩, none, "a"⟩]).1
            [⟨.Delete, none, some ⟨"b", "TGT/b", 1, 420, 0, false⟩, "b"⟩]).2)) ∧
    ¬ ((executePlan (fun _ => none)
        ⟨[⟨.Add, some ⟨"a", "SRC/a", 1, 420, 0, false⟩, none, "a"⟩,
          ⟨.Delete, none, some ⟨"b", "TGT/b", 1, 420, 0, false⟩, "b"⟩], 1, 0, 1⟩
        [] false "y").2 = .ok ()) := by
  constructor
  · exact (c8_error_aggregation (fun _ => none)).1
      [⟨.Add, some ⟨"a", "SRC/a", 1, 420, 0, false⟩, none, "a"⟩]
      [⟨.Delete, none, some ⟨"b", "TGT/b", 1, 420, 0, false⟩, "b"⟩] []
  · intro h
    have := ((c8_error_aggregation (fun _ => none)).2
      ⟨[⟨.Add, some ⟨"a", "SRC/a", 1, 420, 0, false⟩, none, "a"⟩,
        ⟨.Delete, none, some ⟨"b", "TGT/b", 1, 420, 0, false⟩, "b"⟩], 1, 0, 1⟩
      [] "y" (by decide) (by decide)).mp h
    revert this
    decide

/-- C9: with a non-empty plan and no dry run, execution proceeds if and
only if the response, lowercased then trimmed of whitespace, is one of
"", "y", "yes" (empty input accepts); for any other response the executor
stops gracefully: the target tree is unchanged, no action is applied and
the result is a nil error (process exit code 0). -/
theorem c9_confirmation (srcRead : String → Option Node) (plan : SyncPlan)
    (fs : FS) (response : String) (hne : plan.Actions.length ≠ 0) :
    (¬ (goTrimSpace (goToLower response) = "" ∨
        goTrimSpace (goToLower response) = "y" ∨
        goTrimSpace (goToLower response) = "yes") →
      executePlan srcRead plan fs false response = (fs, .ok ())) ∧
    ((goTrimSpace (goToLower response) = "" ∨
        goTrimSpace (goToLower response) = "y" ∨
        goTrimSpace (goToLower response) = "yes") →
      executePlan srcRead plan fs false response =
        ((applyActions srcRead fs plan.Actions).1,
          if 0 < (applyActions srcRead fs plan.Actions).2.length then
            .error (applyActions srcRead fs plan.Actions).2
          else .ok ())) := by
  unfold executePlan
  rw [if_neg hne, if_neg (by simp)]
  constructor
  · intro hdecl
    push_neg at hdecl
    rw [if_pos ⟨hdecl.1, hdecl.2.1, hdecl.2.2⟩]
  · intro hacc
    rw [if_neg (by
      rintro ⟨h1, h2, h3⟩
      rcases hacc with h | h | h
      · exact h1 h
      · exact h2 h
      · exact h3 h)]

/-- C9 witness: response "No\n" declines (tree untouched, success), and an
empty response "\n" accepts and enters the apply phase. -/
theorem c9_confirmation_witness :
    (executePlan (fun _ => none)
        ⟨[⟨.Delete, none, some ⟨"b", "TGT/b", 1, 420, 0, false⟩, "b"⟩], 0, 0, 1⟩
        [] false "No\n" = ([], .ok ())) ∧
    (executePlan (fun _ => none)
        ⟨[⟨.Delete, none, some ⟨"b", "TGT/b", 1, 420, 0, false⟩, "b"⟩], 0, 0, 1⟩
        [] false "\n" =
      ((applyActions (fun _ => none) []
          [⟨.Delete, none, some ⟨"b", "TGT/b", 1, 420, 0, false⟩, "b"⟩]).1,
        if 0 < (applyActions (fun _ => none) []
            [⟨.Delete, none, some ⟨"b", "TGT/b", 1, 420, 0, false⟩, "b"⟩]).2.length then
          .error (applyActions (fun _ => none) []
            [⟨.Delete, none, some ⟨"b", "TGT/b", 1, 420, 0, false⟩, "b"⟩]).2
        else .ok ())) :=
  ⟨(c9_confirmation (fun _ => none)
      ⟨[⟨.Delete, none, some ⟨"b", "TGT/b", 1, 420, 0, false⟩, "b"⟩], 0, 0, 1⟩
      [] "No\n" (by decide)).1 (by decide),
   (c9_confirmation (fun _ => none)
      ⟨[⟨.Delete, none, some ⟨"b", "TGT/b", 1, 420, 0, false⟩, "b"⟩], 0, 0, 1⟩
      [] "\n" (by decide)).2 (by decide)⟩

theorem scan_key_included {root : String} {matcher : Option (String → Bool)}
    {fs : FS} {p : String}
    (h : p ∈ (scanDirectory root matcher fs).map Prod.fst) :
    scanIncluded matcher p = true := by
  rcases List.mem_map.mp h with ⟨⟨q, fi⟩, hmem, hq⟩
  rcases List.mem_filterMap.mp hmem with ⟨e, _, he⟩
  by_cases hinc : scanIncluded matcher e.1 = true
  · rw [if_pos hinc] at he
    injection he with he1
    injection he1 with he2
    simp only at hq
    rw [he2, hq] at hinc
    exact hinc
  · rw [if_neg hinc] at he
    cases he

theorem action_relPath_mem {src tgt : List (String × FileInfo)} {cf : ChecksumFn} :
    ∀ a ∈ unsortedActions src tgt cf,
      a.RelPath ∈ src.map Prod.fst ∨ a.RelPath ∈ tgt.map Prod.fst := by
  intro a ha
  rcases List.mem_append.mp ha with h | h
  · rcases List.mem_flatMap.mp h with ⟨e, he, hmem⟩
    left
    rw [sourceActions_relPath a hmem]
    exact List.mem_map.mpr ⟨e, he, rfl⟩
  · rcases List.mem_flatMap.mp h with ⟨e, he, hmem⟩
    right
    rw [targetActions_relPath a hmem]
    exact List.mem_map.mpr ⟨e, he, rfl⟩

/-- C10: a node whose base name is `.sync-ignore` is omitted from every
scan, at any depth, source or target alike (the target scan's matcher is
nil but the name check still runs); consequently no action of a plan built
from two scans carries a relative path with base name `.sync-ignore` — in
particular a `.sync-ignore` file present only in the target is never
deleted. -/
theorem c10_sync_ignore_never_synced :
    (∀ (root : String) (matcher : Option (String → Bool)) (fs : FS)
      (p : String) (fi : FileInfo),
      (p, fi) ∈ scanDirectory root matcher fs → pathBase p ≠ ".sync-ignore") ∧
    (∀ (srcFS tgtFS : FS) (m : String → Bool) (cf : ChecksumFn),
      ∀ a ∈ (createSyncPlan (scanDirectory "SRC" (some m) srcFS)
          (scanDirectory "TGT" none tgtFS) cf).1.Actions,
        pathBase a.RelPath ≠ ".sync-ignore") := by
  have hbase : ∀ (matcher : Option (String → Bool)) (p : String),
      scanIncluded matcher p = true → pathBase p ≠ ".sync-ignore" := by
    intro matcher p h
    unfold scanIncluded at h
    simp only [decide_eq_true_eq, Bool.and_eq_true] at h
    exact h.1
  constructor
  · intro root matcher fs p fi hmem
    exact hbase matcher p
      (scan_key_included (List.mem_map.mpr ⟨(p, fi), hmem, rfl⟩))
  · intro srcFS tgtFS m cf a ha
    rcases action_relPath_mem a (mem_plan_actions.mp ha) with h | h
    · exact hbase (some m) a.RelPath (scan_key_included h)
    · exact hbase none a.RelPath (scan_key_included h)

/-- C10 witness: a tree containing `.sync-ignore` and `x/.sync-ignore`
scans to a mapping without them, and a concrete plan action derived from
such trees never targets a `.sync-ignore` path. -/
theorem c10_sync_ignore_witness :
    pathBase "x/y" ≠ ".sync-ignore" ∧ pathBase "x/.sync-ignore" = ".sync-ignore" ∧
    (scanDirectory "TGT" none
      [(".sync-ignore", ⟨false, 3, 420, 0, "i"⟩),
       ("x", ⟨true, 0, 493, 0, ""⟩),
       ("x/.sync-ignore", ⟨false, 3, 420, 0, "i"⟩),
       ("x/y", ⟨false, 1, 420, 0, "y"⟩)]).map Prod.fst = ["x", "x/y"] ∧
    pathBase
      ((createSyncPlan (scanDirectory "SRC" (some (fun _ => false)) [])
        (scanDirectory "TGT" none
          [(".sync-ignore", ⟨false, 3, 420, 0, "i"⟩),
           ("x", ⟨true, 0, 493, 0, ""⟩),
           ("x/.sync-ignore", ⟨false, 3, 420, 0, "i"⟩),
           ("x/y", ⟨false, 1, 420, 0, "y"⟩)])
        (fun _ => Except.ok "")).1.Actions.headD ⟨.NoneType, none, none, ""⟩).RelPath ≠ ".sync-ignore" := by
  refine ⟨by decide, by decide, by decide, ?_⟩
  apply (c10_sync_ignore_never_synced).2
    [] [(".sync-ignore", ⟨false, 3, 420, 0, "i"⟩),
        ("x", ⟨true, 0, 493, 0, ""⟩),
        ("x/.sync-ignore", ⟨false, 3, 420, 0, "i"⟩),
        ("x/y", ⟨false, 1, 420, 0, "y"⟩)]
    (fun _ => false) (fun _ => Except.ok "")
  decide


/-! ## Lemmas about the tree operations -/

theorem fsLookup_eq_lookup (fs : FS) (p : String) : fsLookup fs p = fs.lookup p := by
  induction fs with
  | nil => rfl
  | cons e rest ih =>
    obtain ⟨k, v⟩ := e
    simp only [fsLookup, List.lookup_cons]
    by_cases hk : k = p
    · subst hk
      simp
    · rw [if_neg hk, beq_false_of_ne (fun h => hk h.symm)]
      exact ih

theorem fsLookup_filter (f : String → Bool) (fs : FS) (q : String) :
    fsLookup (fs.filter (fun e => f e.1)) q =
      if f q then fsLookup fs q else none := by
  induction fs with
  | nil => by_cases hf : f q <;> simp [fsLookup, hf]
  | cons e rest ih =>
    rw [List.filter_cons]
    by_cases he : f e.1
    · rw [if_pos he]
      by_cases hq : e.1 = q
      · simp only [fsLookup, if_pos hq]
        rw [hq] at he
        rw [if_pos he]
      · simp only [fsLookup, if_neg hq]
        exact ih
    · rw [if_neg he]
      by_cases hq : e.1 = q
      · rw [ih]
        rw [hq] at he
        simp only [fsLookup, if_pos hq]
        rw [if_neg he, if_neg he]
      · simp only [fsLookup, if_neg hq]
        exact ih

theorem fsLookup_fsInsert (fs : FS) (p : String) (n : Node) (q : String) :
    fsLookup (fsInsert fs p n) q = if q = p then some n else fsLookup fs q := by
  induction fs with
  | nil =>
    by_cases hq : q = p
    · subst hq
      simp [fsInsert, fsLookup]
    · simp [fsInsert, fsLookup, hq, Ne.symm hq]
  | cons e rest ih =>
    simp only [fsInsert]
    by_cases he : e.1 = p
    · rw [if_pos he]
      by_cases hq : q = p
      · simp [fsLookup, hq]
      · simp only [fsLookup, if_neg (fun h => hq h.symm : ¬ p = q), if_neg hq]
        rw [if_neg (fun h : e.1 = q => hq (h.symm.trans he))]
    · rw [if_neg he]
      by_cases hqe : e.1 = q
      · have hq : ¬ q = p := fun h => he (hqe ▸ h ▸ rfl)
        simp [fsLookup, hqe, hq]
      · simp only [fsLookup, if_neg hqe]
        exact ih

theorem mem_keys_fsInsert {fs : FS} {p : String} {n : Node} {q : String} :
    q ∈ (fsInsert fs p n).map Prod.fst ↔ q ∈ fs.map Prod.fst ∨ q = p := by
  induction fs with
  | nil => simp [fsInsert]
  | cons e rest ih =>
    simp only [fsInsert]
    by_cases he : e.1 = p
    · rw [if_pos he]
      simp only [List.map_cons, List.mem_cons]
      constructor
      · rintro (rfl | h)
        · exact Or.inr rfl
        · exact Or.inl (Or.inr h)
      · rintro ((h | h) | rfl)
        · exact Or.inl (h.trans he)
        · exact Or.inr h
        · exact Or.inl rfl
    · rw [if_neg he]
      simp only [List.map_cons, List.mem_cons, ih]
      tauto

theorem fsInsert_keys_nodup {fs : FS} (hnod : (fs.map Prod.fst).Nodup)
    (p : String) (n : Node) : ((fsInsert fs p n).map Prod.fst).Nodup := by
  induction fs with
  | nil => simp [fsInsert]
  | cons e rest ih =>
    rw [List.map_cons, List.nodup_cons] at hnod
    obtain ⟨hknot, hrest⟩ := hnod
    simp only [fsInsert]
    by_cases he : e.1 = p
    · rw [if_pos he, List.map_cons, List.nodup_cons]
      exact ⟨he ▸ hknot, hrest⟩
    · rw [if_neg he, List.map_cons, List.nodup_cons]
      constructor
      · intro hmem
        rcases mem_keys_fsInsert.mp hmem with h | h
        · exact hknot h
        · exact he h
      · exact ih hrest

theorem fsRemove_keys_nodup {fs : FS} (hnod : (fs.map Prod.fst).Nodup)
    (p : String) : ((fsRemove fs p).map Prod.fst).Nodup :=
  List.Nodup.sublist ((List.filter_sublist fs).map Prod.fst) hnod

theorem fsRemoveTree_keys_nodup {fs : FS} (hnod : (fs.map Prod.fst).Nodup)
    (p : String) : ((fsRemoveTree fs p).map Prod.fst).Nodup :=
  List.Nodup.sublist ((List.filter_sublist fs).map Prod.fst) hnod

theorem fsLookup_fsRemove (fs : FS) (p q : String) :
    fsLookup (fsRemove fs p) q = if q = p then none else fsLookup fs q := by
  unfold fsRemove
  rw [fsLookup_filter (fun k => decide (k ≠ p)) fs q]
  by_cases hq : q = p <;> simp [hq]

theorem fsLookup_fsRemoveTree (fs : FS) (p q : String) :
    fsLookup (fsRemoveTree fs p) q =
      if q = p ∨ IsStrictAncestor p q then none else fsLookup fs q := by
  unfold fsRemoveTree
  rw [fsLookup_filter (fun k => decide (¬ (k = p ∨ IsStrictAncestor p k))) fs q]
  by_cases hq : q = p ∨ IsStrictAncestor p q <;> simp [hq]

theorem mkdirAll_cons_none {fs : FS} {r : String} (rest : List String)
    (hr : fsLookup fs r = none) :
    mkdirAll fs (r :: rest) = mkdirAll (fsInsert fs r ⟨true, 0, 493, 0, ""⟩) rest := by
  simp [mkdirAll, hr]

theorem mkdirAll_cons_dir {fs : FS} {r : String} {n : Node} (rest : List String)
    (hr : fsLookup fs r = some n) (hd : n.isDir = true) :
    mkdirAll fs (r :: rest) = mkdirAll fs rest := by
  simp [mkdirAll, hr, hd]

theorem mkdirAll_cons_file {fs : FS} {r : String} {n : Node} (rest : List String)
    (hr : fsLookup fs r = some n) (hd : n.isDir = false) :
    mkdirAll fs (r :: rest) = (fs, false) := by
  simp [mkdirAll, hr, hd]

theorem mkdirAll_preserves_some {fs : FS} {q : String} {v : Node}
    (hv : fsLookup fs q = some v) (l : List String) :
    fsLookup (mkdirAll fs l).1 q = some v := by
  induction l generalizing fs with
  | nil => simpa [mkdirAll]
  | cons r rest ih =>
    rcases hr : fsLookup fs r with _ | n
    · rw [mkdirAll_cons_none rest hr]
      apply ih
      rw [fsLookup_fsInsert,
        if_neg (fun hqr => by rw [hqr, hr] at hv; cases hv)]
      exact hv
    · rcases hd : n.isDir with _ | _
      · rw [mkdirAll_cons_file rest hr hd]
        exact hv
      · rw [mkdirAll_cons_dir rest hr hd]
        exact ih hv

theorem mkdirAll_lookup_not_mem {fs : FS} {q : String} (l : List String)
    (hq : q ∉ l) : fsLookup (mkdirAll fs l).1 q = fsLookup fs q := by
  induction l generalizing fs with
  | nil => simp [mkdirAll]
  | cons r rest ih =>
    have hqr : q ≠ r := fun h => hq (h ▸ List.mem_cons_self _ _)
    have hqrest : q ∉ rest := fun h => hq (List.mem_cons_of_mem r h)
    rcases hr : fsLookup fs r with _ | n
    · rw [mkdirAll_cons_none rest hr, ih hqrest, fsLookup_fsInsert, if_neg hqr]
    · rcases hd : n.isDir with _ | _
      · rw [mkdirAll_cons_file rest hr hd]
      · rw [mkdirAll_cons_dir rest hr hd]
        exact ih hqrest

theorem mkdirAll_lookup_inv {fs : FS} {q : String} {n : Node} (l : List String)
    (h : fsLookup (mkdirAll fs l).1 q = some n) :
    fsLookup fs q = some n ∨ (q ∈ l ∧ n = ⟨true, 0, 493, 0, ""⟩) := by
  induction l generalizing fs with
  | nil => simp [mkdirAll] at h; exact Or.inl h
  | cons r rest ih =>
    rcases hr : fsLookup fs r with _ | m
    · rw [mkdirAll_cons_none rest hr] at h
      rcases ih h with hin | ⟨hmem, hn⟩
      · rw [fsLookup_fsInsert] at hin
        by_cases hqr : q = r
        · rw [if_pos hqr] at hin
          injection hin with hin
          exact Or.inr ⟨hqr ▸ List.mem_cons_self _ _, hin.symm⟩
        · rw [if_neg hqr] at hin
          exact Or.inl hin
      · exact Or.inr ⟨List.mem_cons_of_mem r hmem, hn⟩
    · rcases hd : m.isDir with _ | _
      · rw [mkdirAll_cons_file rest hr hd] at h
        exact Or.inl h
      · rw [mkdirAll_cons_dir rest hr hd] at h
        rcases ih h with hin | ⟨hmem, hn⟩
        · exact Or.inl hin
        · exact Or.inr ⟨List.mem_cons_of_mem r hmem, hn⟩

theorem mkdirAll_keys_nodup {fs : FS} (hnod : (fs.map Prod.fst).Nodup)
    (l : List String) : (((mkdirAll fs l).1).map Prod.fst).Nodup := by
  induction l generalizing fs with
  | nil => simpa [mkdirAll]
  | cons r rest ih =>
    rcases hr : fsLookup fs r with _ | n
    · rw [mkdirAll_cons_none rest hr]
      exact ih (fsInsert_keys_nodup hnod r _)
    · rcases hd : n.isDir with _ | _
      · rw [mkdirAll_cons_file rest hr hd]
        exact hnod
      · rw [mkdirAll_cons_dir rest hr hd]
        exact ih hnod

theorem mkdirAll_success_dirs {fs : FS} {l : List String}
    (h : (mkdirAll fs l).2 = true) :
    ∀ q ∈ l, ∃ n, fsLookup (mkdirAll fs l).1 q = some n ∧ n.isDir = true := by
  induction l generalizing fs with
  | nil => intro q hq; cases hq
  | cons r rest ih =>
    intro q hq
    rcases hr : fsLookup fs r with _ | n
    · rw [mkdirAll_cons_none rest hr] at h ⊢
      rcases List.mem_cons.mp hq with rfl | hmem
      · refine ⟨⟨true, 0, 493, 0, ""⟩, ?_, rfl⟩
        apply mkdirAll_preserves_some
        rw [fsLookup_fsInsert, if_pos rfl]
      · exact ih h q hmem
    · rcases hd : n.isDir with _ | _
      · rw [mkdirAll_cons_file rest hr hd] at h
        cases h
      · rw [mkdirAll_cons_dir rest hr hd] at h ⊢
        rcases List.mem_cons.mp hq with rfl | hmem
        · exact ⟨n, mkdirAll_preserves_some hr rest, hd⟩
        · exact ih h q hmem


/-! ## Scan and checksum lemmas -/

theorem lookup_eq_none_of_not_mem_keys {β : Type} {l : List (String × β)} {p : String}
    (h : p ∉ l.map Prod.fst) : l.lookup p = none := by
  induction l with
  | nil => rfl
  | cons e rest ih =>
    obtain ⟨k, v⟩ := e
    rw [List.map_cons, List.mem_cons] at h
    push_neg at h
    rw [List.lookup_cons, beq_false_of_ne h.1]
    exact ih h.2

theorem mem_scanDirectory {root : String} {matcher : Option (String → Bool)}
    {fs : FS} {p : String} {fi : FileInfo} :
    (p, fi) ∈ scanDirectory root matcher fs ↔
      ∃ n, (p, n) ∈ fs ∧ scanIncluded matcher p = true ∧ fi = toFileInfo root p n := by
  unfold scanDirectory
  rw [List.mem_filterMap]
  constructor
  · rintro ⟨e, hmem, he⟩
    by_cases hinc : scanIncluded matcher e.1 = true
    · rw [if_pos hinc] at he
      injection he with he
      obtain ⟨k, n⟩ := e
      injection he with h1 h2
      simp only at h1 h2 hinc hmem
      subst h1
      exact ⟨n, hmem, hinc, h2.symm⟩
    · rw [if_neg hinc] at he
      cases he
  · rintro ⟨n, hmem, hinc, rfl⟩
    exact ⟨(p, n), hmem, by rw [if_pos hinc]⟩

theorem scanDirectory_keys_sublist (root : String) (matcher : Option (String → Bool))
    (fs : FS) :
    ((scanDirectory root matcher fs).map Prod.fst).Sublist (fs.map Prod.fst) := by
  induction fs with
  | nil => simp [scanDirectory]
  | cons e rest ih =>
    unfold scanDirectory at ih ⊢
    rw [List.filterMap_cons]
    by_cases hinc : scanIncluded matcher e.1 = true
    · rw [if_pos hinc]
      simp only [List.map_cons]
      exact ih.cons₂ e.1
    · rw [if_neg hinc]
      simp only [List.map_cons]
      exact ih.cons e.1

theorem scanDirectory_keys_nodup {fs : FS} (hnod : (fs.map Prod.fst).Nodup)
    (root : String) (matcher : Option (String → Bool)) :
    ((scanDirectory root matcher fs).map Prod.fst).Nodup :=
  List.Nodup.sublist (scanDirectory_keys_sublist root matcher fs) hnod

theorem scanDirectory_lookup {fs : FS} (hnod : (fs.map Prod.fst).Nodup)
    (root : String) (matcher : Option (String → Bool)) (p : String) :
    (scanDirectory root matcher fs).lookup p =
      match fsLookup fs p with
      | some n => if scanIncluded matcher p then some (toFileInfo root p n) else none
      | none => none := by
  induction fs with
  | nil => simp [scanDirectory, fsLookup]
  | cons e rest ih =>
    rw [List.map_cons, List.nodup_cons] at hnod
    obtain ⟨hknot, hrest⟩ := hnod
    unfold scanDirectory at ih ⊢
    rw [List.filterMap_cons]
    by_cases hep : e.1 = p
    · have hfl : fsLookup (e :: rest) p = some e.2 := by
        simp [fsLookup, hep]
      rw [hfl]
      have hnotrest : p ∉ (List.filterMap (fun e =>
          if scanIncluded matcher e.1 = true then some (e.1, toFileInfo root e.1 e.2)
          else none) rest).map Prod.fst := by
        intro hmem
        apply hknot
        rw [hep]
        exact (scanDirectory_keys_sublist root matcher rest).subset hmem
      by_cases hinc : scanIncluded matcher e.1 = true
      · rw [if_pos hinc]
        subst hep
        simp [List.lookup_cons, hinc]
      · rw [if_neg hinc, lookup_eq_none_of_not_mem_keys hnotrest]
        subst hep
        simp [hinc]
    · have hfl : fsLookup (e :: rest) p = fsLookup rest p := by
        simp [fsLookup, hep]
      rw [hfl]
      by_cases hinc : scanIncluded matcher e.1 = true
      · rw [if_pos hinc, List.lookup_cons,
          show (p == e.1) = false from beq_false_of_ne (fun h => hep h.symm)]
        exact ih hrest
      · rw [if_neg hinc]
        exact ih hrest

theorem prefix_append_inj {pre a b : String} (h : pre ++ a = pre ++ b) : a = b := by
  apply String.ext
  have := congrArg String.data h
  rw [String.data_append, String.data_append] at this
  exact List.append_cancel_left this

theorem lookup_map_prefixed {β : Type} (pre : String) (l : List (String × β)) (p : String) :
    (l.map (fun e => (pre ++ e.1, e.2))).lookup (pre ++ p) = l.lookup p := by
  induction l with
  | nil => rfl
  | cons e rest ih =>
    obtain ⟨k, v⟩ := e
    rw [List.map_cons, List.lookup_cons, List.lookup_cons]
    by_cases hk : p = k
    · subst hk
      simp
    · rw [beq_false_of_ne hk,
        beq_false_of_ne (fun h => hk (prefix_append_inj h))]
      exact ih

theorem src_tgt_prefix_ne (p q : String) : "SRC/" ++ p ≠ "TGT/" ++ q := by
  intro h
  have := congrArg String.data h
  rw [String.data_append, String.data_append] at this
  have hS : ("SRC/" : String).data = ['S', 'R', 'C', '/'] := by decide
  have hT : ("TGT/" : String).data = ['T', 'G', 'T', '/'] := by decide
  rw [hS, hT] at this
  cases this

theorem fsChecksum_src (srcFS tgtFS : FS) (h : String → String) (p : String) :
    fsChecksum srcFS tgtFS h ("SRC/" ++ p) =
      (match fsLookup srcFS p with
        | none => .error .notExist
        | some n => if n.isDir then .error .ioError else .ok (h n.content)) := by
  unfold fsChecksum
  rw [List.lookup_append, lookup_map_prefixed]
  have htgt : (tgtFS.map (fun e => ("TGT/" ++ e.1, e.2))).lookup ("SRC/" ++ p) = none := by
    apply lookup_eq_none_of_not_mem_keys
    intro hmem
    rcases List.mem_map.mp hmem with ⟨x, hx, hxe⟩
    rcases List.mem_map.mp hx with ⟨e, _, rfl⟩
    exact src_tgt_prefix_ne p e.1 hxe.symm
  rw [fsLookup_eq_lookup]
  cases srcFS.lookup p with
  | none => rw [htgt]; rfl
  | some n => rfl

theorem tgt_src_prefix_ne (p q : String) : "TGT/" ++ p ≠ "SRC/" ++ q := by
  intro h
  exact src_tgt_prefix_ne q p h.symm

theorem fsChecksum_tgt (srcFS tgtFS : FS) (h : String → String) (p : String) :
    fsChecksum srcFS tgtFS h ("TGT/" ++ p) =
      (match fsLookup tgtFS p with
        | none => .error .notExist
        | some n => if n.isDir then .error .ioError else .ok (h n.content)) := by
  unfold fsChecksum
  rw [List.lookup_append]
  have hsrcl : (srcFS.map (fun e => ("SRC/" ++ e.1, e.2))).lookup ("TGT/" ++ p) = none := by
    apply lookup_eq_none_of_not_mem_keys
    intro hmem
    rcases List.mem_map.mp hmem with ⟨x, hx, hxe⟩
    rcases List.mem_map.mp hx with ⟨e, _, rfl⟩
    exact tgt_src_prefix_ne p e.1 hxe.symm
  rw [hsrcl, lookup_map_prefixed, fsLookup_eq_lookup]
  cases tgtFS.lookup p with
  | none => rfl
  | some n => rfl


/-! ## Path relation lemmas -/

theorem IsStrictAncestor.components_lt {q p : String} (h : IsStrictAncestor q p) :
    (pathComponents q).length < (pathComponents p).length := by
  obtain ⟨hpre, hne⟩ := h
  rcases Nat.lt_or_ge (pathComponents q).length (pathComponents p).length with hlt | hge
  · exact hlt
  · exfalso
    apply hne
    have := List.prefix_iff_eq_take.mp hpre
    rw [this, List.take_of_length_le hge]

theorem IsStrictAncestor.trans {q r p : String}
    (h1 : IsStrictAncestor q r) (h2 : IsStrictAncestor r p) : IsStrictAncestor q p := by
  refine ⟨h1.1.trans h2.1, ?_⟩
  intro heq
  have hlt1 := h1.components_lt
  have hlt2 := h2.components_lt
  rw [heq] at hlt1
  omega

theorem not_mem_properAncestors_self {p : String} (hp : ValidPath p) :
    p ∉ properAncestors p := by
  intro h
  obtain ⟨_, _, hne⟩ := (mem_properAncestors_iff hp).mp h
  exact hne rfl

theorem properAncestors_trans {p r q : String} (hp : ValidPath p)
    (hr : r ∈ properAncestors p) (hq : q ∈ properAncestors r) :
    q ∈ properAncestors p := by
  obtain ⟨hvr, har⟩ := (mem_properAncestors_iff hp).mp hr
  obtain ⟨hvq, haq⟩ := (mem_properAncestors_iff hvr).mp hq
  exact (mem_properAncestors_iff hp).mpr ⟨hvq, haq.trans har⟩

theorem mem_properAncestors_of_strict {p q : String} (hp : ValidPath p)
    (hq : ValidPath q) (h : IsStrictAncestor q p) : q ∈ properAncestors p :=
  (mem_properAncestors_iff hp).mpr ⟨hq, h⟩

/-! ## Well-formedness helpers -/

theorem WfFS.keys_nodup {fs : FS} (h : WfFS fs) : (fs.map Prod.fst).Nodup := h.1

theorem WfFS.valid_of_lookup {fs : FS} (h : WfFS fs) {p : String} {n : Node}
    (hl : fsLookup fs p = some n) : ValidPath p := by
  rw [fsLookup_eq_lookup] at hl
  exact (h.2 (p, n) (mem_of_lookup hl)).1

theorem WfFS.ancestors_dirs {fs : FS} (h : WfFS fs) {p : String} {n : Node}
    (hl : fsLookup fs p = some n) :
    ∀ r ∈ properAncestors p, ∃ m, fsLookup fs r = some m ∧ m.isDir = true := by
  rw [fsLookup_eq_lookup] at hl
  exact (h.2 (p, n) (mem_of_lookup hl)).2


/-! ## `copyFile` lemmas -/

theorem copyFile_frame (srcRead : String → Option Node) (fs : FS)
    (srcAbs relPath : String) (perm modTime : Nat) {q : String}
    (hq : q ≠ relPath) :
    fsLookup (copyFile srcRead fs srcAbs relPath perm modTime).1 q = fsLookup fs q := by
  unfold copyFile
  split
  · rfl
  · split
    · split
      · split
        · rfl
        · split <;> (rw [fsLookup_fsInsert, if_neg hq])
      · split <;> (rw [fsLookup_fsInsert, if_neg hq])
    · rfl

theorem copyFile_success {srcRead : String → Option Node} {fs fs2 : FS}
    {srcAbs relPath : String} {perm modTime : Nat}
    (h : copyFile srcRead fs srcAbs relPath perm modTime = (fs2, none)) :
    ∃ sn md, srcRead srcAbs = some sn ∧ sn.isDir = false ∧
      fs2 = fsInsert fs relPath ⟨false, sn.size, md, modTime, sn.content⟩ := by
  unfold copyFile at h
  split at h
  · simp at h
  · rename_i sn hsn
    split at h
    · split at h
      · rename_i dn hdst
        split at h
        · simp at h
        · split at h
          · simp at h
          · rename_i hsdir
            injection h with h1 h2
            exact ⟨sn, dn.mode, hsn, by simpa using hsdir, h1.symm⟩
      · split at h
        · simp at h
        · rename_i hsdir
          injection h with h1 h2
          exact ⟨sn, perm, hsn, by simpa using hsdir, h1.symm⟩
    · simp at h

theorem copyFile_keys_nodup {srcRead : String → Option Node} {fs : FS}
    (hnod : (fs.map Prod.fst).Nodup) (srcAbs relPath : String) (perm modTime : Nat) :
    (((copyFile srcRead fs srcAbs relPath perm modTime).1).map Prod.fst).Nodup := by
  unfold copyFile
  split
  · exact hnod
  · split
    · split
      · split
        · exact hnod
        · split <;> exact fsInsert_keys_nodup hnod _ _
      · split <;> exact fsInsert_keys_nodup hnod _ _
    · exact hnod

/-! ## `applyAction` lemmas -/

theorem applyAction_frame_some {srcRead : String → Option Node} {fs : FS}
    {act : SyncAction} {q : String} {v : Node}
    (htyp : act.Typ = .Add ∨ act.Typ = .Update)
    (hq : q ≠ act.RelPath) (hv : fsLookup fs q = some v) :
    fsLookup (applyAction srcRead fs act).1 q = some v := by
  unfold applyAction
  rcases htyp with htyp | htyp <;> rw [htyp] <;> dsimp only
  · split
    · rename_i fs1 hmk
      have : fsLookup fs1 q = some v := by
        have h2 := mkdirAll_preserves_some hv (properAncestors act.RelPath)
        rw [hmk] at h2
        exact h2
      exact this
    · rename_i fs1 hmk
      have hfs1 : fsLookup fs1 q = some v := by
        have h2 := mkdirAll_preserves_some hv (properAncestors act.RelPath)
        rw [hmk] at h2
        exact h2
      split
      · exact hfs1
      · split
        · split
          · exact hfs1
          · rw [fsLookup_fsInsert, if_neg hq]
            exact hfs1
        · rw [copyFile_frame srcRead fs1 _ act.RelPath _ _ hq]
          exact hfs1
  · split
    · exact hv
    · split
      · exact hv
      · rw [copyFile_frame srcRead fs _ act.RelPath _ _ hq]
        exact hv

theorem applyAction_frame_none {srcRead : String → Option Node} {fs : FS}
    {act : SyncAction} {q : String}
    (htyp : act.Typ = .Add ∨ act.Typ = .Update)
    (hq : q ≠ act.RelPath) (hanc : q ∉ properAncestors act.RelPath)
    (hv : fsLookup fs q = none) :
    fsLookup (applyAction srcRead fs act).1 q = none := by
  unfold applyAction
  rcases htyp with htyp | htyp <;> rw [htyp] <;> dsimp only
  · split
    · rename_i fs1 hmk
      have h2 : fsLookup (mkdirAll fs (properAncestors act.RelPath)).1 q = fsLookup fs q :=
        mkdirAll_lookup_not_mem (properAncestors act.RelPath) hanc
      simp only [hmk] at h2
      show fsLookup fs1 q = none
      rw [h2]
      exact hv
    · rename_i fs1 hmk
      have h2 : fsLookup (mkdirAll fs (properAncestors act.RelPath)).1 q = fsLookup fs q :=
        mkdirAll_lookup_not_mem (properAncestors act.RelPath) hanc
      simp only [hmk] at h2
      have hfs1 : fsLookup fs1 q = none := by rw [h2]; exact hv
      split
      · exact hfs1
      · split
        · split
          · exact hfs1
          · rw [fsLookup_fsInsert, if_neg hq]
            exact hfs1
        · rw [copyFile_frame srcRead fs1 _ act.RelPath _ _ hq]
          exact hfs1
  · split
    · exact hv
    · split
      · exact hv
      · rw [copyFile_frame srcRead fs _ act.RelPath _ _ hq]
        exact hv

theorem applyAction_frame_none_or_dir {srcRead : String → Option Node} {fs : FS}
    {act : SyncAction} {q : String}
    (htyp : act.Typ = .Add ∨ act.Typ = .Update)
    (hq : q ≠ act.RelPath) (hv : fsLookup fs q = none) :
    fsLookup (applyAction srcRead fs act).1 q = none ∨
      fsLookup (applyAction srcRead fs act).1 q = some ⟨true, 0, 493, 0, ""⟩ := by
  by_cases hanc : q ∈ properAncestors act.RelPath
  · unfold applyAction
    rcases htyp with htyp | htyp <;> rw [htyp] <;> dsimp only
    · have hfs1 : ∀ fs1 : FS, mkdirAll fs (properAncestors act.RelPath) = (fs1, true) ∨
          mkdirAll fs (properAncestors act.RelPath) = (fs1, false) →
          fsLookup fs1 q = none ∨ fsLookup fs1 q = some ⟨true, 0, 493, 0, ""⟩ := by
        intro fs1 hmk
        cases hl : fsLookup fs1 q with
        | none => exact Or.inl rfl
        | some n =>
          have h2 : fsLookup fs q = some n ∨
              (q ∈ properAncestors act.RelPath ∧ n = ⟨true, 0, 493, 0, ""⟩) := by
            rcases hmk with hmk | hmk
            · exact mkdirAll_lookup_inv (properAncestors act.RelPath)
                (by rw [hmk]; exact hl)
            · exact mkdirAll_lookup_inv (properAncestors act.RelPath)
                (by rw [hmk]; exact hl)
          rcases h2 with hin | ⟨_, hn⟩
          · rw [hin] at hv; cases hv
          · exact Or.inr (by rw [hn])
      split
      · rename_i fs1 hmk
        exact hfs1 fs1 (Or.inr hmk)
      · rename_i fs1 hmk
        have hc := hfs1 fs1 (Or.inl hmk)
        split
        · exact hc
        · split
          · split
            · exact hc
            · rcases hc with hc | hc
              · rw [fsLookup_fsInsert, if_neg hq]
                exact Or.inl hc
              · rw [fsLookup_fsInsert, if_neg hq]
                exact Or.inr hc
          · rcases hc with hc | hc
            · rw [copyFile_frame srcRead fs1 _ act.RelPath _ _ hq]
              exact Or.inl hc
            · rw [copyFile_frame srcRead fs1 _ act.RelPath _ _ hq]
              exact Or.inr hc
    · split
      · exact Or.inl hv
      · split
        · exact Or.inl hv
        · rw [copyFile_frame srcRead fs _ act.RelPath _ _ hq]
          exact Or.inl hv
  · exact Or.inl (applyAction_frame_none htyp hq hanc hv)


theorem applyAction_add_dir_success {srcRead : String → Option Node} {fs fs2 : FS}
    {act : SyncAction} {si : FileInfo}
    (htyp : act.Typ = .Add) (hsi : act.SourceInfo = some si) (hdir : si.IsDir = true)
    (hvp : ValidPath act.RelPath)
    (hpre : ∀ n, fsLookup fs act.RelPath = some n → n.isDir = true)
    (h : applyAction srcRead fs act = (fs2, none)) :
    ∃ n, fsLookup fs2 act.RelPath = some n ∧ n.isDir = true := by
  unfold applyAction at h
  rw [htyp] at h
  dsimp only at h
  split at h
  · simp at h
  · rename_i fs1 hmk
    rw [hsi] at h
    dsimp only at h
    rw [if_pos hdir] at h
    have hsame : fsLookup fs1 act.RelPath = fsLookup fs act.RelPath := by
      have h2 : fsLookup (mkdirAll fs (properAncestors act.RelPath)).1 act.RelPath =
          fsLookup fs act.RelPath :=
        mkdirAll_lookup_not_mem (properAncestors act.RelPath)
          (not_mem_properAncestors_self hvp)
      simp only [hmk] at h2
      exact h2
    split at h
    · rename_i n hdst
      injection h with h1 _
      subst h1
      exact ⟨n, hdst, hpre n (hsame ▸ hdst)⟩
    · rename_i hdst
      injection h with h1 _
      subst h1
      exact ⟨⟨true, 0, si.Mode, 0, ""⟩, by rw [fsLookup_fsInsert, if_pos rfl], rfl⟩

theorem applyAction_copy_success {srcRead : String → Option Node} {fs fs2 : FS}
    {act : SyncAction} {si : FileInfo}
    (htyp : act.Typ = .Add ∨ act.Typ = .Update) (hsi : act.SourceInfo = some si)
    (hdir : si.IsDir = false)
    (h : applyAction srcRead fs act = (fs2, none)) :
    ∃ sn md, srcRead si.AbsPath = some sn ∧ sn.isDir = false ∧
      fsLookup fs2 act.RelPath =
        some ⟨false, sn.size, md, si.ModTime, sn.content⟩ := by
  have hins : ∃ fs0, copyFile srcRead fs0 si.AbsPath act.RelPath si.Mode si.ModTime =
      (fs2, none) := by
    unfold applyAction at h
    rcases htyp with htyp | htyp <;> rw [htyp] at h <;> dsimp only at h
    · split at h
      · simp at h
      · rename_i fs1 hmk
        rw [hsi] at h
        dsimp only at h
        rw [if_neg (by rw [hdir]; simp)] at h
        exact ⟨fs1, h⟩
    · rw [hsi] at h
      dsimp only at h
      rw [if_neg (by rw [hdir]; simp)] at h
      exact ⟨fs, h⟩
  obtain ⟨fs0, hcp⟩ := hins
  obtain ⟨sn, md, hsn, hsd, rfl⟩ := copyFile_success hcp
  exact ⟨sn, md, hsn, hsd, by rw [fsLookup_fsInsert, if_pos rfl]⟩

theorem applyAction_keys_nodup {srcRead : String → Option Node} {fs : FS}
    (hnod : (fs.map Prod.fst).Nodup) (act : SyncAction) :
    (((applyAction srcRead fs act).1).map Prod.fst).Nodup := by
  have hmk : ∀ fs1 : FS, ∀ ok : Bool,
      mkdirAll fs (properAncestors act.RelPath) = (fs1, ok) →
      (fs1.map Prod.fst).Nodup := by
    intro fs1 ok hmk
    have := mkdirAll_keys_nodup hnod (properAncestors act.RelPath)
    simp only [hmk] at this
    exact this
  unfold applyAction
  split
  · split
    · rename_i fs1 heq
      exact hmk fs1 false heq
    · rename_i fs1 heq
      have hfs1 := hmk fs1 true heq
      split
      · exact hfs1
      · split
        · split
          · exact hfs1
          · exact fsInsert_keys_nodup hfs1 _ _
        · exact copyFile_keys_nodup hfs1 _ _ _ _
  · split
    · exact hnod
    · split
      · exact hnod
      · exact copyFile_keys_nodup hnod _ _ _ _
  · split
    · exact hnod
    · split
      · exact fsRemoveTree_keys_nodup hnod _
      · split
        · exact hnod
        · exact fsRemove_keys_nodup hnod _
  · exact hnod

theorem applyActions_cons (srcRead : String → Option Node) (fs : FS)
    (a : SyncAction) (rest : List SyncAction) :
    applyActions srcRead fs (a :: rest) =
      ((applyActions srcRead (applyAction srcRead fs a).1 rest).1,
        (applyAction srcRead fs a).2.toList ++
          (applyActions srcRead (applyAction srcRead fs a).1 rest).2) := by
  unfold applyActions
  rw [List.foldl_cons]
  rcases happ : applyAction srcRead fs a with ⟨fs2, e⟩
  simp only [happ, List.nil_append]
  exact applyActions_acc srcRead rest fs2 e.toList


/-! ## The delete phase of the apply -/

theorem applyAction_delete_absent {srcRead : String → Option Node} {fs : FS}
    {act : SyncAction} (htyp : act.Typ = .Delete)
    (h : fsLookup fs act.RelPath = none) :
    applyAction srcRead fs act = (fs, none) := by
  simp [applyAction, htyp, h]

theorem applyAction_delete_tree {srcRead : String → Option Node} {fs : FS}
    {act : SyncAction} {ti : FileInfo} {n : Node} (htyp : act.Typ = .Delete)
    (hti : act.TargetInfo = some ti) (hdir : ti.IsDir = true)
    (h : fsLookup fs act.RelPath = some n) :
    applyAction srcRead fs act = (fsRemoveTree fs act.RelPath, none) := by
  simp [applyAction, htyp, h, hti, hdir]

theorem applyAction_delete_file {srcRead : String → Option Node} {fs : FS}
    {act : SyncAction} {ti : FileInfo} {n : Node} (htyp : act.Typ = .Delete)
    (hti : act.TargetInfo = some ti) (hdir : ti.IsDir = false)
    (h : fsLookup fs act.RelPath = some n) (hn : n.isDir = false) :
    applyAction srcRead fs act = (fsRemove fs act.RelPath, none) := by
  simp [applyAction, htyp, h, hti, hdir, hn]

theorem deleteHits_sub {P Q : List SyncAction} (hsub : ∀ a ∈ P, a ∈ Q) {q : String}
    (h : deleteHits P q) : deleteHits Q q := by
  obtain ⟨a, ha, hcl⟩ := h
  exact ⟨a, hsub a ha, hcl⟩

theorem applyDeletes_go (srcRead : String → Option Node) (tgtFS : FS)
    (P dels : List SyncAction)
    (hprov : ∀ a ∈ dels, a.Typ = .Delete ∧ ∃ tn, fsLookup tgtFS a.RelPath = some tn ∧
        a.TargetInfo = some (toFileInfo "TGT" a.RelPath tn))
    (hnod : ((P ++ dels).map (fun a => a.RelPath)).Nodup)
    (S : FS)
    (hS : ∀ q, fsLookup S q = if deleteHits P q then none else fsLookup tgtFS q) :
    (∀ q, fsLookup (applyActions srcRead S dels).1 q =
        if deleteHits (P ++ dels) q then none else fsLookup tgtFS q) ∧
    (applyActions srcRead S dels).2 = [] := by
  induction dels generalizing P S with
  | nil =>
    constructor
    · intro q
      simpa [applyActions] using hS q
    · rfl
  | cons a rest ih =>
    obtain ⟨hatyp, tn, htn, hti⟩ := hprov a (List.mem_cons_self _ _)
    have hflag : (a.TargetInfo.map (fun ti => ti.IsDir)).getD false = tn.isDir := by
      rw [hti]
      rfl
    have hassoc : (P ++ [a]) ++ rest = P ++ a :: rest := by simp
    have hnod2 : (((P ++ [a]) ++ rest).map (fun a => a.RelPath)).Nodup := by
      rw [hassoc]
      exact hnod
    have hprov2 : ∀ b ∈ rest, b.Typ = .Delete ∧
        ∃ tn, fsLookup tgtFS b.RelPath = some tn ∧
          b.TargetInfo = some (toFileInfo "TGT" b.RelPath tn) :=
      fun b hb => hprov b (List.mem_cons_of_mem a hb)
    have hdistinct : ∀ b ∈ P, b.RelPath ≠ a.RelPath := by
      intro b hb heq
      have := List.nodup_append.mp (by
        rw [show (P ++ a :: rest).map (fun a => a.RelPath) =
            P.map (fun a => a.RelPath) ++ (a :: rest).map (fun a => a.RelPath) from
          List.map_append _ _ _] at hnod
        exact hnod)
      exact this.2.2 (List.mem_map.mpr ⟨b, hb, rfl⟩)
        (by
          rw [heq]
          exact List.mem_map.mpr ⟨a, List.mem_cons_self _ _, rfl⟩)
    by_cases hhit : deleteHits P a.RelPath
    · have hnone : fsLookup S a.RelPath = none := by rw [hS, if_pos hhit]
      have hstep : applyAction srcRead S a = (S, none) :=
        applyAction_delete_absent hatyp hnone
      rw [applyActions_cons, hstep]
      simp only [Option.toList_none, List.nil_append]
      have hext : ∀ q, deleteHits (P ++ [a]) q ↔ deleteHits P q := by
        intro q
        constructor
        · rintro ⟨b, hb, hcl⟩
          rcases List.mem_append.mp hb with hbP | hba
          · exact ⟨b, hbP, hcl⟩
          · rcases List.mem_singleton.mp hba with rfl
            obtain ⟨c, hcP, hccl⟩ := hhit
            rcases hccl with heq | ⟨hcf, hanc⟩
            · exact absurd heq.symm (hdistinct c hcP)
            · rcases hcl with rfl | ⟨_, hanc2⟩
              · exact ⟨c, hcP, Or.inr ⟨hcf, hanc⟩⟩
              · exact ⟨c, hcP, Or.inr ⟨hcf, hanc.trans hanc2⟩⟩
        · exact deleteHits_sub (fun b hb => List.mem_append.mpr (Or.inl hb))
      have hS2 : ∀ q, fsLookup S q =
          if deleteHits (P ++ [a]) q then none else fsLookup tgtFS q := by
        intro q
        rw [hS q]
        by_cases h1 : deleteHits P q
        · rw [if_pos h1, if_pos ((hext q).mpr h1)]
        · rw [if_neg h1, if_neg (fun h2 => h1 ((hext q).mp h2))]
      have := ih (P ++ [a]) hprov2 hnod2 S hS2
      rw [hassoc] at this
      exact this
    · have hsome : fsLookup S a.RelPath = some tn := by
        rw [hS, if_neg hhit]
        exact htn
      rcases hd : tn.isDir with _ | _
      · -- target is a file: a single remove
        have hstep : applyAction srcRead S a = (fsRemove S a.RelPath, none) :=
          applyAction_delete_file hatyp hti
          (by rw [show (toFileInfo "TGT" a.RelPath tn).IsDir = tn.isDir from rfl, hd])
          hsome hd
        rw [applyActions_cons, hstep]
        simp only [Option.toList_none, List.nil_append]
        have hS2 : ∀ q, fsLookup (fsRemove S a.RelPath) q =
            if deleteHits (P ++ [a]) q then none else fsLookup tgtFS q := by
          intro q
          rw [fsLookup_fsRemove]
          by_cases hq : q = a.RelPath
          · rw [if_pos hq, if_pos ⟨a, List.mem_append.mpr (Or.inr (List.mem_singleton.mpr rfl)),
              Or.inl hq⟩]
          · rw [if_neg hq, hS q]
            have hext : deleteHits (P ++ [a]) q ↔ deleteHits P q := by
              constructor
              · rintro ⟨b, hb, hcl⟩
                rcases List.mem_append.mp hb with hbP | hba
                · exact ⟨b, hbP, hcl⟩
                · rcases List.mem_singleton.mp hba with rfl
                  rcases hcl with heq | ⟨hbf, _⟩
                  · exact absurd heq hq
                  · rw [hflag, hd] at hbf
                    cases hbf
              · exact deleteHits_sub (fun b hb => List.mem_append.mpr (Or.inl hb))
            by_cases h1 : deleteHits P q
            · rw [if_pos h1, if_pos (hext.mpr h1)]
            · rw [if_neg h1, if_neg (fun h2 => h1 (hext.mp h2))]
        have := ih (P ++ [a]) hprov2 hnod2 (fsRemove S a.RelPath) hS2
        rw [hassoc] at this
        exact this
      · -- target is a directory: remove the whole subtree
        have hstep : applyAction srcRead S a = (fsRemoveTree S a.RelPath, none) :=
          applyAction_delete_tree hatyp hti
          (by rw [show (toFileInfo "TGT" a.RelPath tn).IsDir = tn.isDir from rfl, hd])
          hsome
        rw [applyActions_cons, hstep]
        simp only [Option.toList_none, List.nil_append]
        have hS2 : ∀ q, fsLookup (fsRemoveTree S a.RelPath) q =
            if deleteHits (P ++ [a]) q then none else fsLookup tgtFS q := by
          intro q
          rw [fsLookup_fsRemoveTree]
          by_cases hq : q = a.RelPath ∨ IsStrictAncestor a.RelPath q
          · rw [if_pos hq]
            rcases hq with hq | hq
            · rw [if_pos ⟨a, List.mem_append.mpr (Or.inr (List.mem_singleton.mpr rfl)),
                Or.inl hq⟩]
            · rw [if_pos ⟨a, List.mem_append.mpr (Or.inr (List.mem_singleton.mpr rfl)),
                Or.inr ⟨by rw [hflag, hd], hq⟩⟩]
          · rw [if_neg hq, hS q]
            push_neg at hq
            have hext : deleteHits (P ++ [a]) q ↔ deleteHits P q := by
              constructor
              · rintro ⟨b, hb, hcl⟩
                rcases List.mem_append.mp hb with hbP | hba
                · exact ⟨b, hbP, hcl⟩
                · rcases List.mem_singleton.mp hba with rfl
                  rcases hcl with heq | ⟨_, hanc⟩
                  · exact absurd heq hq.1
                  · exact absurd hanc hq.2
              · exact deleteHits_sub (fun b hb => List.mem_append.mpr (Or.inl hb))
            by_cases h1 : deleteHits P q
            · rw [if_pos h1, if_pos (hext.mpr h1)]
            · rw [if_neg h1, if_neg (fun h2 => h1 (hext.mp h2))]
        have := ih (P ++ [a]) hprov2 hnod2 (fsRemoveTree S a.RelPath) hS2
        rw [hassoc] at this
        exact this

theorem applyDeletes_char (srcRead : String → Option Node) (tgtFS : FS)
    (dels : List SyncAction)
    (hprov : ∀ a ∈ dels, a.Typ = .Delete ∧ ∃ tn, fsLookup tgtFS a.RelPath = some tn ∧
        a.TargetInfo = some (toFileInfo "TGT" a.RelPath tn))
    (hnod : (dels.map (fun a => a.RelPath)).Nodup) :
    (∀ q, fsLookup (applyActions srcRead tgtFS dels).1 q =
        if deleteHits dels q then none else fsLookup tgtFS q) ∧
    (applyActions srcRead tgtFS dels).2 = [] := by
  have := applyDeletes_go srcRead tgtFS [] dels hprov (by simpa) tgtFS
    (by
      intro q
      rw [if_neg (by rintro ⟨a, ha, _⟩; cases ha)])
  simpa using this


/-! ## The add/update phase of the apply -/

theorem applyNonDels_preserve_some {srcRead : String → Option Node}
    {acts : List SyncAction} {fs : FS} {q : String} {v : Node}
    (htyp : ∀ b ∈ acts, b.Typ = .Add ∨ b.Typ = .Update)
    (hkeys : ∀ b ∈ acts, b.RelPath ≠ q)
    (hv : fsLookup fs q = some v) :
    fsLookup (applyActions srcRead fs acts).1 q = some v := by
  induction acts generalizing fs with
  | nil => simpa [applyActions]
  | cons b rest ih =>
    rw [applyActions_cons]
    exact ih (fun c hc => htyp c (List.mem_cons_of_mem b hc))
      (fun c hc => hkeys c (List.mem_cons_of_mem b hc))
      (applyAction_frame_some (htyp b (List.mem_cons_self _ _))
        (fun h => hkeys b (List.mem_cons_self _ _) h.symm) hv)

theorem applyNonDels_preserve_none {srcRead : String → Option Node}
    {acts : List SyncAction} {fs : FS} {q : String}
    (htyp : ∀ b ∈ acts, b.Typ = .Add ∨ b.Typ = .Update)
    (hkeys : ∀ b ∈ acts, b.RelPath ≠ q)
    (hanc : ∀ b ∈ acts, q ∉ properAncestors b.RelPath)
    (hv : fsLookup fs q = none) :
    fsLookup (applyActions srcRead fs acts).1 q = none := by
  induction acts generalizing fs with
  | nil => simpa [applyActions]
  | cons b rest ih =>
    rw [applyActions_cons]
    exact ih (fun c hc => htyp c (List.mem_cons_of_mem b hc))
      (fun c hc => hkeys c (List.mem_cons_of_mem b hc))
      (fun c hc => hanc c (List.mem_cons_of_mem b hc))
      (applyAction_frame_none (htyp b (List.mem_cons_self _ _))
        (fun h => hkeys b (List.mem_cons_self _ _) h.symm)
        (hanc b (List.mem_cons_self _ _)) hv)

theorem applyNonDels_none_or_dir {srcRead : String → Option Node}
    {acts : List SyncAction} {fs : FS} {q : String}
    (htyp : ∀ b ∈ acts, b.Typ = .Add ∨ b.Typ = .Update)
    (hkeys : ∀ b ∈ acts, b.RelPath ≠ q)
    (hv : fsLookup fs q = none) :
    fsLookup (applyActions srcRead fs acts).1 q = none ∨
      fsLookup (applyActions srcRead fs acts).1 q = some ⟨true, 0, 493, 0, ""⟩ := by
  induction acts generalizing fs with
  | nil =>
    left
    simpa [applyActions]
  | cons b rest ih =>
    rw [applyActions_cons]
    rcases applyAction_frame_none_or_dir (htyp b (List.mem_cons_self _ _))
        (fun h => hkeys b (List.mem_cons_self _ _) h.symm) hv with hc | hc
    · exact ih (fun c hc2 => htyp c (List.mem_cons_of_mem b hc2))
        (fun c hc2 => hkeys c (List.mem_cons_of_mem b hc2)) hc
    · right
      exact applyNonDels_preserve_some
        (fun c hc2 => htyp c (List.mem_cons_of_mem b hc2))
        (fun c hc2 => hkeys c (List.mem_cons_of_mem b hc2)) hc

theorem applyActions_errors_split {srcRead : String → Option Node}
    {pre post : List SyncAction} {a : SyncAction} {fs : FS}
    (herr : (applyActions srcRead fs (pre ++ a :: post)).2 = []) :
    (applyActions srcRead fs pre).2 = [] ∧
    (applyAction srcRead (applyActions srcRead fs pre).1 a).2 = none ∧
    (applyActions srcRead
      (applyAction srcRead (applyActions srcRead fs pre).1 a).1 post).2 = [] := by
  rw [applyActions_append] at herr
  rw [applyActions_cons] at herr
  rcases List.append_eq_nil.mp herr with ⟨h1, h2⟩
  rcases List.append_eq_nil.mp h2 with ⟨h3, h4⟩
  refine ⟨h1, ?_, h4⟩
  cases he : (applyAction srcRead (applyActions srcRead fs pre).1 a).2 with
  | none => rfl
  | some e =>
    rw [he] at h3
    cases h3

theorem applyNonDels_final_dir {srcRead : String → Option Node}
    {pre post : List SyncAction} {a : SyncAction} {si : FileInfo} {fs : FS}
    (htyp : ∀ b ∈ pre ++ a :: post, b.Typ = .Add ∨ b.Typ = .Update)
    (hkeys : ∀ b ∈ pre ++ post, b.RelPath ≠ a.RelPath)
    (hatyp : a.Typ = .Add) (hsi : a.SourceInfo = some si) (hdira : si.IsDir = true)
    (hvp : ValidPath a.RelPath)
    (hinit : fsLookup fs a.RelPath = none)
    (herr : (applyActions srcRead fs (pre ++ a :: post)).2 = []) :
    ∃ n, fsLookup (applyActions srcRead fs (pre ++ a :: post)).1 a.RelPath = some n ∧
      n.isDir = true := by
  obtain ⟨-, herra, -⟩ := applyActions_errors_split herr
  have htyppre : ∀ b ∈ pre, b.Typ = .Add ∨ b.Typ = .Update :=
    fun b hb => htyp b (List.mem_append.mpr (Or.inl hb))
  have hkeyspre : ∀ b ∈ pre, b.RelPath ≠ a.RelPath :=
    fun b hb => hkeys b (List.mem_append.mpr (Or.inl hb))
  have hfs1 : fsLookup (applyActions srcRead fs pre).1 a.RelPath = none ∨
      fsLookup (applyActions srcRead fs pre).1 a.RelPath = some ⟨true, 0, 493, 0, ""⟩ :=
    applyNonDels_none_or_dir htyppre hkeyspre hinit
  have hpre1 : ∀ n, fsLookup (applyActions srcRead fs pre).1 a.RelPath = some n →
      n.isDir = true := by
    intro n hn
    rcases hfs1 with hc | hc
    · rw [hc] at hn; cases hn
    · rw [hc] at hn
      injection hn with hn
      rw [← hn]
  rcases happ : applyAction srcRead (applyActions srcRead fs pre).1 a with ⟨fs2, e⟩
  have he : e = none := by
    rw [happ] at herra
    exact herra
  subst he
  obtain ⟨n, hn, hdirn⟩ := applyAction_add_dir_success hatyp hsi hdira hvp hpre1 happ
  refine ⟨n, ?_, hdirn⟩
  rw [applyActions_append, applyActions_cons, happ]
  exact applyNonDels_preserve_some
    (fun b hb => htyp b (List.mem_append.mpr (Or.inr (List.mem_cons_of_mem a hb))))
    (fun b hb => fun h => hkeys b (List.mem_append.mpr (Or.inr hb)) h)
    hn

theorem applyNonDels_final_copy {srcRead : String → Option Node}
    {pre post : List SyncAction} {a : SyncAction} {si : FileInfo} {fs : FS}
    (htyp : ∀ b ∈ pre ++ a :: post, b.Typ = .Add ∨ b.Typ = .Update)
    (hkeys : ∀ b ∈ pre ++ post, b.RelPath ≠ a.RelPath)
    (hsi : a.SourceInfo = some si) (hdira : si.IsDir = false)
    (herr : (applyActions srcRead fs (pre ++ a :: post)).2 = []) :
    ∃ sn md, srcRead si.AbsPath = some sn ∧ sn.isDir = false ∧
      fsLookup (applyActions srcRead fs (pre ++ a :: post)).1 a.RelPath =
        some ⟨false, sn.size, md, si.ModTime, sn.content⟩ := by
  obtain ⟨-, herra, -⟩ := applyActions_errors_split herr
  rcases happ : applyAction srcRead (applyActions srcRead fs pre).1 a with ⟨fs2, e⟩
  have he : e = none := by
    rw [happ] at herra
    exact herra
  subst he
  obtain ⟨sn, md, hsn, hsd, hval⟩ := applyAction_copy_success
    (htyp a (List.mem_append.mpr (Or.inr (List.mem_cons_self _ _)))) hsi hdira happ
  refine ⟨sn, md, hsn, hsd, ?_⟩
  rw [applyActions_append, applyActions_cons, happ]
  exact applyNonDels_preserve_some
    (fun b hb => htyp b (List.mem_append.mpr (Or.inr (List.mem_cons_of_mem a hb))))
    (fun b hb => fun h => hkeys b (List.mem_append.mpr (Or.inr hb)) h)
    hval

theorem applyNonDels_lookup_inv {srcRead : String → Option Node}
    {acts : List SyncAction} {fs : FS} {q : String} {n : Node}
    (htyp : ∀ b ∈ acts, b.Typ = .Add ∨ b.Typ = .Update)
    (h : fsLookup (applyActions srcRead fs acts).1 q = some n)
    (hq : fsLookup fs q = none) :
    (∃ b ∈ acts, b.RelPath = q) ∨ (∃ b ∈ acts, q ∈ properAncestors b.RelPath) := by
  by_cases hkeys : ∀ b ∈ acts, b.RelPath ≠ q
  · by_cases hanc : ∀ b ∈ acts, q ∉ properAncestors b.RelPath
    · rw [applyNonDels_preserve_none htyp hkeys hanc hq] at h
      cases h
    · push_neg at hanc
      obtain ⟨b, hb, hbanc⟩ := hanc
      exact Or.inr ⟨b, hb, hbanc⟩
  · push_neg at hkeys
    obtain ⟨b, hb, hbq⟩ := hkeys
    exact Or.inl ⟨b, hb, hbq⟩


/-! ## Assembly helpers -/

theorem applyActions_keys_nodup {srcRead : String → Option Node} {fs : FS}
    (hnod : (fs.map Prod.fst).Nodup) (acts : List SyncAction) :
    (((applyActions srcRead fs acts).1).map Prod.fst).Nodup := by
  induction acts generalizing fs with
  | nil => simpa [applyActions]
  | cons a rest ih =>
    rw [applyActions_cons]
    exact ih (applyAction_keys_nodup hnod a)

theorem split_deletes (l : List SyncAction)
    (hpw : l.Pairwise (fun x y => y.Typ = .Delete → x.Typ = .Delete)) :
    ∃ d r, l = d ++ r ∧ (∀ a ∈ d, a.Typ = .Delete) ∧ (∀ a ∈ r, a.Typ ≠ .Delete) := by
  induction l with
  | nil => exact ⟨[], [], rfl, fun a ha => absurd ha (List.not_mem_nil a), fun a ha => absurd ha (List.not_mem_nil a)⟩
  | cons a t ih =>
    rw [List.pairwise_cons] at hpw
    obtain ⟨hat, htpw⟩ := hpw
    obtain ⟨d, r, rfl, hd, hr⟩ := ih htpw
    by_cases hdel : a.Typ = .Delete
    · refine ⟨a :: d, r, rfl, ?_, hr⟩
      intro b hb
      rcases List.mem_cons.mp hb with rfl | hb
      · exact hdel
      · exact hd b hb
    · refine ⟨[], a :: d ++ r, rfl, fun b hb => absurd hb (List.not_mem_nil b), ?_⟩
      intro b hb
      rcases List.mem_cons.mp hb with rfl | hb
      · exact hdel
      · intro hbd
        exact hdel (hat b hb hbd)

theorem plan_deletes_prefix_pairwise (src tgt : List (String × FileInfo))
    (cf : ChecksumFn) :
    ((createSyncPlan src tgt cf).1.Actions).Pairwise
      (fun x y => y.Typ = .Delete → x.Typ = .Delete) := by
  have hpw := plan_actions_pairwise src tgt cf
  have hne : ∀ a ∈ (createSyncPlan src tgt cf).1.Actions, a.Typ ≠ .NoneType :=
    fun a ha => unsortedActions_typ_ne_none a (mem_plan_actions.mp ha)
  refine List.Pairwise.imp_of_mem ?_ hpw
  intro x y hx hy hle
  exact fun hyd => (actionLess_false_elim hle).1 hyd (hne x hx)

theorem scanIncluded_none_iff (p : String) :
    scanIncluded none p = true ↔ pathBase p ≠ ".sync-ignore" := by
  unfold scanIncluded matcherHits
  simp

theorem scanIncluded_elim {matcher : Option (String → Bool)} {p : String}
    (h : scanIncluded matcher p = true) :
    pathBase p ≠ ".sync-ignore" ∧ matcherHits matcher p = false ∧
      ∀ r ∈ properAncestors p, matcherHits matcher r = false := by
  unfold scanIncluded at h
  simpa using h

theorem scanIncluded_intro {matcher : Option (String → Bool)} {p : String}
    (h1 : pathBase p ≠ ".sync-ignore") (h2 : matcherHits matcher p = false)
    (h3 : ∀ r ∈ properAncestors p, matcherHits matcher r = false) :
    scanIncluded matcher p = true := by
  unfold scanIncluded
  simpa using ⟨h1, h2, h3⟩

theorem scan_lookup_of_node {fs : FS} (hnod : (fs.map Prod.fst).Nodup)
    {root : String} {matcher : Option (String → Bool)} {p : String} {n : Node}
    (hn : fsLookup fs p = some n) (hinc : scanIncluded matcher p = true) :
    (scanDirectory root matcher fs).lookup p = some (toFileInfo root p n) := by
  rw [scanDirectory_lookup hnod root matcher p, hn]
  simp [hinc]

theorem scan_lookup_some_elim {fs : FS} (hnod : (fs.map Prod.fst).Nodup)
    {root : String} {matcher : Option (String → Bool)} {p : String} {fi : FileInfo}
    (h : (scanDirectory root matcher fs).lookup p = some fi) :
    ∃ n, fsLookup fs p = some n ∧ scanIncluded matcher p = true ∧
      fi = toFileInfo root p n := by
  rw [scanDirectory_lookup hnod root matcher p] at h
  cases hn : fsLookup fs p with
  | none => rw [hn] at h; cases h
  | some n =>
    rw [hn] at h
    by_cases hinc : scanIncluded matcher p = true
    · simp only [hinc, if_true] at h
      injection h with h
      exact ⟨n, rfl, hinc, h.symm⟩
    · simp [hinc] at h

theorem scan_lookup_none_of_fs_none {fs : FS} (hnod : (fs.map Prod.fst).Nodup)
    {root : String} {matcher : Option (String → Bool)} {p : String}
    (hn : fsLookup fs p = none) :
    (scanDirectory root matcher fs).lookup p = none := by
  rw [scanDirectory_lookup hnod root matcher p, hn]


theorem NeedsUpdate_congr {sfi tfi : FileInfo} {cf1 cf2 : ChecksumFn}
    (h1 : cf1 sfi.AbsPath = cf2 sfi.AbsPath)
    (h2 : cf1 tfi.AbsPath = cf2 tfi.AbsPath) :
    sfi.NeedsUpdate tfi cf1 = sfi.NeedsUpdate tfi cf2 := by
  unfold FileInfo.NeedsUpdate
  rw [h1, h2]

theorem needsUpdateResolved_congr {sfi tfi : FileInfo} {cf1 cf2 : ChecksumFn}
    (h1 : cf1 sfi.AbsPath = cf2 sfi.AbsPath)
    (h2 : cf1 tfi.AbsPath = cf2 tfi.AbsPath) :
    needsUpdateResolved sfi tfi cf1 = needsUpdateResolved sfi tfi cf2 := by
  unfold needsUpdateResolved
  rw [NeedsUpdate_congr h1 h2]

theorem plan_countP_key_typ (src tgt : List (String × FileInfo)) (cf : ChecksumFn)
    (hsrc : (src.map Prod.fst).Nodup) (htgt : (tgt.map Prod.fst).Nodup)
    (p : String) (f : SyncAction → Bool) :
    ((createSyncPlan src tgt cf).1.Actions).countP
        (fun a => decide (a.RelPath = p) && f a) =
      (keyActions src tgt cf p).countP f := by
  have hperm : ((createSyncPlan src tgt cf).1.Actions).Perm
      (unsortedActions src tgt cf) := by
    rw [createSyncPlan_eq]
    exact stableSort_perm _ _
  rw [hperm.countP_eq]
  rw [← unsorted_filter_key hsrc htgt p, List.countP_filter]
  apply List.countP_congr
  intro a _
  simp [Bool.and_comm]


theorem keyActions_countP_del_le (src tgt : List (String × FileInfo))
    (cf : ChecksumFn) (p : String) :
    (keyActions src tgt cf p).countP (fun a => decide (a.Typ = .Delete)) ≤ 1 := by
  unfold keyActions
  cases src.lookup p with
  | none =>
    cases tgt.lookup p with
    | none => simp
    | some t => simp
  | some sfi =>
    cases tgt.lookup p with
    | none => simp
    | some t =>
      by_cases hdir : sfi.IsDir ≠ t.IsDir
      · simp [hdir, List.countP_cons]
      · simp only [if_neg hdir]
        by_cases hd : sfi.IsDir
        · simp [hd]
        · simp only [if_neg hd]
          by_cases hnu : needsUpdateResolved sfi t cf
          · simp [hnu]
          · simp [hnu]

theorem keyActions_countP_nondel_le (src tgt : List (String × FileInfo))
    (cf : ChecksumFn) (p : String) :
    (keyActions src tgt cf p).countP (fun a => !decide (a.Typ = .Delete)) ≤ 1 := by
  unfold keyActions
  cases src.lookup p with
  | none =>
    cases tgt.lookup p with
    | none => simp
    | some t => simp
  | some sfi =>
    cases tgt.lookup p with
    | none => simp
    | some t =>
      by_cases hdir : sfi.IsDir ≠ t.IsDir
      · simp [hdir, List.countP_cons]
      · simp only [if_neg hdir]
        by_cases hd : sfi.IsDir
        · simp [hd]
        · simp only [if_neg hd]
          by_cases hnu : needsUpdateResolved sfi t cf
          · simp [hnu]
          · simp [hnu]

theorem plan_countP_del_le (src tgt : List (String × FileInfo)) (cf : ChecksumFn)
    (hsrc : (src.map Prod.fst).Nodup) (htgt : (tgt.map Prod.fst).Nodup)
    (p : String) :
    ((createSyncPlan src tgt cf).1.Actions).countP
        (fun a => decide (a.RelPath = p) && decide (a.Typ = .Delete)) ≤ 1 := by
  rw [plan_countP_key_typ src tgt cf hsrc htgt p]
  exact keyActions_countP_del_le src tgt cf p

theorem plan_countP_nondel_le (src tgt : List (String × FileInfo)) (cf : ChecksumFn)
    (hsrc : (src.map Prod.fst).Nodup) (htgt : (tgt.map Prod.fst).Nodup)
    (p : String) :
    ((createSyncPlan src tgt cf).1.Actions).countP
        (fun a => decide (a.RelPath = p) && !decide (a.Typ = .Delete)) ≤ 1 := by
  rw [plan_countP_key_typ src tgt cf hsrc htgt p]
  exact keyActions_countP_nondel_le src tgt cf p

theorem nodup_map_of_countP {α : Type} (f : α → String) (l : List α)
    (h : ∀ p, l.countP (fun a => decide (f a = p)) ≤ 1) : (l.map f).Nodup := by
  induction l with
  | nil => simp
  | cons a t ih =>
    rw [List.map_cons, List.nodup_cons]
    constructor
    · intro hmem
      rcases List.mem_map.mp hmem with ⟨b, hb, hfb⟩
      have h1 := h (f a)
      rw [List.countP_cons, if_pos (by simp : decide (f a = f a) = true)] at h1
      have h2 : 0 < t.countP (fun x => decide (f x = f a)) :=
        List.countP_pos.mpr ⟨b, hb, by simp [hfb]⟩
      omega
    · apply ih
      intro p
      have h1 := h p
      rw [List.countP_cons] at h1
      omega

theorem dels_keys_nodup {src tgt : List (String × FileInfo)} {cf : ChecksumFn}
    (hsrc : (src.map Prod.fst).Nodup) (htgt : (tgt.map Prod.fst).Nodup)
    {dels nonDels : List SyncAction}
    (hsplit : (createSyncPlan src tgt cf).1.Actions = dels ++ nonDels)
    (hdels : ∀ a ∈ dels, a.Typ = .Delete) :
    (dels.map (fun a => a.RelPath)).Nodup := by
  apply nodup_map_of_countP
  intro p
  have hsub : dels.Sublist ((createSyncPlan src tgt cf).1.Actions) := by
    rw [hsplit]
    exact List.sublist_append_left _ _
  have h1 : dels.countP (fun a => decide (a.RelPath = p)) =
      dels.countP (fun a => decide (a.RelPath = p) && decide (a.Typ = .Delete)) := by
    apply List.countP_congr
    intro a ha
    simp [hdels a ha]
  rw [h1]
  exact le_trans (hsub.countP_le _) (plan_countP_del_le src tgt cf hsrc htgt p)

theorem nondels_key_unique {src tgt : List (String × FileInfo)} {cf : ChecksumFn}
    (hsrc : (src.map Prod.fst).Nodup) (htgt : (tgt.map Prod.fst).Nodup)
    {dels nonDels pre post : List SyncAction} {a : SyncAction}
    (hsplit : (createSyncPlan src tgt cf).1.Actions = dels ++ nonDels)
    (hnondels : ∀ b ∈ nonDels, b.Typ ≠ .Delete)
    (hctx : nonDels = pre ++ a :: post) :
    ∀ b ∈ pre ++ post, b.RelPath ≠ a.RelPath := by
  intro b hb hbeq
  have hsub : nonDels.Sublist ((createSyncPlan src tgt cf).1.Actions) := by
    rw [hsplit]
    exact List.sublist_append_right _ _
  have h1 : nonDels.countP (fun x => decide (x.RelPath = a.RelPath)) ≤ 1 := by
    have hcong : nonDels.countP (fun x => decide (x.RelPath = a.RelPath)) =
        nonDels.countP (fun x =>
          decide (x.RelPath = a.RelPath) && !decide (x.Typ = .Delete)) := by
      apply List.countP_congr
      intro x hx
      simp [hnondels x hx]
    rw [hcong]
    exact le_trans (hsub.countP_le _) (plan_countP_nondel_le src tgt cf hsrc htgt _)
  rw [hctx, List.countP_append, List.countP_cons,
    if_pos (by simp : decide (a.RelPath = a.RelPath) = true)] at h1
  have h2 : 0 < (pre ++ post).countP (fun x => decide (x.RelPath = a.RelPath)) :=
    List.countP_pos.mpr ⟨b, hb, by simp [hbeq]⟩
  rw [List.countP_append] at h2
  omega

theorem mem_acts_of_mem_keyActions {src tgt : List (String × FileInfo)}
    {cf : ChecksumFn} {p : String} {a : SyncAction}
    (hsrc : (src.map Prod.fst).Nodup) (htgt : (tgt.map Prod.fst).Nodup)
    (ha : a ∈ keyActions src tgt cf p) :
    a ∈ (createSyncPlan src tgt cf).1.Actions := by
  rw [← unsorted_filter_key hsrc htgt p] at ha
  exact mem_plan_actions.mpr (List.mem_of_mem_filter ha)

theorem mem_keyActions_of_mem_acts {src tgt : List (String × FileInfo)}
    {cf : ChecksumFn} {a : SyncAction}
    (hsrc : (src.map Prod.fst).Nodup) (htgt : (tgt.map Prod.fst).Nodup)
    (ha : a ∈ (createSyncPlan src tgt cf).1.Actions) :
    a ∈ keyActions src tgt cf a.RelPath := by
  rw [← unsorted_filter_key hsrc htgt a.RelPath]
  exact List.mem_filter.mpr ⟨mem_plan_actions.mp ha, by simp⟩

theorem no_action_at_key {src tgt : List (String × FileInfo)} {cf : ChecksumFn}
    {p : String}
    (hsrc : (src.map Prod.fst).Nodup) (htgt : (tgt.map Prod.fst).Nodup)
    (hkey : keyActions src tgt cf p = []) :
    ∀ a ∈ (createSyncPlan src tgt cf).1.Actions, a.RelPath ≠ p := by
  intro a ha hrel
  have h1 := mem_keyActions_of_mem_acts hsrc htgt ha
  rw [hrel, hkey] at h1
  exact absurd h1 (List.not_mem_nil a)

theorem delete_action_provenance {src tgt : List (String × FileInfo)}
    {cf : ChecksumFn} {a : SyncAction}
    (hsrc : (src.map Prod.fst).Nodup) (htgt : (tgt.map Prod.fst).Nodup)
    (ha : a ∈ (createSyncPlan src tgt cf).1.Actions) (htyp : a.Typ = .Delete) :
    ∃ t, tgt.lookup a.RelPath = some t ∧ a.TargetInfo = some t ∧
      (src.lookup a.RelPath = none ∨
        ∃ s, src.lookup a.RelPath = some s ∧ s.IsDir ≠ t.IsDir) := by
  have hk := mem_keyActions_of_mem_acts hsrc htgt ha
  unfold keyActions at hk
  cases hs : src.lookup a.RelPath with
  | none =>
    cases ht : tgt.lookup a.RelPath with
    | none =>
      rw [hs, ht] at hk
      exact absurd hk (List.not_mem_nil a)
    | some t =>
      rw [hs, ht] at hk
      have heq := List.mem_singleton.mp hk
      exact ⟨t, rfl, by rw [heq], Or.inl rfl⟩
  | some sfi =>
    cases ht : tgt.lookup a.RelPath with
    | none =>
      rw [hs, ht] at hk
      have heq := List.mem_singleton.mp hk
      rw [heq] at htyp
      simp at htyp
    | some t =>
      rw [hs, ht] at hk
      dsimp only at hk
      by_cases hdir : sfi.IsDir ≠ t.IsDir
      · rw [if_pos hdir] at hk
        rcases List.mem_cons.mp hk with heq | hk2
        · exact ⟨t, rfl, by rw [heq], Or.inr ⟨sfi, rfl, hdir⟩⟩
        · have heq := List.mem_singleton.mp hk2
          rw [heq] at htyp
          simp at htyp
      · rw [if_neg hdir] at hk
        by_cases hd : sfi.IsDir
        · rw [if_pos hd] at hk
          exact absurd hk (List.not_mem_nil a)
        · rw [if_neg hd] at hk
          by_cases hnu : needsUpdateResolved sfi t cf
          · rw [if_pos hnu] at hk
            have heq := List.mem_singleton.mp hk
            rw [heq] at htyp
            simp at htyp
          · rw [if_neg hnu] at hk
            exact absurd hk (List.not_mem_nil a)

theorem nondelete_action_provenance {src tgt : List (String × FileInfo)}
    {cf : ChecksumFn} {a : SyncAction}
    (hsrc : (src.map Prod.fst).Nodup) (htgt : (tgt.map Prod.fst).Nodup)
    (ha : a ∈ (createSyncPlan src tgt cf).1.Actions) (htyp : a.Typ ≠ .Delete) :
    ∃ s, src.lookup a.RelPath = some s ∧ a.SourceInfo = some s ∧
      ((a.Typ = .Add ∧ (tgt.lookup a.RelPath = none ∨
          ∃ t, tgt.lookup a.RelPath = some t ∧ s.IsDir ≠ t.IsDir)) ∨
        (a.Typ = .Update ∧ ∃ t, tgt.lookup a.RelPath = some t ∧
          s.IsDir = false ∧ t.IsDir = false ∧ needsUpdateResolved s t cf = true)) := by
  have hk := mem_keyActions_of_mem_acts hsrc htgt ha
  unfold keyActions at hk
  cases hs : src.lookup a.RelPath with
  | none =>
    cases ht : tgt.lookup a.RelPath with
    | none =>
      rw [hs, ht] at hk
      exact absurd hk (List.not_mem_nil a)
    | some t =>
      rw [hs, ht] at hk
      have heq := List.mem_singleton.mp hk
      rw [heq] at htyp
      exact absurd rfl htyp
  | some sfi =>
    cases ht : tgt.lookup a.RelPath with
    | none =>
      rw [hs, ht] at hk
      have heq := List.mem_singleton.mp hk
      exact ⟨sfi, rfl, by rw [heq], Or.inl ⟨by rw [heq], Or.inl rfl⟩⟩
    | some t =>
      rw [hs, ht] at hk
      dsimp only at hk
      by_cases hdir : sfi.IsDir ≠ t.IsDir
      · rw [if_pos hdir] at hk
        rcases List.mem_cons.mp hk with heq | hk2
        · rw [heq] at htyp
          exact absurd rfl htyp
        · have heq := List.mem_singleton.mp hk2
          exact ⟨sfi, rfl, by rw [heq], Or.inl ⟨by rw [heq], Or.inr ⟨t, rfl, hdir⟩⟩⟩
      · rw [if_neg hdir] at hk
        by_cases hd : sfi.IsDir
        · rw [if_pos hd] at hk
          exact absurd hk (List.not_mem_nil a)
        · rw [if_neg hd] at hk
          by_cases hnu : needsUpdateResolved sfi t cf
          · rw [if_pos hnu] at hk
            have heq := List.mem_singleton.mp hk
            push_neg at hdir
            refine ⟨sfi, rfl, by rw [heq], Or.inr ⟨by rw [heq], t, rfl, ?_, ?_, hnu⟩⟩
            · simpa using hd
            · rw [← hdir]
              simpa using hd
          · rw [if_neg hnu] at hk
            exact absurd hk (List.not_mem_nil a)

theorem plan_typ_add_or_update {src tgt : List (String × FileInfo)}
    {cf : ChecksumFn} {a : SyncAction}
    (ha : a ∈ (createSyncPlan src tgt cf).1.Actions) (htyp : a.Typ ≠ .Delete) :
    a.Typ = .Add ∨ a.Typ = .Update := by
  have hne := unsortedActions_typ_ne_none a (mem_plan_actions.mp ha)
  cases h : a.Typ with
  | Add => exact Or.inl rfl
  | Update => exact Or.inr rfl
  | Delete => exact absurd h htyp
  | NoneType => exact absurd h hne


/-! ## The full pipeline: scan, plan, apply, re-plan -/

theorem srcReadOf_prefix (srcFS : FS) (p : String) :
    srcReadOf srcFS ("SRC/" ++ p) = fsLookup srcFS p := by
  unfold srcReadOf
  rw [lookup_map_prefixed, fsLookup_eq_lookup]

theorem replan_source_dir_nil (srcFS tgt' : FS) (hf : String → String)
    (ht'nod : (tgt'.map Prod.fst).Nodup)
    {p : String} {sn n' : Node}
    (hsdir : sn.isDir = true)
    (hla : fsLookup tgt' p = some n') (hdir' : n'.isDir = true)
    (hbase : pathBase p ≠ ".sync-ignore") :
    sourceActions (scanDirectory "TGT" none tgt') (fsChecksum srcFS tgt' hf)
      (p, toFileInfo "SRC" p sn) = [] := by
  have hlook := @scan_lookup_of_node tgt' ht'nod "TGT" none p n' hla
    ((scanIncluded_none_iff p).mpr hbase)
  simp only [sourceActions]
  rw [hlook]
  simp [toFileInfo, hsdir, hdir']

theorem replan_source_file_nil (srcFS tgt' : FS) (hf : String → String)
    (ht'nod : (tgt'.map Prod.fst).Nodup)
    {p : String} {sn : Node} {md : Nat}
    (hsdir : sn.isDir = false)
    (hla : fsLookup tgt' p = some ⟨false, sn.size, md, sn.modTime, sn.content⟩)
    (hbase : pathBase p ≠ ".sync-ignore") :
    sourceActions (scanDirectory "TGT" none tgt') (fsChecksum srcFS tgt' hf)
      (p, toFileInfo "SRC" p sn) = [] := by
  have hlook := @scan_lookup_of_node tgt' ht'nod "TGT" none p
    ⟨false, sn.size, md, sn.modTime, sn.content⟩ hla
    ((scanIncluded_none_iff p).mpr hbase)
  have hnu := (@needsUpdate_no_change (toFileInfo "SRC" p sn)
    (toFileInfo "TGT" p ⟨false, sn.size, md, sn.modTime, sn.content⟩)
    (fsChecksum srcFS tgt' hf)
    (by simp [toFileInfo, hsdir]) (by simp [toFileInfo, hsdir])
    (by simp [toFileInfo]) (by simp [toFileInfo])).1
  simp only [sourceActions]
  rw [hlook]
  simp only [toFileInfo] at hnu ⊢
  rw [hnu]
  simp [hsdir]

theorem replan_source_nochange_nil (srcFS tgt' : FS) (hf : String → String)
    (ht'nod : (tgt'.map Prod.fst).Nodup)
    {p : String} {sn tn : Node}
    (hsdir : sn.isDir = false) (htdir : tn.isDir = false)
    (hla : fsLookup tgt' p = some tn)
    (hbase : pathBase p ≠ ".sync-ignore")
    (hres : needsUpdateResolved (toFileInfo "SRC" p sn) (toFileInfo "TGT" p tn)
      (fsChecksum srcFS tgt' hf) = false) :
    sourceActions (scanDirectory "TGT" none tgt') (fsChecksum srcFS tgt' hf)
      (p, toFileInfo "SRC" p sn) = [] := by
  have hlook := @scan_lookup_of_node tgt' ht'nod "TGT" none p tn hla
    ((scanIncluded_none_iff p).mpr hbase)
  have hok : (toFileInfo "SRC" p sn).NeedsUpdate (toFileInfo "TGT" p tn)
      (fsChecksum srcFS tgt' hf) = .ok false := by
    unfold needsUpdateResolved at hres
    cases hnu : (toFileInfo "SRC" p sn).NeedsUpdate (toFileInfo "TGT" p tn)
        (fsChecksum srcFS tgt' hf) with
    | error e =>
      rw [hnu] at hres
      simp at hres
    | ok b =>
      rw [hnu] at hres
      simp at hres
      rw [hres]
  simp only [sourceActions]
  rw [hlook]
  simp only [toFileInfo] at hok ⊢
  rw [hok]
  simp [hsdir, htdir]

theorem no_hit_of_common_key (srcFS tgtFS : FS) (mat : String → Bool)
    (hf : String → String)
    (hwfS : WfFS srcFS) (hwfT : WfFS tgtFS)
    {dels : List SyncAction}
    (hdin : ∀ a ∈ dels, a ∈ (createSyncPlan (scanDirectory "SRC" (some mat) srcFS)
        (scanDirectory "TGT" none tgtFS) (fsChecksum srcFS tgtFS hf)).1.Actions)
    (hdels : ∀ a ∈ dels, a.Typ = .Delete)
    {p : String} {sn tn : Node}
    (hsn : fsLookup srcFS p = some sn) (htn : fsLookup tgtFS p = some tn)
    (hincS : scanIncluded (some mat) p = true)
    (hkind : sn.isDir = tn.isDir) :
    ¬ deleteHits dels p := by
  have hsnod := hwfS.keys_nodup
  have htnod := hwfT.keys_nodup
  have hsmnod := scanDirectory_keys_nodup hsnod "SRC" (some mat)
  have htmnod := scanDirectory_keys_nodup htnod "TGT" none
  rintro ⟨d, hd, hcl⟩
  have hdacts := hdin d hd
  have hddel := hdels d hd
  obtain ⟨t, htl, hti, hcases⟩ := delete_action_provenance hsmnod htmnod hdacts hddel
  rcases hcl with heq | ⟨hflag, hanc⟩
  · subst heq
    obtain ⟨tn2, htn2, hincT, rfl⟩ := scan_lookup_some_elim htnod htl
    rw [htn] at htn2
    injection htn2 with htn2
    have hsm := @scan_lookup_of_node srcFS hsnod "SRC" (some mat) _ sn hsn hincS
    rcases hcases with hnone | ⟨s, hssome, hmis⟩
    · rw [hsm] at hnone
      cases hnone
    · rw [hsm] at hssome
      injection hssome with hssome
      apply hmis
      rw [← hssome, ← htn2]
      simp [toFileInfo, hkind]
  · obtain ⟨rn, hrn, hincr, rfl⟩ := scan_lookup_some_elim htnod htl
    have hrdir : rn.isDir = true := by
      rw [hti] at hflag
      simpa [toFileInfo] using hflag
    have hvp : ValidPath p := hwfS.valid_of_lookup hsn
    have hvr : ValidPath d.RelPath := hwfT.valid_of_lookup hrn
    have hrmem : d.RelPath ∈ properAncestors p := mem_properAncestors_of_strict hvp hvr hanc
    obtain ⟨rm, hrm, hrmdir⟩ := hwfS.ancestors_dirs hsn d.RelPath hrmem
    obtain ⟨hbaseS, hhitS, hancS⟩ := scanIncluded_elim hincS
    have hbr : pathBase d.RelPath ≠ ".sync-ignore" := (scanIncluded_elim hincr).1
    have hincSr : scanIncluded (some mat) d.RelPath = true := by
      apply scanIncluded_intro hbr (hancS d.RelPath hrmem)
      intro q hq
      exact hancS q (properAncestors_trans hvp hrmem hq)
    have hsmr := @scan_lookup_of_node srcFS hsnod "SRC" (some mat) _ rm hrm hincSr
    rcases hcases with hnone | ⟨s, hssome, hmis⟩
    · rw [hsmr] at hnone
      cases hnone
    · rw [hsmr] at hssome
      injection hssome with hssome
      apply hmis
      rw [← hssome]
      simp [toFileInfo, hrmdir, hrdir]


theorem absPath_src (p : String) (n : Node) :
    (toFileInfo "SRC" p n).AbsPath = "SRC/" ++ p := by
  show "SRC" ++ "/" ++ p = "SRC/" ++ p
  rw [show "SRC" ++ "/" = "SRC/" from rfl]

theorem absPath_tgt (p : String) (n : Node) :
    (toFileInfo "TGT" p n).AbsPath = "TGT/" ++ p := by
  show "TGT" ++ "/" ++ p = "TGT/" ++ p
  rw [show "TGT" ++ "/" = "TGT/" from rfl]

theorem srcReadOf_abs (srcFS : FS) (p : String) (n : Node) :
    srcReadOf srcFS ((toFileInfo "SRC" p n).AbsPath) = fsLookup srcFS p := by
  rw [absPath_src]
  exact srcReadOf_prefix srcFS p

theorem replan_after_add_dir (srcFS D : FS) (hf : String → String)
    {pre post : List SyncAction} {ti : Option FileInfo} {p : String} {sn : Node}
    (ht'nod : (((applyActions (srcReadOf srcFS) D
        (pre ++ (⟨.Add, some (toFileInfo "SRC" p sn), ti, p⟩ : SyncAction) :: post)).1).map
        Prod.fst).Nodup)
    (htyp : ∀ b ∈ pre ++ (⟨.Add, some (toFileInfo "SRC" p sn), ti, p⟩ : SyncAction) :: post,
      b.Typ = .Add ∨ b.Typ = .Update)
    (hkeys : ∀ b ∈ pre ++ post, b.RelPath ≠ p)
    (hsd : sn.isDir = true)
    (hvp : ValidPath p)
    (hinit : fsLookup D p = none)
    (herr : (applyActions (srcReadOf srcFS) D
      (pre ++ (⟨.Add, some (toFileInfo "SRC" p sn), ti, p⟩ : SyncAction) :: post)).2 = [])
    (hbase : pathBase p ≠ ".sync-ignore") :
    sourceActions
      (scanDirectory "TGT" none (applyActions (srcReadOf srcFS) D
        (pre ++ (⟨.Add, some (toFileInfo "SRC" p sn), ti, p⟩ : SyncAction) :: post)).1)
      (fsChecksum srcFS (applyActions (srcReadOf srcFS) D
        (pre ++ (⟨.Add, some (toFileInfo "SRC" p sn), ti, p⟩ : SyncAction) :: post)).1 hf)
      (p, toFileInfo "SRC" p sn) = [] := by
  obtain ⟨n', hn', hdir'⟩ := applyNonDels_final_dir htyp hkeys rfl rfl
    (by simp [toFileInfo, hsd]) hvp hinit herr
  exact replan_source_dir_nil srcFS _ hf ht'nod hsd hn' hdir' hbase

theorem replan_after_copy (srcFS D : FS) (hf : String → String)
    {pre post : List SyncAction} {typ0 : SyncActionType} {ti : Option FileInfo}
    {p : String} {sn : Node}
    (ht'nod : (((applyActions (srcReadOf srcFS) D
        (pre ++ (⟨typ0, some (toFileInfo "SRC" p sn), ti, p⟩ : SyncAction) :: post)).1).map
        Prod.fst).Nodup)
    (htyp : ∀ b ∈ pre ++ (⟨typ0, some (toFileInfo "SRC" p sn), ti, p⟩ : SyncAction) :: post,
      b.Typ = .Add ∨ b.Typ = .Update)
    (hkeys : ∀ b ∈ pre ++ post, b.RelPath ≠ p)
    (hsd : sn.isDir = false)
    (hsrc : fsLookup srcFS p = some sn)
    (herr : (applyActions (srcReadOf srcFS) D
      (pre ++ (⟨typ0, some (toFileInfo "SRC" p sn), ti, p⟩ : SyncAction) :: post)).2 = [])
    (hbase : pathBase p ≠ ".sync-ignore") :
    sourceActions
      (scanDirectory "TGT" none (applyActions (srcReadOf srcFS) D
        (pre ++ (⟨typ0, some (toFileInfo "SRC" p sn), ti, p⟩ : SyncAction) :: post)).1)
      (fsChecksum srcFS (applyActions (srcReadOf srcFS) D
        (pre ++ (⟨typ0, some (toFileInfo "SRC" p sn), ti, p⟩ : SyncAction) :: post)).1 hf)
      (p, toFileInfo "SRC" p sn) = [] := by
  obtain ⟨sn', md, hsn', hsd', hval⟩ := applyNonDels_final_copy htyp hkeys rfl
    (by simp [toFileInfo, hsd]) herr
  rw [srcReadOf_abs, hsrc] at hsn'
  injection hsn' with hsneq
  subst hsneq
  exact replan_source_file_nil srcFS _ hf ht'nod hsd hval hbase


/-- Core idempotence of one scan-plan-apply round, for an arbitrary
source-side matcher: over well-formed source and target trees, if the
apply phase reports no errors, then re-scanning both roots and
re-planning produces an empty action list. -/
theorem sync_apply_idempotent (srcFS tgtFS : FS) (mat : String → Bool) (hf : String → String)
    (hwfS : WfFS srcFS) (hwfT : WfFS tgtFS)
    (herr : (applyOnce srcFS tgtFS mat hf).2 = []) :
    (syncOnce srcFS (applyOnce srcFS tgtFS mat hf).1 mat hf).1.Actions = [] := by
  have hsnod := hwfS.keys_nodup
  have htnod := hwfT.keys_nodup
  have hsmnod := scanDirectory_keys_nodup hsnod "SRC" (some mat)
  have htmnod := scanDirectory_keys_nodup htnod "TGT" none
  unfold applyOnce syncOnce at herr ⊢
  obtain ⟨dels, nonDels, hsplit, hdels, hnondels⟩ :=
    split_deletes
      ((createSyncPlan (scanDirectory "SRC" (some mat) srcFS)
        (scanDirectory "TGT" none tgtFS) (fsChecksum srcFS tgtFS hf)).1.Actions)
      (plan_deletes_prefix_pairwise (scanDirectory "SRC" (some mat) srcFS)
        (scanDirectory "TGT" none tgtFS) (fsChecksum srcFS tgtFS hf))
  have hdin : ∀ a ∈ dels, a ∈ (createSyncPlan (scanDirectory "SRC" (some mat) srcFS)
      (scanDirectory "TGT" none tgtFS) (fsChecksum srcFS tgtFS hf)).1.Actions := by
    intro a ha
    rw [hsplit]
    exact List.mem_append.mpr (Or.inl ha)
  have hnin : ∀ a ∈ nonDels, a ∈ (createSyncPlan (scanDirectory "SRC" (some mat) srcFS)
      (scanDirectory "TGT" none tgtFS) (fsChecksum srcFS tgtFS hf)).1.Actions := by
    intro a ha
    rw [hsplit]
    exact List.mem_append.mpr (Or.inr ha)
  have hndtyp : ∀ b ∈ nonDels, b.Typ = .Add ∨ b.Typ = .Update :=
    fun b hb => plan_typ_add_or_update (hnin b hb) (hnondels b hb)
  rw [hsplit] at herr
  have herr2 : (applyActions (srcReadOf srcFS) tgtFS dels).2 ++
      (applyActions (srcReadOf srcFS)
        (applyActions (srcReadOf srcFS) tgtFS dels).1 nonDels).2 = [] := by
    rw [applyActions_append] at herr
    exact herr
  rcases List.append_eq_nil.mp herr2 with ⟨herrD, herrN⟩
  have hprov : ∀ a ∈ dels, a.Typ = .Delete ∧ ∃ tn, fsLookup tgtFS a.RelPath = some tn ∧
      a.TargetInfo = some (toFileInfo "TGT" a.RelPath tn) := by
    intro a ha
    refine ⟨hdels a ha, ?_⟩
    obtain ⟨t, htl, hti, -⟩ :=
      delete_action_provenance hsmnod htmnod (hdin a ha) (hdels a ha)
    obtain ⟨tn, htn, hincT, heq⟩ := scan_lookup_some_elim htnod htl
    exact ⟨tn, htn, by rw [hti, heq]⟩
  have hdnod : (dels.map (fun a => a.RelPath)).Nodup :=
    dels_keys_nodup hsmnod htmnod hsplit hdels
  obtain ⟨hD, hDerr⟩ := applyDeletes_char (srcReadOf srcFS) tgtFS dels hprov hdnod
  generalize hT'eq : (applyActions (srcReadOf srcFS) tgtFS
      (createSyncPlan (scanDirectory "SRC" (some mat) srcFS)
        (scanDirectory "TGT" none tgtFS) (fsChecksum srcFS tgtFS hf)).1.Actions).1 = T'
  have ht'nod : (T'.map Prod.fst).Nodup := by
    rw [← hT'eq]
    exact applyActions_keys_nodup htnod _
  have ht'mnod := scanDirectory_keys_nodup ht'nod "TGT" none
  have hT'2 : T' = (applyActions (srcReadOf srcFS)
      (applyActions (srcReadOf srcFS) tgtFS dels).1 nonDels).1 := by
    rw [← hT'eq, hsplit, applyActions_append]
  have hu : unsortedActions (scanDirectory "SRC" (some mat) srcFS)
      (scanDirectory "TGT" none T') (fsChecksum srcFS T' hf) = [] := by
    unfold unsortedActions
    refine List.append_eq_nil.mpr ⟨?_, ?_⟩
    · rw [List.flatMap_eq_nil_iff]
      rintro ⟨p, sfi⟩ he
      have hsml : (scanDirectory "SRC" (some mat) srcFS).lookup p = some sfi :=
        lookup_of_mem_nodup hsmnod he
      obtain ⟨sn, hsn, hincS, hsfieq⟩ := scan_lookup_some_elim hsnod hsml
      subst hsfieq
      have hbase : pathBase p ≠ ".sync-ignore" := (scanIncluded_elim hincS).1
      have hvp : ValidPath p := hwfS.valid_of_lookup hsn
      cases htl : fsLookup tgtFS p with
      | none =>
        have html : (scanDirectory "TGT" none tgtFS).lookup p = none :=
          scan_lookup_none_of_fs_none htnod htl
        have hkA : keyActions (scanDirectory "SRC" (some mat) srcFS)
            (scanDirectory "TGT" none tgtFS) (fsChecksum srcFS tgtFS hf) p =
            [⟨.Add, some (toFileInfo "SRC" p sn), none, p⟩] := by
          unfold keyActions
          rw [hsml, html]
        have ha0acts : (⟨.Add, some (toFileInfo "SRC" p sn), none, p⟩ : SyncAction) ∈
            (createSyncPlan (scanDirectory "SRC" (some mat) srcFS)
              (scanDirectory "TGT" none tgtFS) (fsChecksum srcFS tgtFS hf)).1.Actions :=
          mem_acts_of_mem_keyActions hsmnod htmnod
            (by rw [hkA]; exact List.mem_singleton.mpr rfl)
        have ha0non : (⟨.Add, some (toFileInfo "SRC" p sn), none, p⟩ : SyncAction) ∈
            nonDels := by
          rcases List.mem_append.mp (hsplit ▸ ha0acts) with h | h
          · have := hdels _ h
            simp at this
          · exact h
        obtain ⟨pre, post, hctx⟩ := List.append_of_mem ha0non
        have hkeys := nondels_key_unique hsmnod htmnod hsplit hnondels hctx
        have hinitD : fsLookup (applyActions (srcReadOf srcFS) tgtFS dels).1 p = none := by
          rw [hD p]
          by_cases hh : deleteHits dels p
          · rw [if_pos hh]
          · rw [if_neg hh]
            exact htl
        rw [hT'2, hctx]
        rw [hT'2, hctx] at ht'nod
        rw [hctx] at herrN hndtyp
        cases hsd : sn.isDir with
        | true =>
          exact replan_after_add_dir srcFS _ hf ht'nod hndtyp hkeys hsd hvp hinitD
            herrN hbase
        | false =>
          exact replan_after_copy srcFS _ hf ht'nod hndtyp hkeys hsd hsn herrN hbase
      | some tn =>
        have html : (scanDirectory "TGT" none tgtFS).lookup p =
            some (toFileInfo "TGT" p tn) :=
          @scan_lookup_of_node tgtFS htnod "TGT" none p tn htl
            ((scanIncluded_none_iff p).mpr hbase)
        by_cases hkind : sn.isDir = tn.isDir
        · have hnohit : ¬ deleteHits dels p :=
            no_hit_of_common_key srcFS tgtFS mat hf hwfS hwfT hdin hdels hsn htl
              hincS hkind
          cases hsd : sn.isDir with
          | true =>
            have htd : tn.isDir = true := by rw [← hkind]; exact hsd
            have hkey : keyActions (scanDirectory "SRC" (some mat) srcFS)
                (scanDirectory "TGT" none tgtFS) (fsChecksum srcFS tgtFS hf) p = [] := by
              unfold keyActions
              rw [hsml, html]
              simp [toFileInfo, hsd, htd]
            have hnoact := no_action_at_key hsmnod htmnod hkey
            have hT'p : fsLookup T' p = some tn := by
              rw [hT'2]
              refine applyNonDels_preserve_some hndtyp
                (fun b hb => hnoact b (hnin b hb)) ?_
              rw [hD p, if_neg hnohit]
              exact htl
            exact replan_source_dir_nil srcFS T' hf ht'nod hsd hT'p htd hbase
          | false =>
            have htd : tn.isDir = false := by rw [← hkind]; exact hsd
            by_cases hres : needsUpdateResolved (toFileInfo "SRC" p sn)
                (toFileInfo "TGT" p tn) (fsChecksum srcFS tgtFS hf) = true
            · have hkU : keyActions (scanDirectory "SRC" (some mat) srcFS)
                  (scanDirectory "TGT" none tgtFS) (fsChecksum srcFS tgtFS hf) p =
                  [⟨.Update, some (toFileInfo "SRC" p sn),
                    some (toFileInfo "TGT" p tn), p⟩] := by
                unfold keyActions
                rw [hsml, html]
                dsimp only
                rw [if_neg (show ¬ (toFileInfo "SRC" p sn).IsDir ≠
                  (toFileInfo "TGT" p tn).IsDir by simp [toFileInfo, hsd, htd])]
                rw [if_neg (show ¬ (toFileInfo "SRC" p sn).IsDir = true by
                  simp [toFileInfo, hsd])]
                rw [if_pos hres]
              have ha0acts : (⟨.Update, some (toFileInfo "SRC" p sn),
                  some (toFileInfo "TGT" p tn), p⟩ : SyncAction) ∈
                  (createSyncPlan (scanDirectory "SRC" (some mat) srcFS)
                    (scanDirectory "TGT" none tgtFS)
                    (fsChecksum srcFS tgtFS hf)).1.Actions :=
                mem_acts_of_mem_keyActions hsmnod htmnod
                  (by rw [hkU]; exact List.mem_singleton.mpr rfl)
              have ha0non : (⟨.Update, some (toFileInfo "SRC" p sn),
                  some (toFileInfo "TGT" p tn), p⟩ : SyncAction) ∈ nonDels := by
                rcases List.mem_append.mp (hsplit ▸ ha0acts) with h | h
                · have := hdels _ h
                  simp at this
                · exact h
              obtain ⟨pre, post, hctx⟩ := List.append_of_mem ha0non
              have hkeys := nondels_key_unique hsmnod htmnod hsplit hnondels hctx
              rw [hT'2, hctx]
              rw [hT'2, hctx] at ht'nod
              rw [hctx] at herrN hndtyp
              exact replan_after_copy srcFS _ hf ht'nod hndtyp hkeys hsd hsn herrN hbase
            · have hkey : keyActions (scanDirectory "SRC" (some mat) srcFS)
                  (scanDirectory "TGT" none tgtFS) (fsChecksum srcFS tgtFS hf) p = [] := by
                unfold keyActions
                rw [hsml, html]
                dsimp only
                rw [if_neg (show ¬ (toFileInfo "SRC" p sn).IsDir ≠
                  (toFileInfo "TGT" p tn).IsDir by simp [toFileInfo, hsd, htd])]
                rw [if_neg (show ¬ (toFileInfo "SRC" p sn).IsDir = true by
                  simp [toFileInfo, hsd])]
                rw [if_neg hres]
              have hnoact := no_action_at_key hsmnod htmnod hkey
              have hT'p : fsLookup T' p = some tn := by
                rw [hT'2]
                refine applyNonDels_preserve_some hndtyp
                  (fun b hb => hnoact b (hnin b hb)) ?_
                rw [hD p, if_neg hnohit]
                exact htl
              have hcf1 : fsChecksum srcFS tgtFS hf (toFileInfo "SRC" p sn).AbsPath =
                  fsChecksum srcFS T' hf (toFileInfo "SRC" p sn).AbsPath := by
                rw [absPath_src, fsChecksum_src, fsChecksum_src]
              have hcf2 : fsChecksum srcFS tgtFS hf (toFileInfo "TGT" p tn).AbsPath =
                  fsChecksum srcFS T' hf (toFileInfo "TGT" p tn).AbsPath := by
                rw [absPath_tgt, fsChecksum_tgt, fsChecksum_tgt, htl, hT'p]
              have hres' : needsUpdateResolved (toFileInfo "SRC" p sn)
                  (toFileInfo "TGT" p tn) (fsChecksum srcFS T' hf) = false := by
                rw [← needsUpdateResolved_congr hcf1 hcf2]
                cases hx : needsUpdateResolved (toFileInfo "SRC" p sn)
                    (toFileInfo "TGT" p tn) (fsChecksum srcFS tgtFS hf)
                · rfl
                · exact absurd hx hres
              exact replan_source_nochange_nil srcFS T' hf ht'nod hsd htd hT'p hbase hres'
        · have hmis : (toFileInfo "SRC" p sn).IsDir ≠ (toFileInfo "TGT" p tn).IsDir := by
            simpa [toFileInfo] using hkind
          have hkM : keyActions (scanDirectory "SRC" (some mat) srcFS)
              (scanDirectory "TGT" none tgtFS) (fsChecksum srcFS tgtFS hf) p =
              [⟨.Delete, none, some (toFileInfo "TGT" p tn), p⟩,
                ⟨.Add, some (toFileInfo "SRC" p sn), some (toFileInfo "TGT" p tn), p⟩] := by
            unfold keyActions
            rw [hsml, html]
            dsimp only
            rw [if_pos hmis]
          have hd0acts : (⟨.Delete, none, some (toFileInfo "TGT" p tn), p⟩ : SyncAction) ∈
              (createSyncPlan (scanDirectory "SRC" (some mat) srcFS)
                (scanDirectory "TGT" none tgtFS) (fsChecksum srcFS tgtFS hf)).1.Actions :=
            mem_acts_of_mem_keyActions hsmnod htmnod
              (by rw [hkM]; exact List.mem_cons_self _ _)
          have hd0dels : (⟨.Delete, none, some (toFileInfo "TGT" p tn), p⟩ : SyncAction) ∈
              dels := by
            rcases List.mem_append.mp (hsplit ▸ hd0acts) with h | h
            · exact h
            · have := hnondels _ h
              simp at this
          have hhit : deleteHits dels p := ⟨_, hd0dels, Or.inl rfl⟩
          have ha0acts : (⟨.Add, some (toFileInfo "SRC" p sn),
              some (toFileInfo "TGT" p tn), p⟩ : SyncAction) ∈
              (createSyncPlan (scanDirectory "SRC" (some mat) srcFS)
                (scanDirectory "TGT" none tgtFS) (fsChecksum srcFS tgtFS hf)).1.Actions :=
            mem_acts_of_mem_keyActions hsmnod htmnod
              (by rw [hkM]; exact List.mem_cons_of_mem _ (List.mem_singleton.mpr rfl))
          have ha0non : (⟨.Add, some (toFileInfo "SRC" p sn),
              some (toFileInfo "TGT" p tn), p⟩ : SyncAction) ∈ nonDels := by
            rcases List.mem_append.mp (hsplit ▸ ha0acts) with h | h
            · have := hdels _ h
              simp at this
            · exact h
          obtain ⟨pre, post, hctx⟩ := List.append_of_mem ha0non
          have hkeys := nondels_key_unique hsmnod htmnod hsplit hnondels hctx
          have hinitD : fsLookup (applyActions (srcReadOf srcFS) tgtFS dels).1 p =
              none := by
            rw [hD p, if_pos hhit]
          rw [hT'2, hctx]
          rw [hT'2, hctx] at ht'nod
          rw [hctx] at herrN hndtyp
          cases hsd : sn.isDir with
          | true =>
            exact replan_after_add_dir srcFS _ hf ht'nod hndtyp hkeys hsd hvp hinitD
              herrN hbase
          | false =>
            exact replan_after_copy srcFS _ hf ht'nod hndtyp hkeys hsd hsn herrN hbase
    · rw [List.flatMap_eq_nil_iff]
      rintro ⟨q, tq⟩ he
      have hql : (scanDirectory "TGT" none T').lookup q = some tq :=
        lookup_of_mem_nodup ht'mnod he
      obtain ⟨n', hn', hqinc, -⟩ := scan_lookup_some_elim ht'nod hql
      have hbq : pathBase q ≠ ".sync-ignore" := (scanIncluded_elim hqinc).1
      cases hsq : (scanDirectory "SRC" (some mat) srcFS).lookup q with
      | some v =>
        unfold targetActions
        rw [hsq]
      | none =>
        exfalso
        have hn'2 : fsLookup (applyActions (srcReadOf srcFS)
            (applyActions (srcReadOf srcFS) tgtFS dels).1 nonDels).1 q = some n' := by
          rw [← hT'2]
          exact hn'
        cases hDq : fsLookup (applyActions (srcReadOf srcFS) tgtFS dels).1 q with
        | some v =>
          have hhd := hD q
          rw [hDq] at hhd
          by_cases hh : deleteHits dels q
          · rw [if_pos hh] at hhd
            cases hhd
          · rw [if_neg hh] at hhd
            have htq0 : fsLookup tgtFS q = some v := hhd.symm
            have htmq : (scanDirectory "TGT" none tgtFS).lookup q =
                some (toFileInfo "TGT" q v) :=
              @scan_lookup_of_node tgtFS htnod "TGT" none q v htq0 hqinc
            have hkq : keyActions (scanDirectory "SRC" (some mat) srcFS)
                (scanDirectory "TGT" none tgtFS) (fsChecksum srcFS tgtFS hf) q =
                [⟨.Delete, none, some (toFileInfo "TGT" q v), q⟩] := by
              unfold keyActions
              rw [hsq, htmq]
            have hdq : (⟨.Delete, none, some (toFileInfo "TGT" q v), q⟩ : SyncAction) ∈
                (createSyncPlan (scanDirectory "SRC" (some mat) srcFS)
                  (scanDirectory "TGT" none tgtFS) (fsChecksum srcFS tgtFS hf)).1.Actions :=
              mem_acts_of_mem_keyActions hsmnod htmnod
                (by rw [hkq]; exact List.mem_singleton.mpr rfl)
            have hddels : (⟨.Delete, none, some (toFileInfo "TGT" q v), q⟩ : SyncAction) ∈
                dels := by
              rcases List.mem_append.mp (hsplit ▸ hdq) with h | h
              · exact h
              · have := hnondels _ h
                simp at this
            exact hh ⟨_, hddels, Or.inl rfl⟩
        | none =>
          rcases applyNonDels_lookup_inv hndtyp hn'2 hDq with ⟨b, hb, hbq2⟩ | ⟨b, hb, hbanc⟩
          · obtain ⟨sb, hsb, -, -⟩ :=
              nondelete_action_provenance hsmnod htmnod (hnin b hb) (hnondels b hb)
            rw [hbq2, hsq] at hsb
            cases hsb
          · obtain ⟨sb, hsb, -, -⟩ :=
              nondelete_action_provenance hsmnod htmnod (hnin b hb) (hnondels b hb)
            obtain ⟨bn, hbn, hbinc, -⟩ := scan_lookup_some_elim hsnod hsb
            have hvb : ValidPath b.RelPath := hwfS.valid_of_lookup hbn
            obtain ⟨qm, hqm, hqmdir⟩ := hwfS.ancestors_dirs hbn q hbanc
            obtain ⟨hbb, hbh, hbanc2⟩ := scanIncluded_elim hbinc
            have hqincS : scanIncluded (some mat) q = true := by
              apply scanIncluded_intro hbq (hbanc2 q hbanc)
              intro r hr
              exact hbanc2 r (properAncestors_trans hvb hbanc hr)
            have hsmq := @scan_lookup_of_node srcFS hsnod "SRC" (some mat) q qm hqm hqincS
            rw [hsq] at hsmq
            cases hsmq
  rw [createSyncPlan_eq]
  show stableSort actionLess (unsortedActions (scanDirectory "SRC" (some mat) srcFS)
    (scanDirectory "TGT" none T') (fsChecksum srcFS T' hf)) = []
  rw [hu]
  rfl


/-- C6 (amended): when the ignore-rule load of `Syncer.Run` succeeds and
the apply phase collects no errors, re-scanning and re-planning over
well-formed trees yields an empty plan.  `compile` stands for the
third-party `ignore.CompileIgnoreLines`: idempotence holds for every
compiled membership test, in particular for the one built from the
patterns that `newMatcher` loaded. -/
theorem c6_idempotence (srcFS tgtFS : FS) (cliExcludes pats : List String)
    (compile : List String → String → Bool) (hf : String → String)
    (hwfS : WfFS srcFS) (hwfT : WfFS tgtFS)
    (hmat : newMatcher srcFS cliExcludes = .ok pats)
    (herr : (applyOnce srcFS tgtFS (compile pats) hf).2 = []) :
    (syncOnce srcFS (applyOnce srcFS tgtFS (compile pats) hf).1
      (compile pats) hf).1.Actions = [] :=
  sync_apply_idempotent srcFS tgtFS (compile pats) hf hwfS hwfT herr

/-- C6 counterexample: well-formed trees on which the real pipeline runs
to completion (the source root has no `.sync-ignore` entry, so
`NewMatcher` succeeds with zero patterns, and a pattern-less matcher
matches nothing) yet is not idempotent: the source holds a directory
`d/.sync-ignore` containing a file while the target holds a plain file
`d/.sync-ignore`.  Both scans skip the `.sync-ignore`-named entry itself
but the source scan keeps the file below it, so the plan wants to add
`d/.sync-ignore/x`; the apply phase cannot create the parent directory
over the target's file, the error is only collected, the target tree is
unchanged, and the re-plan still contains the Add. -/
theorem c6_counterexample :
    WfFS [("d", (⟨true, 0, 493, 0, ""⟩ : Node)),
          ("d/.sync-ignore", (⟨true, 0, 493, 0, ""⟩ : Node)),
          ("d/.sync-ignore/x", (⟨false, 1, 420, 0, "a"⟩ : Node))] ∧
    WfFS [("d", (⟨true, 0, 493, 0, ""⟩ : Node)),
          ("d/.sync-ignore", (⟨false, 1, 420, 0, "a"⟩ : Node))] ∧
    newMatcher [("d", (⟨true, 0, 493, 0, ""⟩ : Node)),
          ("d/.sync-ignore", (⟨true, 0, 493, 0, ""⟩ : Node)),
          ("d/.sync-ignore/x", (⟨false, 1, 420, 0, "a"⟩ : Node))] [] =
      Except.ok [] ∧
    ¬ ((syncOnce
        [("d", (⟨true, 0, 493, 0, ""⟩ : Node)),
         ("d/.sync-ignore", (⟨true, 0, 493, 0, ""⟩ : Node)),
         ("d/.sync-ignore/x", (⟨false, 1, 420, 0, "a"⟩ : Node))]
        (applyOnce
          [("d", (⟨true, 0, 493, 0, ""⟩ : Node)),
           ("d/.sync-ignore", (⟨true, 0, 493, 0, ""⟩ : Node)),
           ("d/.sync-ignore/x", (⟨false, 1, 420, 0, "a"⟩ : Node))]
          [("d", (⟨true, 0, 493, 0, ""⟩ : Node)),
           ("d/.sync-ignore", (⟨false, 1, 420, 0, "a"⟩ : Node))]
          (fun _ => false) (fun s => s)).1
        (fun _ => false) (fun s => s)).1.Actions = []) := by
  refine ⟨by decide, by decide, by decide, by decide⟩

theorem c6_idempotence_witness :
    WfFS [("a", (⟨false, 1, 420, 5, "x"⟩ : Node))] ∧ WfFS ([] : FS) ∧
    newMatcher [("a", (⟨false, 1, 420, 5, "x"⟩ : Node))] [] = Except.ok [] ∧
    (applyOnce [("a", (⟨false, 1, 420, 5, "x"⟩ : Node))] ([] : FS) (fun _ => false)
      (fun s => s)).2 = [] ∧
    (syncOnce [("a", (⟨false, 1, 420, 5, "x"⟩ : Node))]
      (applyOnce [("a", (⟨false, 1, 420, 5, "x"⟩ : Node))] ([] : FS) (fun _ => false)
        (fun s => s)).1
      (fun _ => false) (fun s => s)).1.Actions = [] :=
  ⟨by decide, by decide, by decide, by decide,
    c6_idempotence [("a", (⟨false, 1, 420, 5, "x"⟩ : Node))] ([] : FS)
      ([] : List String) ([] : List String) (fun _ => fun _ => false) (fun s => s)
      (by decide) (by decide) (by decide) (by decide)⟩

end SyncDir
